import Mathlib

/-! # NIST STS binary matrix rank test: rank engine and test driver

A shallow embedding of `src/matrix.c` (the GF(2) rank engine and the matrix
materializer) and of the driver functions of `src/rank.c`, followed by theorems about
them.

Conventions of the embedding

* A `BitSequence **` matrix is a function from row and column index to the cell
  value; the dimensions `M` and `Q` travel separately, exactly as in the C code, and
  are natural numbers (`create_matrix` refuses negative ones).
* A C function that mutates the matrix in place returns the new matrix.
* Counters that are only incremented are `Nat`; the rank, which the code decrements,
  and the tallies `F_32`, `F_31`, `F_30` are `Int`.
* A `double` is an element of an arbitrary linearly ordered field `D`, so arithmetic
  and comparisons are exact and there is no NaN.
* C loops are the combinators `forUp` and `forDown` below.
* `struct state` is a value, so the check `state == NULL` of every firewall has no
  counterpart.

The file has two parts: all definitions first, then the theorems.
-/

namespace STS

/-! # Definitions -/

/-! ## Loop combinators -/

/-- The loop `for (j = lo; j < lo + n; j++) a = body j a`. -/
def forUp {α : Type} (lo : Nat) : Nat → (Nat → α → α) → α → α
  | 0, _, a => a
  | n + 1, body, a => body (lo + n) (forUp lo n body a)

/-- The loop `for (j = n - 1; j >= 0; j--) a = body j a`. -/
def forDown {α : Type} : Nat → (Nat → α → α) → α → α
  | 0, _, a => a
  | n + 1, body, a => forDown n body (body n a)

/-! ## The rank engine (`matrix.c`) -/

/-- A matrix of `BitSequence` cells, `A i j` being `A[i][j]`. -/
abbrev BitMatrix := Nat → Nat → Nat

/-- The assignment `A[i][j] = v`. -/
def setCell (A : BitMatrix) (i j v : Nat) : BitMatrix :=
  fun r c => if r = i ∧ c = j then v else A r c

/-- The constant `MATRIX_FORWARD_ELIMINATION`. -/
def MATRIX_FORWARD_ELIMINATION : Nat := 0

/-- The constant `MATRIX_BACKWARD_ELIMINATION`. -/
def MATRIX_BACKWARD_ELIMINATION : Nat := 1

/-- The body of the loop of `swap_rows`:
`temp = A[i][p]; A[i][p] = A[index][p]; A[index][p] = temp;`. -/
def swapCell (i index : Nat) (p : Nat) (A : BitMatrix) : BitMatrix :=
  let temp := A i p
  let A1 := setCell A i p (A index p)
  setCell A1 index p temp

/-- The function `swap_rows`: exchanges rows `i` and `index` cell by cell over the
columns `0 .. Q-1` and returns 1. -/
def swap_rows (i index Q : Nat) (A : BitMatrix) : Nat × BitMatrix :=
  (1, forUp 0 Q (swapCell i index) A)

/-- The assignment `A[j][k] = (A[j][k] + A[i][k]) % 2`. -/
def addCell (i j : Nat) (k : Nat) (A : BitMatrix) : BitMatrix :=
  setCell A j k ((A j k + A i k) % 2)

/-- The function `perform_elementary_row_operations`.  Forward: for `j = i+1 .. M-1`,
when `A[j][i] == 1`, row `i` is added into row `j` over the columns `i .. Q-1`.
Backward: for `j = i-1` down to `0`, when `A[j][i] == 1`, row `i` is added into
row `j` over the columns `0 .. Q-1`. -/
def perform_elementary_row_operations (flag i M Q : Nat) (A : BitMatrix) : BitMatrix :=
  if flag = MATRIX_FORWARD_ELIMINATION then
    forUp (i + 1) (M - (i + 1))
      (fun j B => if B j i = 1 then forUp i (Q - i) (addCell i j) B else B) A
  else
    forDown i (fun j B => if B j i = 1 then forUp 0 Q (addCell i j) B else B) A

/-- The loop `while ((index < M) && (A[index][i] == 0)) index++;` of the forward
search, where the first argument is the number `M - index` of rows still to look
at; the result is the final value of `index`. -/
def scanDown (A : BitMatrix) (i : Nat) : Nat → Nat → Nat
  | 0, index => index
  | n + 1, index => if A index i = 0 then scanDown A i n (index + 1) else index

/-- The loop `while ((index >= 0) && (A[index][i] == 0)) index--;` of the backward
search, where the argument is `index + 1`; the result is `none` when the loop ends
with `index = -1` and `some index` otherwise. -/
def scanUp (A : BitMatrix) (i : Nat) : Nat → Option Nat
  | 0 => none
  | n + 1 => if A n i = 0 then scanUp A i n else some n

/-- The function `find_unit_element_and_swap`: returns `row_op` and the matrix. -/
def find_unit_element_and_swap (flag i M Q : Nat) (A : BitMatrix) : Nat × BitMatrix :=
  if flag = MATRIX_FORWARD_ELIMINATION then
    let index := scanDown A i (M - (i + 1)) (i + 1)
    if index < M then swap_rows i index Q A else (0, A)
  else
    match scanUp A i i with
    | some index => swap_rows i index Q A
    | none => (0, A)

/-- The body shared by the two loops of `computeRank`, for pivot `i`. -/
def pivotStep (flag M Q : Nat) (i : Nat) (A : BitMatrix) : BitMatrix :=
  if A i i = 1 then
    perform_elementary_row_operations flag i M Q A
  else
    let r := find_unit_element_and_swap flag i M Q A
    if r.1 = 1 then perform_elementary_row_operations flag i M Q r.2 else r.2

/-- The first loop of `computeRank`: `for (i = 0; i < m - 1; i++)`. -/
def forwardPass (M Q : Nat) (A : BitMatrix) : BitMatrix :=
  forUp 0 (min M Q - 1) (pivotStep MATRIX_FORWARD_ELIMINATION M Q) A

/-- The second loop of `computeRank`: `for (i = m - 1; i > 0; i--)`. -/
def backwardPass (M Q : Nat) (A : BitMatrix) : BitMatrix :=
  forDown (min M Q - 1) (fun t B => pivotStep MATRIX_BACKWARD_ELIMINATION M Q (t + 1) B) A

/-- The inner loop of `determine_rank`: `allZeroes` stays 1 exactly when no cell of
row `i` in the columns `0 .. Q-1` equals 1. -/
def allZeroes (Q : Nat) (A : BitMatrix) (i : Nat) : Bool :=
  decide (∀ j, j < Q → A i j ≠ 1)

/-- The function `determine_rank`: starts from `m` and subtracts one for each of the
`M` rows that is all zero. -/
def determine_rank (m M Q : Nat) (A : BitMatrix) : Int :=
  forUp 0 M (fun i rank => if allZeroes Q A i then rank - 1 else rank) (m : Int)

/-- The matrix left in place by `computeRank`: forward pass, then backward pass. -/
def eliminate (M Q : Nat) (A : BitMatrix) : BitMatrix :=
  backwardPass M Q (forwardPass M Q A)

/-- The function `computeRank`: returns the rank it determines. -/
def computeRank (M Q : Nat) (A : BitMatrix) : Int :=
  determine_rank (min M Q) M Q (eliminate M Q A)

/-- The index expression `k * (M * Q) + j + i * M` of `def_matrix` with its exact value:
the position of the stream that cell `(i, j)` of matrix `k` is meant to be read from.  The
C function computes the expression in `int` (`streamIndexInt`), which gives this value as
long as it fits an `int`. -/
def streamIndex (M Q k i j : Nat) : Nat := k * (M * Q) + j + i * M

/-- The function `def_matrix`: `m[i][j] = state->epsilon[k * (M * Q) + j + i * M]` for
`i = 0 .. M-1` and `j = 0 .. Q-1`, with the index taken at its exact value: the function
as it behaves while the index fits an `int`, which it does for every stream of at most
`2 ^ 31` bits; `def_matrixInt` is the function with the index computed in `int`.  The
argument is the stream `state->epsilon` itself, so the firewall of the C function (a fatal
error when it is NULL) has nothing to reject here. -/
def def_matrix (epsilon : Nat → Nat) (M Q : Nat) (m : BitMatrix) (k : Nat) : BitMatrix :=
  forUp 0 M (fun i B => forUp 0 Q (fun j C => setCell C i j (epsilon (streamIndex M Q k i j))) B) m

/-- The value that the result of an arithmetic operation, or a `long` passed for an `int`
parameter, takes in a C `int` of 32 bits: the residue modulo `2 ^ 32` in
`-2 ^ 31 .. 2 ^ 31 - 1`.  C leaves the overflow of a signed operation undefined; this is
what two's complement hardware delivers. -/
def wrapInt (z : Int) : Int := (z + 2147483648) % 4294967296 - 2147483648

/-- The index expression `k * (M * Q) + j + i * M` of `def_matrix` as the C function
computes it: `M`, `Q`, `k`, `i` and `j` are `int`, and so is every product and sum.  The
argument `k` is the `long int` loop counter of `Rank_iterate`. -/
def streamIndexInt (M Q k i j : Int) : Int :=
  wrapInt (wrapInt (wrapInt (wrapInt k * wrapInt (M * Q)) + j) + wrapInt (i * M))

/-- The function `def_matrix` with its index computed in `int`.  The argument `memory`
gives what `state->epsilon[index]` reads for every `int` index: the bit of the stream for
an index from `0` to `n - 1`, and what lies before or after the stream otherwise. -/
def def_matrixInt (memory : Int → Nat) (M Q : Nat) (m : BitMatrix) (k : Nat) : BitMatrix :=
  forUp 0 M
    (fun i B => forUp 0 Q (fun j C => setCell C i j (memory (streamIndexInt M Q k i j))) B) m

/-! ## The driver (`rank.c`) -/

/-- The values of `state->driver_state[test_num]`. -/
inductive DriverState
  | DRIVER_NULL
  | DRIVER_INIT
  | DRIVER_ITERATE
  | DRIVER_PRINT
  | DRIVER_METRICS
  | DRIVER_DESTROY
  deriving DecidableEq

/-- The ways a driver function stops the program: the fatal errors (`err`) of the
firewalls, and `nullDereference`, the access through a pointer that is NULL, which no
firewall reports and at which the program stops without a message. -/
inductive Fatal
  | epsilonNull
  | rankMatrixNull
  | constantsNotSetup
  | driverState
  | partitionCount
  | pValCount
  | datatxtFmtNull
  | sentinelWithSuccess
  | nullDereference
  deriving DecidableEq

/-- The structure `Rank_private_stats`, with `D` the type of a `double`. -/
structure Rank_private_stats (D : Type) where
  success : Bool
  test_possible : Bool
  chi_squared : D
  F_32 : Int
  F_31 : Int
  F_30 : Int

/-- What `rank.c` takes from headers and libraries that are not part of the sources
at hand: the constants `RANK_ROWS`, `RANK_COLS`, `UNSET_DOUBLE`, `NON_P_VALUE` and the
function `exp` of `math.h`. -/
structure Env (D : Type) where
  RANK_ROWS : Nat
  RANK_COLS : Nat
  UNSET_DOUBLE : D
  NON_P_VALUE : D
  exp : D → D

/-- The fields of `struct state` that `Rank_iterate` reads or writes, those indexed by
test number taken at `test_num`; `epsilon` and `rank_matrix` are `none` when the
pointer is NULL. -/
structure State (D : Type) where
  testVector : Bool
  cSetup : Bool
  driver_state : DriverState
  epsilon : Option (Nat → Nat)
  rank_matrix : Option BitMatrix
  matrix_count : Nat
  p_32 : D
  p_31 : D
  p_30 : D
  alpha : D
  count : Nat
  valid : Nat
  valid_p_val : Nat
  success : Nat
  failure : Nat
  stats : List (Rank_private_stats D)
  p_val : List D

/-- Modelled from the spec: the macro `isNegative` of a header that is not part of the
sources at hand; the spec calls a p-value bogus when `p < 0`. -/
def isNegative {D : Type} [LinearOrderedField D] (x : D) : Bool := decide (x < 0)

/-- Modelled from the spec: the macro `isGreaterThanOne` of a header that is not part of
the sources at hand; the spec calls a p-value bogus when `p > 1`. -/
def isGreaterThanOne {D : Type} [LinearOrderedField D] (x : D) : Bool := decide (1 < x)

/-- The loop of `Rank_iterate` that clears the scratch matrix: `memset` of the
`RANK_COLS` cells of each of the `RANK_ROWS` rows. -/
def zeroize (R C : Nat) (A : BitMatrix) : BitMatrix :=
  fun r c => if r < R ∧ c < C then 0 else A r c

/-- The body of the tally loop of `Rank_iterate` for matrix `k`, on the counters
`F_32`, `F_31` and the scratch matrix. -/
def tallyStep {D : Type} (env : Env D) (epsilon : Nat → Nat) (k : Nat)
    (acc : Int × Int × BitMatrix) : Int × Int × BitMatrix :=
  let m := def_matrix epsilon env.RANK_ROWS env.RANK_COLS acc.2.2 k
  let R := computeRank env.RANK_ROWS env.RANK_COLS m
  let F_32 := if R = (env.RANK_ROWS : Int) then acc.1 + 1 else acc.1
  let F_31 := if R = (env.RANK_ROWS : Int) - 1 then acc.2.1 + 1 else acc.2.1
  (F_32, F_31, eliminate env.RANK_ROWS env.RANK_COLS m)

/-- The tally loop of `Rank_iterate`: `for (k = 0; k < matrix_count; k++)`, from
`F_32 = F_31 = 0` and the cleared scratch matrix. -/
def tally {D : Type} (env : Env D) (epsilon : Nat → Nat) (matrix_count : Nat)
    (matrix : BitMatrix) : Int × Int × BitMatrix :=
  forUp 0 matrix_count (tallyStep env epsilon) (0, 0, matrix)

/-- The expression assigned to `stat.chi_squared` in `Rank_iterate`. -/
def chiSquared {D : Type} [LinearOrderedField D] (F_32 F_31 F_30 : Int) (matrix_count : Nat)
    (p_32 p_31 p_30 : D) : D :=
  (((F_32 : D) - (matrix_count : D) * p_32) * ((F_32 : D) - (matrix_count : D) * p_32)
      / ((matrix_count : D) * p_32))
    + (((F_31 : D) - (matrix_count : D) * p_31) * ((F_31 : D) - (matrix_count : D) * p_31)
      / ((matrix_count : D) * p_31))
    + (((F_30 : D) - (matrix_count : D) * p_30) * ((F_30 : D) - (matrix_count : D) * p_30)
      / ((matrix_count : D) * p_30))

/-- The statistics record of a testable iteration, before `success` is decided:
the tallies `F_32`, `F_31`, `F_30 = matrix_count - (F_32 + F_31)` and `chi_squared`. -/
def testableStat {D : Type} [LinearOrderedField D] (env : Env D) (state : State D)
    (epsilon : Nat → Nat) (matrix : BitMatrix) : Rank_private_stats D :=
  let t := tally env epsilon state.matrix_count matrix
  let F_32 := t.1
  let F_31 := t.2.1
  let F_30 := (state.matrix_count : Int) - (F_32 + F_31)
  { success := false
    test_possible := true
    chi_squared := chiSquared F_32 F_31 F_30 state.matrix_count state.p_32 state.p_31 state.p_30
    F_32 := F_32
    F_31 := F_31
    F_30 := F_30 }

/-- The p-value of a testable iteration: `p_value = exp(-stat.chi_squared / 2.0)`. -/
def pValue {D : Type} [LinearOrderedField D] (env : Env D) (state : State D)
    (epsilon : Nat → Nat) (matrix : BitMatrix) : D :=
  env.exp (-(testableStat env state epsilon matrix).chi_squared / 2)

/-- The function `Rank_iterate`.  A fatal error of the firewall is `Except.error`;
when the test vector is off the function returns without a change. -/
def Rank_iterate {D : Type} [LinearOrderedField D] (env : Env D) (state : State D) :
    Except Fatal (State D) :=
  if state.testVector ≠ true then
    Except.ok state
  else
    match state.epsilon, state.rank_matrix with
    | none, _ => Except.error Fatal.epsilonNull
    | some _, none => Except.error Fatal.rankMatrixNull
    | some epsilon, some rank_matrix =>
      if state.cSetup ≠ true then
        Except.error Fatal.constantsNotSetup
      else if state.driver_state ≠ DriverState.DRIVER_INIT
          ∧ state.driver_state ≠ DriverState.DRIVER_ITERATE then
        Except.error Fatal.driverState
      else
        let matrix := zeroize env.RANK_ROWS env.RANK_COLS rank_matrix
        let test_possible : Bool := if state.matrix_count = 0 then false else true
        if test_possible = true then
          let stat := testableStat env state epsilon matrix
          let p_value := pValue env state epsilon matrix
          let scratch := (tally env epsilon state.matrix_count matrix).2.2
          if isNegative p_value = true then
            Except.ok { state with
              rank_matrix := some scratch
              count := state.count + 1
              valid := state.valid + 1
              failure := state.failure + 1
              stats := state.stats ++ [{ stat with success := false }]
              p_val := state.p_val ++ [p_value]
              driver_state := DriverState.DRIVER_ITERATE }
          else if isGreaterThanOne p_value = true then
            Except.ok { state with
              rank_matrix := some scratch
              count := state.count + 1
              valid := state.valid + 1
              failure := state.failure + 1
              stats := state.stats ++ [{ stat with success := false }]
              p_val := state.p_val ++ [p_value]
              driver_state := DriverState.DRIVER_ITERATE }
          else if p_value < state.alpha then
            Except.ok { state with
              rank_matrix := some scratch
              count := state.count + 1
              valid := state.valid + 1
              valid_p_val := state.valid_p_val + 1
              failure := state.failure + 1
              stats := state.stats ++ [{ stat with success := false }]
              p_val := state.p_val ++ [p_value]
              driver_state := DriverState.DRIVER_ITERATE }
          else
            Except.ok { state with
              rank_matrix := some scratch
              count := state.count + 1
              valid := state.valid + 1
              valid_p_val := state.valid_p_val + 1
              success := state.success + 1
              stats := state.stats ++ [{ stat with success := true }]
              p_val := state.p_val ++ [p_value]
              driver_state := DriverState.DRIVER_ITERATE }
        else
          Except.ok { state with
            rank_matrix := some matrix
            count := state.count + 1
            stats := state.stats ++ [{ success := false
                                       test_possible := false
                                       chi_squared := env.UNSET_DOUBLE
                                       F_32 := 0
                                       F_31 := 0
                                       F_30 := 0 }]
            p_val := state.p_val ++ [env.NON_P_VALUE]
            driver_state := DriverState.DRIVER_ITERATE }

/-! ## Auxiliary notions of the proofs -/

/-- A matrix given by the list of its rows (cells outside the lists are 0). -/
def ofRows (rows : List (List Nat)) : BitMatrix :=
  fun i j => (rows.getD i []).getD j 0

/-- Rows `a` and `b` exchanged over the columns below `Q`. -/
def swapped (a b Q : Nat) (A : BitMatrix) : BitMatrix :=
  fun r c => if c < Q then (if r = b then A a c else if r = a then A b c else A r c) else A r c

/-- Row `i` added modulo 2 into every row of the target set `T` over the columns below `Q`. -/
def xorRows (T : Nat → Prop) [DecidablePred T] (i Q : Nat) (A : BitMatrix) : BitMatrix :=
  fun r c => if T r ∧ c < Q then (A r c + A i c) % 2 else A r c

/-- The rows the forward elimination at pivot `i` adds row `i` into. -/
def fwdT (i M : Nat) (A : BitMatrix) (r : Nat) : Prop := i < r ∧ r < M ∧ A r i = 1

/-- The rows the backward elimination at pivot `i` adds row `i` into. -/
def bwdT (i : Nat) (A : BitMatrix) (r : Nat) : Prop := r < i ∧ A r i = 1

instance (i M : Nat) (A : BitMatrix) : DecidablePred (fwdT i M A) := fun r => by
  unfold fwdT; infer_instance

instance (i : Nat) (A : BitMatrix) : DecidablePred (bwdT i A) := fun r => by
  unfold bwdT; infer_instance

/-- Every cell of the `M` by `Q` matrix is 0 or 1. -/
def Bits (M Q : Nat) (A : BitMatrix) : Prop := ∀ r, r < M → ∀ c, c < Q → A r c ≤ 1

instance (M Q : Nat) (A : BitMatrix) : Decidable (Bits M Q A) := by
  unfold Bits; infer_instance

/-- Below the diagonal, the columns before `i` are zero. -/
def FwdInv (i M : Nat) (A : BitMatrix) : Prop :=
  ∀ c, c < i → ∀ r, c < r → r < M → A r c = 0

/-- The state of the matrix before the backward step at pivot `i` (all of it
for `i = 0`), over the first `m` columns: the rows up to `i` vanish outside the
columns `r .. i`; each row `r` between `i` and `m` vanishes right of column `r` and
either has a 1 on the diagonal or vanishes; the rows from `m` on vanish before
column `m - 1`. -/
structure BwdInv (i m M : Nat) (B : BitMatrix) : Prop where
  upper : ∀ r, r ≤ i → ∀ c, c < m → (c < r ∨ i < c) → B r c = 0
  lower : ∀ r, i < r → r < m →
    (∀ c, r < c → c < m → B r c = 0) ∧ (B r r = 1 ∨ ∀ c, c < m → B r c = 0)
  low : ∀ r, m ≤ r → r < M → ∀ c, c + 1 < m → B r c = 0

/-- The shape of the matrix left by `computeRank` over its first `m = min M Q`
rows and columns: row `r` vanishes right of column `r`, and either has a 1 on the
diagonal or vanishes altogether. -/
def LowerUnit (m : Nat) (B : BitMatrix) : Prop :=
  ∀ r, r < m → (∀ c, r < c → c < m → B r c = 0) ∧ (B r r = 1 ∨ ∀ c, c < m → B r c = 0)

/-- Row `r` of the matrix, cut to its first `w` columns, as a vector over GF(2). -/
def rowVec (w : Nat) (A : BitMatrix) (r : Nat) : Fin w → ZMod 2 :=
  fun c => (A r c.val : ZMod 2)

/-- The `M` by `Q` matrix over GF(2) held by the cells. -/
def toMatrix (M Q : Nat) (A : BitMatrix) : Matrix (Fin M) (Fin Q) (ZMod 2) :=
  fun r c => (A r.val c.val : ZMod 2)

/-- The non-zero vectors among `v 0, .., v (m-1)` are linearly independent: a
vanishing combination has a zero coefficient at every non-zero vector. -/
def IndepNZ {V : Type} [AddCommGroup V] [Module (ZMod 2) V] (m : Nat) (v : Nat → V) : Prop :=
  ∀ g : Nat → ZMod 2, (∑ r in Finset.range m, g r • v r) = 0 → ∀ r, r < m → g r = 0 ∨ v r = 0

/-- The number of rows among the first `M` that `determine_rank` finds all zero. -/
def zeroCount (M Q : Nat) (B : BitMatrix) : Nat :=
  ((Finset.range M).filter (fun r => allZeroes Q B r = true)).card

/-- The property of a matrix that `computeRank` keeps at every step once it holds:
the cells are bits, the first `m = min M Q` rows, cut to `m` columns, have
independent non-zero rows, and the rows from `m` on vanish before column `m - 1`. -/
structure Good (M Q : Nat) (B : BitMatrix) : Prop where
  bits : Bits M Q B
  indep : IndepNZ (min M Q) (rowVec (min M Q) B)
  low : ∀ r, min M Q ≤ r → r < M → ∀ c, c + 1 < min M Q → B r c = 0

/-- The set of the vectors `v 0, .., v (M-1)`. -/
def rowSet {V : Type} (M : Nat) (v : Nat → V) : Set V := {x | ∃ r, r < M ∧ v r = x}

/-- The span over GF(2) of the rows of the `M` by `Q` matrix. -/
def rowSpan (M Q : Nat) (A : BitMatrix) : Submodule (ZMod 2) (Fin Q → ZMod 2) :=
  Submodule.span (ZMod 2) (rowSet M (rowVec Q A))

/-! ## Matrices and operations named in the claims -/

/-- The identity matrix: cell `(i, j)` is 1 exactly when `i = j`. -/
def identityMatrix : BitMatrix := fun i j => if i = j then 1 else 0

/-- The all-zero matrix. -/
def zeroMatrix : BitMatrix := fun _ _ => 0

/-- The matrix `A` with row `dst` replaced by the XOR of row `dst` and row `src`. -/
def xorRowInto (A : BitMatrix) (dst src : Nat) : BitMatrix :=
  fun r c => if r = dst then (A dst c + A src c) % 2 else A r c

/-! ## Predicates of the claims about `Rank_iterate` -/

/-- The state is one that the firewall of `Rank_iterate` accepts for an active test:
the stream is `epsilon`, the scratch matrix is `matrix`. -/
def Accepted {D : Type} (state : State D) (epsilon : Nat → Nat) (matrix : BitMatrix) : Prop :=
  state.testVector = true ∧ state.epsilon = some epsilon ∧ state.rank_matrix = some matrix ∧
    state.cSetup = true ∧
    (state.driver_state = DriverState.DRIVER_INIT ∨
      state.driver_state = DriverState.DRIVER_ITERATE)

/-- What `Rank_iterate` records for a stream with no matrix: one statistics record with
`test_possible = false`, `success = false`, zero tallies and the unset `chi_squared`, the
sentinel p-value, and one more in `count` only. -/
def UntestableRecorded {D : Type} (env : Env D) (state state' : State D) : Prop :=
  state'.stats = state.stats ++ [{ success := false
                                   test_possible := false
                                   chi_squared := env.UNSET_DOUBLE
                                   F_32 := 0
                                   F_31 := 0
                                   F_30 := 0 }] ∧
    state'.p_val = state.p_val ++ [env.NON_P_VALUE] ∧
    state'.count = state.count + 1 ∧ state'.valid = state.valid ∧
    state'.valid_p_val = state.valid_p_val ∧ state'.success = state.success ∧
    state'.failure = state.failure

/-- The three outcomes `Rank_iterate` records for a computed p-value `p`: bogus,
valid but failing, passing. -/
def Classified {D : Type} [LinearOrderedField D] (p : D) (state state' : State D)
    (stat : Rank_private_stats D) : Prop :=
  ((p < 0 ∨ 1 < p) ↔
    (stat.success = false ∧ state'.failure = state.failure + 1 ∧
      state'.valid_p_val = state.valid_p_val)) ∧
  ((0 ≤ p ∧ p ≤ 1 ∧ p < state.alpha) ↔
    (stat.success = false ∧ state'.valid_p_val = state.valid_p_val + 1)) ∧
  ((0 ≤ p ∧ p ≤ 1 ∧ state.alpha ≤ p) ↔
    (stat.success = true ∧ state'.valid_p_val = state.valid_p_val + 1)) ∧
  (p = state.alpha → 0 ≤ state.alpha → state.alpha ≤ 1 →
    stat.success = true ∧ state'.valid_p_val = state.valid_p_val + 1) ∧
  (p = 0 ∨ p = 1 → state'.valid_p_val = state.valid_p_val + 1)

/-- An environment over the rationals, for the examples. -/
def exampleEnv : Env ℚ :=
  { RANK_ROWS := 32
    RANK_COLS := 32
    UNSET_DOUBLE := -99999999
    NON_P_VALUE := -99999999
    exp := fun _ => 1 / 2 }

/-- A state over the rationals just after `Rank_init`, with matrix count `n`. -/
def exampleState (n : Nat) : State ℚ :=
  { testVector := true
    cSetup := true
    driver_state := DriverState.DRIVER_INIT
    epsilon := some (fun _ => 0)
    rank_matrix := some zeroMatrix
    matrix_count := n
    p_32 := 1 / 4
    p_31 := 1 / 2
    p_30 := 1 / 4
    alpha := 1 / 100
    count := 0
    valid := 0
    valid_p_val := 0
    success := 0
    failure := 0
    stats := []
    p_val := [] }

/-! ## Notions of the claims about the tallies and the chi-squared statistic -/

/-- The two matrices agree on the `M` by `Q` cells. -/
def AgreeOn (M Q : Nat) (A B : BitMatrix) : Prop :=
  ∀ r, r < M → ∀ c, c < Q → A r c = B r c

/-- Matrix `k` of the stream: what `def_matrix` materializes for block `k`, on a
cleared matrix. -/
def streamMatrix (epsilon : Nat → Nat) (M Q k : Nat) : BitMatrix :=
  def_matrix epsilon M Q zeroMatrix k

/-- The number of matrices `k < N` of the stream whose computed rank satisfies `P`. -/
def rankCount {D : Type} (env : Env D) (epsilon : Nat → Nat) (N : Nat) (P : Int → Prop)
    [DecidablePred P] : Nat :=
  ((Finset.range N).filter
    (fun k => P (computeRank env.RANK_ROWS env.RANK_COLS
      (streamMatrix epsilon env.RANK_ROWS env.RANK_COLS k)))).card

/-- One term of the sum assigned to `stat.chi_squared`: `(F - N * p) * (F - N * p) / (N * p)`. -/
def chiTerm {D : Type} [LinearOrderedField D] (F : Int) (matrix_count : Nat) (p : D) : D :=
  ((F : D) - (matrix_count : D) * p) * ((F : D) - (matrix_count : D) * p)
    / ((matrix_count : D) * p)

/-- A stream whose 32 by 32 blocks all hold the identity pattern. -/
def identityStream : Nat → Nat :=
  fun p => if (p % 1024) / 32 = (p % 1024) % 32 then 1 else 0

/-- The example state with matrix count `n`, on `identityStream`. -/
def identityState (n : Nat) : State ℚ :=
  { exampleState n with epsilon := some identityStream }

/-- The number of non-zero terms among the three terms of the chi-squared sum. -/
def nonzeroTerms {D : Type} [LinearOrderedField D] (F_32 F_31 F_30 : Int) (matrix_count : Nat)
    (p_32 p_31 p_30 : D) : Nat :=
  ([chiTerm F_32 matrix_count p_32, chiTerm F_31 matrix_count p_31,
    chiTerm F_30 matrix_count p_30].filter (fun t => t ≠ 0)).length

/-! ## The rest of the driver: `Rank_init`, `Rank_print`, `Rank_metrics`, `Rank_destroy` -/

/-- The functions `sqrt` of `math.h` and `cephes_igamc` of `cephes.h`, which are not part
of the sources at hand. -/
structure MathFns (D : Type) where
  sqrt : D → D
  cephes_igamc : D → D → D

/-- One line of the final analysis report, as `Rank_metric_print` writes it: the bins,
the uniformity value (`none` is the marker `----`) with its failure mark, and the
proportion `passCount/sampleCount` (`none` is the marker `------`) with its failure
mark. -/
structure MetricLine (D : Type) where
  bins : List Int
  uniformity : Option D
  uniformityMark : Bool
  proportion : Option (Int × Int)
  proportionMark : Bool

/-- The fields of `struct state` that the other driver functions read or write, on top
of those of `Rank_iterate`, those indexed by test number taken at `test_num`.
`datatxt_fmt` and `subDir` are `none` when the pointer is NULL; `stats_NULL` and
`p_val_NULL` tell whether the pointers `state->stats[test_num]` and
`state->p_val[test_num]` are NULL, and the lists `stats` and `p_val` are what the two
dynamic arrays hold when they are not; `uniformity_bins` is the `long int` of the
configuration; the four files are held as the lists of what was written to them. -/
structure RunState (D : Type) extends State D where
  resultstxtFlag : Bool
  partitionCount : Int
  numOfBitStreams : Int
  stats_NULL : Bool
  p_val_NULL : Bool
  datatxt_fmt : Option Unit
  subDir : Option Unit
  is_excursion : Bool
  uniformity_bins : Int
  uniformity_level : D
  uniformity_failure : Bool
  proportional_failure : Bool
  maxGeneralSampleSize : Int
  maxRandomExcursionSampleSize : Int
  statsTxt : List (Rank_private_stats D × D)
  resultsTxt : List D
  dataTxt : List (List D)
  finalRept : List (MetricLine D)

/-- The function `Rank_init`; `fresh` is the content of the matrix that `create_matrix`
allocates, which it does not clear. -/
def Rank_init {D : Type} (fresh : BitMatrix) (rs : RunState D) : Except Fatal (RunState D) :=
  if rs.testVector ≠ true then
    Except.ok rs
  else if rs.cSetup ≠ true then
    Except.error Fatal.constantsNotSetup
  else if rs.driver_state ≠ DriverState.DRIVER_NULL
      ∧ rs.driver_state ≠ DriverState.DRIVER_DESTROY then
    Except.error Fatal.driverState
  else
    Except.ok { rs with
      rank_matrix := some fresh
      subDir := if rs.resultstxtFlag = true then some () else rs.subDir
      stats := []
      stats_NULL := false
      p_val := []
      p_val_NULL := false
      datatxt_fmt := some ()
      driver_state := DriverState.DRIVER_INIT }

/-- The function `Rank_iterate` on the whole state.  The two dynamic arrays that it appends
to are taken to exist: `Rank_init` allocates them, and the driver-state firewall of
`Rank_iterate` admits only the states that follow `Rank_init`. -/
def Rank_iterate_run {D : Type} [LinearOrderedField D] (env : Env D) (rs : RunState D) :
    Except Fatal (RunState D) :=
  match Rank_iterate env rs.toState with
  | Except.error e => Except.error e
  | Except.ok s => Except.ok { rs with toState := s }

/-- The loop `for (i = start; i < count; i += step) a = body i a`, where the first
argument bounds the number of rounds; with `step ≥ 1` the loop stops within `count`
rounds. -/
def strideLoop {α : Type} (count step : Nat) (body : Nat → α → α) : Nat → Nat → α → α
  | 0, _, a => a
  | fuel + 1, i, a => if i < count then strideLoop count step body fuel (i + step) (body i a) else a

/-- The firewall of `Rank_print_stat` and what it prints: the record and its p-value. -/
def Rank_print_stat {D : Type} [LinearOrderedField D] (env : Env D) (rs : RunState D)
    (stat : Rank_private_stats D) (p_value : D) :
    Except Fatal (Rank_private_stats D × D) :=
  if rs.cSetup ≠ true then
    Except.error Fatal.constantsNotSetup
  else if p_value = env.NON_P_VALUE ∧ stat.success = true then
    Except.error Fatal.sentinelWithSuccess
  else
    Except.ok (stat, p_value)

/-- The body of the loop of `Rank_print` over the recorded iterations: print record `i`
to `stats.txt` and p-value `i` to `results.txt`. -/
def printRecord {D : Type} [LinearOrderedField D] (env : Env D) (rs : RunState D) (i : Nat)
    (acc : Except Fatal (List (Rank_private_stats D × D) × List D)) :
    Except Fatal (List (Rank_private_stats D × D) × List D) :=
  match acc, rs.stats.get? i with
  | Except.error e, _ => Except.error e
  | Except.ok a, none => Except.ok a
  | Except.ok a, some stat =>
    match Rank_print_stat env rs stat (rs.p_val.getD i 0) with
    | Except.error e => Except.error e
    | Except.ok block => Except.ok (a.1 ++ [block], a.2 ++ [rs.p_val.getD i 0])

/-- The p-values of partition `j`: those the loop
`for (i = j; i < count; i += partitionCount)` visits, in the order it visits them. -/
def partitionValues {D : Type} [Zero D] (p_val : List D) (partitionCount j : Nat) : List D :=
  strideLoop p_val.length partitionCount (fun i out => out ++ [p_val.getD i 0]) p_val.length j []

/-- The function `Rank_print`.  Writing to the files is taken to succeed.  The check of
the p-value count reads `state->p_val[test_num]->count` and the loop over the records
reads `state->stats[test_num]->count`: with the pointer NULL the program stops there. -/
def Rank_print {D : Type} [LinearOrderedField D] (env : Env D) (rs : RunState D) :
    Except Fatal (RunState D) :=
  if rs.testVector ≠ true then
    Except.ok rs
  else if rs.resultstxtFlag = false then
    Except.ok rs
  else if rs.partitionCount < 1 then
    Except.error Fatal.partitionCount
  else if rs.p_val_NULL = true then
    Except.error Fatal.nullDereference
  else if (rs.p_val.length : Int) ≠ rs.numOfBitStreams * rs.partitionCount then
    Except.error Fatal.pValCount
  else if rs.datatxt_fmt = none then
    Except.error Fatal.datatxtFmtNull
  else if rs.driver_state ≠ DriverState.DRIVER_ITERATE then
    Except.error Fatal.driverState
  else if rs.stats_NULL = true then
    Except.error Fatal.nullDereference
  else
    match forUp 0 rs.stats.length (printRecord env rs) (Except.ok ([], [])) with
    | Except.error e => Except.error e
    | Except.ok files =>
      Except.ok { rs with
        statsTxt := files.1
        resultsTxt := files.2
        dataTxt :=
          if rs.partitionCount > 1 then
            forUp 0 rs.partitionCount.toNat
              (fun j out => out ++ [partitionValues rs.p_val rs.partitionCount.toNat j]) []
          else rs.dataTxt
        driver_state := DriverState.DRIVER_PRINT }

/-- The counters of one partition in `Rank_metrics`: `sampleCount`, `toolow` and the
array `freqPerBin`. -/
structure MetricTally where
  sampleCount : Int
  toolow : Int
  freqPerBin : Int → Int

/-- Rounding to the nearest integer, a tie going to the even one: the rounding of the
significand in IEEE 754 arithmetic. -/
def roundHalfEven {D : Type} [LinearOrderedField D] [FloorRing D] (y : D) : Int :=
  if y - (⌊y⌋ : D) < 1 / 2 then ⌊y⌋
  else if 1 / 2 < y - (⌊y⌋ : D) then ⌊y⌋ + 1
  else if ⌊y⌋ % 2 = 0 then ⌊y⌋ else ⌊y⌋ + 1

/-- The exponent of the C `double` (IEEE 754 binary64) nearest a value `x ≥ 0`: the floor
of the binary logarithm, and `-1022`, the exponent of the subnormal numbers, below it. -/
def doubleExponent {D : Type} [LinearOrderedField D] [FloorRing D] (x : D) : Int :=
  max (Int.log 2 x) (-1022)

/-- The distance between neighbouring `double` values around `x ≥ 0`: a significand has
53 bits. -/
def ulp {D : Type} [LinearOrderedField D] [FloorRing D] (x : D) : D :=
  (2 : D) ^ (doubleExponent x - 52)

/-- The `double` that C arithmetic delivers for the exact value `x`: the nearest multiple
of the spacing `ulp`, a tie going to the even significand.  Overflow to infinity, beyond the
largest `double`, is not modelled. -/
def roundDouble {D : Type} [LinearOrderedField D] [FloorRing D] (x : D) : D :=
  if 0 ≤ x then (roundHalfEven (x / ulp x) : D) * ulp x
  else -((roundHalfEven (-x / ulp (-x)) : D) * ulp (-x))

/-- The index of the bin that `Rank_metrics` increments for a counted p-value:
`uniformity_bins - 1` when `p_value >= 1.0`, otherwise
`(int) floor(p_value * (double) uniformity_bins)` when `p_value >= 0.0`, otherwise `0`.
The variable `p_value` is a `double`: `roundDouble p_value` is that double, and it is
`p_value` itself when the value is one.  The conversion `(double) uniformity_bins` and the
product are rounded to a `double` as C does; the floor of a double is exact.  The
conversion `(int)` keeps the value of the floor, which lies between `0` and
`uniformity_bins - 1` and so in the range of `int` when `uniformity_bins ≤ 2 ^ 31`. -/
def binIndex {D : Type} [LinearOrderedField D] [FloorRing D] (uniformity_bins : Int)
    (p_value : D) : Int :=
  if roundDouble p_value ≥ 1 then uniformity_bins - 1
  else if roundDouble p_value ≥ 0 then
    ⌊roundDouble (roundDouble p_value * roundDouble (uniformity_bins : D))⌋
  else 0

/-- The `double` nearest to three tenths, `0x1.3333333333333p-2`. -/
def nearestThreeTenths : ℚ := 5404319552844595 / 18014398509481984

/-- What the tally loop of `Rank_metrics` does with a p-value it counts: `++sampleCount`,
`++toolow` when `p_value < alpha`, and one bin incremented. -/
def countValue {D : Type} [LinearOrderedField D] [FloorRing D] (rs : RunState D)
    (p_value : D) (t : MetricTally) : MetricTally :=
  { sampleCount := t.sampleCount + 1
    toolow := if p_value < rs.alpha then t.toolow + 1 else t.toolow
    freqPerBin := fun b =>
      if b = binIndex rs.uniformity_bins p_value then t.freqPerBin b + 1 else t.freqPerBin b }

/-- The body of the tally loop of `Rank_metrics` for one p-value. -/
def tallyValue {D : Type} [LinearOrderedField D] [FloorRing D] (env : Env D)
    (rs : RunState D) (p_value : D) (t : MetricTally) : MetricTally :=
  if p_value = env.NON_P_VALUE then t
  else if rs.is_excursion = true then
    if p_value > 0 then countValue rs p_value t else t
  else countValue rs p_value t

/-- The tally of partition `j` in `Rank_metrics`: the counters start from zero and the
loop `for (i = j; i < count; i += partitionCount)` runs over the p-values. -/
def partitionTally {D : Type} [LinearOrderedField D] [FloorRing D] (env : Env D)
    (rs : RunState D) (j : Nat) : MetricTally :=
  strideLoop rs.p_val.length rs.partitionCount.toNat
    (fun i t => tallyValue env rs (rs.p_val.getD i 0) t) rs.p_val.length j
    { sampleCount := 0, toolow := 0, freqPerBin := fun _ => 0 }

/-- The value `passCount` of `Rank_metric_print`. -/
def passCount (sampleCount toolow : Int) : Int :=
  if sampleCount ≤ 0 ∨ sampleCount < toolow then 0 else sampleCount - toolow

/-- The value `proportion_threshold_max` of `Rank_metric_print`. -/
def proportion_threshold_max {D : Type} [LinearOrderedField D] (fns : MathFns D) (alpha : D)
    (sampleCount : Int) : D :=
  ((1 - alpha) + 3 * fns.sqrt (((1 - alpha) * alpha) / (sampleCount : D))) * (sampleCount : D)

/-- The value `proportion_threshold_min` of `Rank_metric_print`. -/
def proportion_threshold_min {D : Type} [LinearOrderedField D] (fns : MathFns D) (alpha : D)
    (sampleCount : Int) : D :=
  ((1 - alpha) - 3 * fns.sqrt (((1 - alpha) * alpha) / (sampleCount : D))) * (sampleCount : D)

/-- The value `expCount` of `Rank_metric_print`: the quotient of the two `long int`
values, truncated as C does, taken as a `double`. -/
def expCount {D : Type} [LinearOrderedField D] (sampleCount uniformity_bins : Int) : D :=
  ((sampleCount.tdiv uniformity_bins : Int) : D)

/-- The sum `chi2` of `Rank_metric_print` over the bins. -/
def metricChi2 {D : Type} [LinearOrderedField D] (sampleCount uniformity_bins : Int)
    (freqPerBin : Int → Int) : D :=
  forUp 0 uniformity_bins.toNat
    (fun i chi2 => chi2
      + ((freqPerBin (i : Int) : D) - expCount sampleCount uniformity_bins)
        * ((freqPerBin (i : Int) : D) - expCount sampleCount uniformity_bins)
        / expCount sampleCount uniformity_bins) 0

/-- The value `uniformity` of `Rank_metric_print`. -/
def metricUniformity {D : Type} [LinearOrderedField D] (fns : MathFns D)
    (sampleCount uniformity_bins : Int) (freqPerBin : Int → Int) : D :=
  if expCount sampleCount uniformity_bins ≤ (0 : D) then 0
  else fns.cephes_igamc (((uniformity_bins : D) - 1) / 2)
    (metricChi2 sampleCount uniformity_bins freqPerBin / 2)

/-- The function `Rank_metric_print`.  Writing to the report is taken to succeed. -/
def Rank_metric_print {D : Type} [LinearOrderedField D] (fns : MathFns D) (rs : RunState D)
    (sampleCount toolow : Int) (freqPerBin : Int → Int) : RunState D :=
  let bins := (List.range rs.uniformity_bins.toNat).map (fun i => freqPerBin (i : Int))
  let uniformity := metricUniformity fns sampleCount rs.uniformity_bins freqPerBin
  let uniformityOut : Option D × Bool :=
    if expCount sampleCount rs.uniformity_bins ≤ (0 : D) then (none, false)
    else if uniformity < rs.uniformity_level then (some uniformity, true)
    else (some uniformity, false)
  let proportionOut : Option (Int × Int) × Bool :=
    if sampleCount = 0 then (none, false)
    else if ((passCount sampleCount toolow : Int) : D)
          < proportion_threshold_min fns rs.alpha sampleCount
        ∨ ((passCount sampleCount toolow : Int) : D)
          > proportion_threshold_max fns rs.alpha sampleCount then
      (some (passCount sampleCount toolow, sampleCount), true)
    else (some (passCount sampleCount toolow, sampleCount), false)
  { rs with
    uniformity_failure := uniformityOut.2
    proportional_failure := proportionOut.2
    finalRept := rs.finalRept ++ [{ bins := bins
                                    uniformity := uniformityOut.1
                                    uniformityMark := uniformityOut.2
                                    proportion := proportionOut.1
                                    proportionMark := proportionOut.2 }] }

/-- The body of the loop of `Rank_metrics` for partition `j`: tally, report, and track
the largest sample count. -/
def metricsPartition {D : Type} [LinearOrderedField D] [FloorRing D] (env : Env D)
    (fns : MathFns D) (j : Nat) (rs : RunState D) : RunState D :=
  let t := partitionTally env rs j
  let rs1 := Rank_metric_print fns rs t.sampleCount t.toolow t.freqPerBin
  if rs1.is_excursion = true then
    if t.sampleCount > rs1.maxRandomExcursionSampleSize then
      { rs1 with maxRandomExcursionSampleSize := t.sampleCount }
    else rs1
  else
    if t.sampleCount > rs1.maxGeneralSampleSize then
      { rs1 with maxGeneralSampleSize := t.sampleCount }
    else rs1

/-- The function `Rank_metrics`.  The check of the p-value count reads
`state->p_val[test_num]->count`: with the pointer NULL the program stops there. -/
def Rank_metrics {D : Type} [LinearOrderedField D] [FloorRing D] (env : Env D)
    (fns : MathFns D) (rs : RunState D) : Except Fatal (RunState D) :=
  if rs.testVector ≠ true then
    Except.ok rs
  else if rs.partitionCount < 1 then
    Except.error Fatal.partitionCount
  else if rs.p_val_NULL = true then
    Except.error Fatal.nullDereference
  else if (rs.p_val.length : Int) ≠ rs.numOfBitStreams * rs.partitionCount then
    Except.error Fatal.pValCount
  else if rs.driver_state ≠ DriverState.DRIVER_PRINT then
    Except.error Fatal.driverState
  else
    Except.ok { forUp 0 rs.partitionCount.toNat (metricsPartition env fns) rs with
      driver_state := DriverState.DRIVER_METRICS }

/-- The function `Rank_destroy`: the two dynamic arrays are freed and their pointers set
to NULL (the lists are left empty), and so are the other pointers. -/
def Rank_destroy {D : Type} (rs : RunState D) : Except Fatal (RunState D) :=
  if rs.testVector ≠ true then
    Except.ok rs
  else
    Except.ok { rs with
      stats := []
      stats_NULL := true
      p_val := []
      p_val_NULL := true
      datatxt_fmt := none
      subDir := none
      rank_matrix := none
      driver_state := DriverState.DRIVER_DESTROY }

/-- The five operations of the driver. -/
inductive Op
  | init
  | iterate
  | print
  | metrics
  | destroy
  deriving DecidableEq

/-- One call of a driver operation. -/
def runOp {D : Type} [LinearOrderedField D] [FloorRing D] (env : Env D) (fns : MathFns D)
    (fresh : BitMatrix) (op : Op) (rs : RunState D) : Except Fatal (RunState D) :=
  match op with
  | Op.init => Rank_init fresh rs
  | Op.iterate => Rank_iterate_run env rs
  | Op.print => Rank_print env rs
  | Op.metrics => Rank_metrics env fns rs
  | Op.destroy => Rank_destroy rs

/-- The calls of the list, one after the other, stopping at the first fatal error. -/
def runOps {D : Type} [LinearOrderedField D] [FloorRing D] (env : Env D) (fns : MathFns D)
    (fresh : BitMatrix) : List Op → RunState D → Except Fatal (RunState D)
  | [], rs => Except.ok rs
  | op :: ops, rs =>
    match runOp env fns fresh op rs with
    | Except.error e => Except.error e
    | Except.ok rs1 => runOps env fns fresh ops rs1

/-- The control flow of the spec for `n` streams: init, `n` times iterate, print,
metrics, destroy. -/
def controlFlow (n : Nat) : List Op :=
  [Op.init] ++ List.replicate n Op.iterate ++ [Op.print, Op.metrics, Op.destroy]

/-- The documented order of the spec, with Uninitialized, Initialized, Iterating,
Printed, MetricsComputed and Destroyed read as `DRIVER_NULL`, `DRIVER_INIT`,
`DRIVER_ITERATE`, `DRIVER_PRINT`, `DRIVER_METRICS` and `DRIVER_DESTROY`: the states from
which it allows the operation. -/
def documentedOrder : Op → DriverState → Bool
  | Op.init, DriverState.DRIVER_NULL => true
  | Op.iterate, DriverState.DRIVER_INIT => true
  | Op.iterate, DriverState.DRIVER_ITERATE => true
  | Op.print, DriverState.DRIVER_ITERATE => true
  | Op.metrics, DriverState.DRIVER_PRINT => true
  | Op.destroy, DriverState.DRIVER_METRICS => true
  | _, _ => false

/-- The states in which the firewall of the operation in the code lets it pass. -/
def firewallOrder : Op → DriverState → Bool
  | Op.init, DriverState.DRIVER_NULL => true
  | Op.init, DriverState.DRIVER_DESTROY => true
  | Op.iterate, DriverState.DRIVER_INIT => true
  | Op.iterate, DriverState.DRIVER_ITERATE => true
  | Op.print, DriverState.DRIVER_ITERATE => true
  | Op.metrics, DriverState.DRIVER_PRINT => true
  | Op.destroy, _ => true
  | _, _ => false

/-- The functions of the examples in place of `sqrt` and `cephes_igamc`. -/
def exampleFns : MathFns ℚ :=
  { sqrt := fun x => x
    cephes_igamc := fun _ x => x }

/-- A run state over the rationals before `Rank_init`, with every pointer that
`Rank_init` sets still NULL, for one stream with matrix count 0, with the given partition
count and result-file flag. -/
def exampleRun (partitionCount : Int) (resultstxtFlag : Bool) : RunState ℚ :=
  { toState :=
      { exampleState 0 with
        driver_state := DriverState.DRIVER_NULL
        rank_matrix := none }
    resultstxtFlag := resultstxtFlag
    partitionCount := partitionCount
    numOfBitStreams := 1
    stats_NULL := true
    p_val_NULL := true
    datatxt_fmt := none
    subDir := none
    is_excursion := false
    uniformity_bins := 10
    uniformity_level := 1 / 10000
    uniformity_failure := false
    proportional_failure := false
    maxGeneralSampleSize := 0
    maxRandomExcursionSampleSize := 0
    statsTxt := []
    resultsTxt := []
    dataTxt := []
    finalRept := [] }

/-- What a run ends in: the fatal error, or the driver state it leaves. -/
def outcome {D : Type} : Except Fatal (RunState D) → Except Fatal DriverState
  | Except.error e => Except.error e
  | Except.ok rs => Except.ok rs.driver_state

/-- The indices that the loop `for (i = start; i < count; i += step)` visits, in order;
the first argument bounds the number of rounds. -/
def strideList (count step : Nat) : Nat → Nat → List Nat
  | 0, _ => []
  | fuel + 1, i => if i < count then i :: strideList count step fuel (i + step) else []

/-- The counters of `Rank_metrics` before the tally of a partition. -/
def zeroTally : MetricTally :=
  { sampleCount := 0, toolow := 0, freqPerBin := fun _ => 0 }

/-- The records of the state can be printed: the constants are set up and no record
with `success = true` carries the sentinel p-value. -/
def Printable {D : Type} [Zero D] (env : Env D) (rs : RunState D) : Prop :=
  rs.cSetup = true ∧
    ∀ i stat, rs.stats.get? i = some stat →
      ¬ (rs.p_val.getD i 0 = env.NON_P_VALUE ∧ stat.success = true)

/-- The example run after `Rank_init` and one `Rank_iterate` on its stream, which has no
matrix. -/
def exampleIterated (partitionCount : Int) : RunState ℚ :=
  { exampleRun partitionCount true with
    driver_state := DriverState.DRIVER_ITERATE
    rank_matrix := some zeroMatrix
    datatxt_fmt := some ()
    subDir := some ()
    count := 1
    stats := [{ success := false
                test_possible := false
                chi_squared := -99999999
                F_32 := 0
                F_31 := 0
                F_30 := 0 }]
    stats_NULL := false
    p_val := [-99999999]
    p_val_NULL := false }

/-- Whether the tally loop of `Rank_metrics` counts the p-value: it passes the check
against `NON_P_VALUE` and, for a test with `is_excursion` set, the check `p_value > 0.0`. -/
def isCounted {D : Type} [LinearOrderedField D] (env : Env D) (rs : RunState D)
    (p_value : D) : Bool :=
  if p_value = env.NON_P_VALUE then false
  else if rs.is_excursion = true then
    if p_value > 0 then true else false
  else true

/-- The calls of `Rank_iterate` for the streams of the list, one call per stream, in
order, stopping at the first fatal error: before each call the stream is put into
`state->epsilon`. -/
def iterateStreams {D : Type} [LinearOrderedField D] (env : Env D) :
    List (Nat → Nat) → State D → Except Fatal (State D)
  | [], state => Except.ok state
  | epsilon :: rest, state =>
    match Rank_iterate env { state with epsilon := some epsilon } with
    | Except.error e => Except.error e
    | Except.ok state1 => iterateStreams env rest state1

/-- The records and the p-values correspond by index: the list of p-values carries the
sentinel `NON_P_VALUE` wherever the record at the same index has `test_possible = false`. -/
def SentinelAt {D : Type} (env : Env D) (stats : List (Rank_private_stats D))
    (p_val : List D) : Prop :=
  ∀ i stat, stats.get? i = some stat → stat.test_possible = false →
    p_val.get? i = some env.NON_P_VALUE

/-! ## Notions of the claims about the matrix left in place -/

/-- The column of the first non-zero cell of row `r` among the columns `0 .. Q-1`, or
`none` when the row is all zero there. -/
def leading (Q : Nat) (A : BitMatrix) (r : Nat) : Option Nat :=
  (List.range Q).find? (fun c => decide (A r c ≠ 0))

/-- Row-echelon form in the words of the spec, checked on each row and the row above it:
the row below an all-zero row is all zero, and the leading cell of a non-zero row is in a
column strictly to the right of the leading cell of the row above it. -/
def isRowEchelon (M Q : Nat) (A : BitMatrix) : Bool :=
  (List.range (M - 1)).all (fun r =>
    match leading Q A r, leading Q A (r + 1) with
    | _, none => true
    | none, some _ => false
    | some a, some b => decide (a < b))

/-! ## The variant of the spec that adds full rows -/

/-- The row operations in the words of the spec, on full rows: as
`perform_elementary_row_operations`, except that the forward elimination too adds row `i`
into row `j` over all the columns `0 .. Q-1`. -/
def fullRowOperations (flag i M Q : Nat) (A : BitMatrix) : BitMatrix :=
  if flag = MATRIX_FORWARD_ELIMINATION then
    forUp (i + 1) (M - (i + 1))
      (fun j B => if B j i = 1 then forUp 0 Q (addCell i j) B else B) A
  else
    forDown i (fun j B => if B j i = 1 then forUp 0 Q (addCell i j) B else B) A

/-- The pivot step of the full-row variant: `pivotStep` with `fullRowOperations` in place
of `perform_elementary_row_operations`. -/
def pivotStepFull (flag M Q : Nat) (i : Nat) (A : BitMatrix) : BitMatrix :=
  if A i i = 1 then
    fullRowOperations flag i M Q A
  else
    let r := find_unit_element_and_swap flag i M Q A
    if r.1 = 1 then fullRowOperations flag i M Q r.2 else r.2

/-- The matrix left in place by the full-row variant: its forward pass, then its backward
pass. -/
def eliminateFull (M Q : Nat) (A : BitMatrix) : BitMatrix :=
  forDown (min M Q - 1) (fun t B => pivotStepFull MATRIX_BACKWARD_ELIMINATION M Q (t + 1) B)
    (forUp 0 (min M Q - 1) (pivotStepFull MATRIX_FORWARD_ELIMINATION M Q) A)

/-- The rank returned by the full-row variant of `computeRank`. -/
def computeRankFull (M Q : Nat) (A : BitMatrix) : Int :=
  determine_rank (min M Q) M Q (eliminateFull M Q A)

/-! ## States and environments over an arbitrary field, for the examples -/

/-- The constants of `exampleEnv` over an arbitrary field, with the given function in
place of `exp`. -/
def sampleEnv {D : Type} [LinearOrderedField D] (exp : D → D) : Env D :=
  { RANK_ROWS := 32
    RANK_COLS := 32
    UNSET_DOUBLE := -99999999
    NON_P_VALUE := -99999999
    exp := exp }

/-- The state `exampleState n` over an arbitrary field. -/
def sampleState {D : Type} [LinearOrderedField D] (n : Nat) : State D :=
  { testVector := true
    cSetup := true
    driver_state := DriverState.DRIVER_INIT
    epsilon := some (fun _ => 0)
    rank_matrix := some zeroMatrix
    matrix_count := n
    p_32 := 1 / 4
    p_31 := 1 / 2
    p_30 := 1 / 4
    alpha := 1 / 100
    count := 0
    valid := 0
    valid_p_val := 0
    success := 0
    failure := 0
    stats := []
    p_val := [] }

/-- No record with `success = true` carries the sentinel p-value at its index. -/
def SentinelFree {D : Type} [Zero D] (env : Env D) (stats : List (Rank_private_stats D))
    (p_val : List D) : Prop :=
  ∀ i stat, stats.get? i = some stat →
    ¬ (p_val.getD i 0 = env.NON_P_VALUE ∧ stat.success = true)

/-- The example run before `Rank_init` for streams that hold one matrix. -/
def exampleTestable (partitionCount : Int) : RunState ℚ :=
  { exampleRun partitionCount true with matrix_count := 1 }

/-! # Theorems -/

/-! ## Closed forms of the loops -/

theorem forUp_succ {α : Type} (lo n : Nat) (body : Nat → α → α) (a : α) :
    forUp lo (n + 1) body a = body (lo + n) (forUp lo n body a) := rfl

theorem forDown_succ {α : Type} (n : Nat) (body : Nat → α → α) (a : α) :
    forDown (n + 1) body a = forDown n body (body n a) := rfl

theorem swap_loop_apply (a b n : Nat) (A : BitMatrix) :
    ∀ r c, forUp 0 n (swapCell a b) A r c = swapped a b n A r c := by
  induction n with
  | zero => intro r c; simp [forUp, swapped]
  | succ n ih =>
    intro r c
    rw [forUp_succ]
    simp only [swapCell, setCell, Nat.zero_add, ih, swapped]
    by_cases hc : c = n
    · subst hc
      by_cases hb : r = b
      · simp [hb]
      · by_cases ha : r = a
        · simp [ha, hb]
        · simp [ha, hb]
    · have h1 : c < n + 1 ↔ c < n := by omega
      simp [hc, h1]

theorem swap_rows_snd (a b Q : Nat) (A : BitMatrix) :
    (swap_rows a b Q A).2 = swapped a b Q A := by
  funext r c
  simp [swap_rows, swap_loop_apply]

theorem swap_rows_fst (a b Q : Nat) (A : BitMatrix) : (swap_rows a b Q A).1 = 1 := rfl

theorem add_loop_apply (i j lo n : Nat) (hij : i ≠ j) (A : BitMatrix) :
    ∀ r c, forUp lo n (addCell i j) A r c
      = if r = j ∧ lo ≤ c ∧ c < lo + n then (A r c + A i c) % 2 else A r c := by
  induction n with
  | zero =>
    intro r c
    have h : ¬ (r = j ∧ lo ≤ c ∧ c < lo + 0) := by omega
    rw [if_neg h]; rfl
  | succ n ih =>
    intro r c
    rw [forUp_succ]
    simp only [addCell, setCell]
    by_cases hr : r = j
    · subst hr
      by_cases hc : c = lo + n
      · subst hc
        have e1 : forUp lo n (addCell i r) A r (lo + n) = A r (lo + n) := by
          rw [ih]; simp
        have e2 : forUp lo n (addCell i r) A i (lo + n) = A i (lo + n) := by
          rw [ih]; simp [hij]
        simp [e1, e2]
      · have h1 : (lo ≤ c ∧ c < lo + (n + 1)) ↔ (lo ≤ c ∧ c < lo + n) := by omega
        simp only [hc, and_false, if_false, ih, true_and, h1]
    · simp [hr, ih]

theorem fwd_loop_apply (i Q lo n : Nat) (hlo : i < lo) (A : BitMatrix) :
    ∀ r c, forUp lo n (fun j B => if B j i = 1 then forUp i (Q - i) (addCell i j) B else B) A r c
      = if (lo ≤ r ∧ r < lo + n ∧ A r i = 1) ∧ i ≤ c ∧ c < Q
          then (A r c + A i c) % 2 else A r c := by
  induction n with
  | zero =>
    intro r c
    have h : ¬ ((lo ≤ r ∧ r < lo + 0 ∧ A r i = 1) ∧ i ≤ c ∧ c < Q) := by omega
    rw [if_neg h]; rfl
  | succ n ih =>
    intro r c
    rw [forUp_succ]
    have hB1 : ∀ c, forUp lo n (fun j B => if B j i = 1 then forUp i (Q - i) (addCell i j) B else B)
        A (lo + n) c = A (lo + n) c := by
      intro c; rw [ih]
      have h : ¬ ((lo ≤ lo + n ∧ lo + n < lo + n ∧ A (lo + n) i = 1) ∧ i ≤ c ∧ c < Q) := by omega
      rw [if_neg h]
    have hBi : ∀ c, forUp lo n (fun j B => if B j i = 1 then forUp i (Q - i) (addCell i j) B else B)
        A i c = A i c := by
      intro c; rw [ih]
      have h : ¬ ((lo ≤ i ∧ i < lo + n ∧ A i i = 1) ∧ i ≤ c ∧ c < Q) := by omega
      rw [if_neg h]
    simp only [hB1]
    by_cases hT : A (lo + n) i = 1
    · rw [if_pos hT, add_loop_apply i (lo + n) i (Q - i) (by omega)]
      by_cases hr : r = lo + n
      · subst hr
        simp only [hB1, hBi]
        by_cases hc : i ≤ c ∧ c < Q
        · have h1 : True ∧ i ≤ c ∧ c < i + (Q - i) := ⟨trivial, by omega, by omega⟩
          have h2 : (lo ≤ lo + n ∧ lo + n < lo + (n + 1) ∧ A (lo + n) i = 1) ∧ i ≤ c ∧ c < Q :=
            ⟨⟨by omega, by omega, hT⟩, hc⟩
          rw [if_pos h1, if_pos h2]
        · have h1 : ¬ (True ∧ i ≤ c ∧ c < i + (Q - i)) := by omega
          have h2 : ¬ ((lo ≤ lo + n ∧ lo + n < lo + (n + 1) ∧ A (lo + n) i = 1) ∧ i ≤ c ∧ c < Q) :=
            fun h => hc h.2
          rw [if_neg h1, if_neg h2]
      · have h1 : ¬ (r = lo + n ∧ i ≤ c ∧ c < i + (Q - i)) := fun h => hr h.1
        rw [if_neg h1, ih]
        have h2 : ((lo ≤ r ∧ r < lo + n ∧ A r i = 1) ∧ i ≤ c ∧ c < Q) ↔
            ((lo ≤ r ∧ r < lo + (n + 1) ∧ A r i = 1) ∧ i ≤ c ∧ c < Q) := by
          constructor
          · rintro ⟨⟨a, b, d⟩, e⟩; exact ⟨⟨a, by omega, d⟩, e⟩
          · rintro ⟨⟨a, b, d⟩, e⟩; exact ⟨⟨a, by omega, d⟩, e⟩
        simp only [h2]
    · rw [if_neg hT, ih]
      have h2 : ((lo ≤ r ∧ r < lo + n ∧ A r i = 1) ∧ i ≤ c ∧ c < Q) ↔
          ((lo ≤ r ∧ r < lo + (n + 1) ∧ A r i = 1) ∧ i ≤ c ∧ c < Q) := by
        constructor
        · rintro ⟨⟨a, b, d⟩, e⟩; exact ⟨⟨a, by omega, d⟩, e⟩
        · rintro ⟨⟨a, b, d⟩, e⟩
          refine ⟨⟨a, ?_, d⟩, e⟩
          have : r ≠ lo + n := fun h => hT (h ▸ d)
          omega
      simp only [h2]

theorem bwd_loop_apply (i Q n : Nat) (hn : n ≤ i) :
    ∀ (A : BitMatrix) r c,
      forDown n (fun j B => if B j i = 1 then forUp 0 Q (addCell i j) B else B) A r c
        = if (r < n ∧ A r i = 1) ∧ c < Q then (A r c + A i c) % 2 else A r c := by
  induction n with
  | zero =>
    intro A r c
    have h : ¬ ((r < 0 ∧ A r i = 1) ∧ c < Q) := by omega
    rw [if_neg h]; rfl
  | succ n ih =>
    intro A r c
    rw [forDown_succ, ih (by omega)]
    by_cases hT : A n i = 1
    · simp only [if_pos hT]
      have hA : ∀ r c, forUp 0 Q (addCell i n) A r c
          = if r = n ∧ c < Q then (A r c + A i c) % 2 else A r c := by
        intro r c
        rw [add_loop_apply i n 0 Q (by omega)]
        have : (r = n ∧ 0 ≤ c ∧ c < 0 + Q) ↔ (r = n ∧ c < Q) := by omega
        simp only [this]
      simp only [hA]
      have hi : ¬ (i = n ∧ c < Q) := by omega
      have hi2 : ¬ (i = n ∧ i < Q) := by omega
      rw [if_neg hi]
      by_cases hr : r = n
      · subst hr
        have h1 : ¬ ((r < r ∧ (if r = r ∧ i < Q then (A r i + A i i) % 2 else A r i) = 1) ∧ c < Q) := by
          omega
        rw [if_neg h1]
        by_cases hc : c < Q
        · rw [if_pos ⟨rfl, hc⟩, if_pos ⟨⟨by omega, hT⟩, hc⟩]
        · rw [if_neg (fun h => hc h.2), if_neg (fun h => hc h.2)]
      · have h3 : ¬ (r = n ∧ c < Q) := fun h => hr h.1
        have h4 : ¬ (r = n ∧ i < Q) := fun h => hr h.1
        rw [if_neg h3, if_neg h4]
        have h2 : ((r < n ∧ A r i = 1) ∧ c < Q) ↔ ((r < n + 1 ∧ A r i = 1) ∧ c < Q) := by
          constructor
          · rintro ⟨⟨a, d⟩, e⟩; exact ⟨⟨by omega, d⟩, e⟩
          · rintro ⟨⟨a, d⟩, e⟩; exact ⟨⟨by omega, d⟩, e⟩
        simp only [h2]
    · simp only [if_neg hT]
      have h2 : ((r < n ∧ A r i = 1) ∧ c < Q) ↔ ((r < n + 1 ∧ A r i = 1) ∧ c < Q) := by
        constructor
        · rintro ⟨⟨a, d⟩, e⟩; exact ⟨⟨by omega, d⟩, e⟩
        · rintro ⟨⟨a, d⟩, e⟩
          refine ⟨⟨?_, d⟩, e⟩
          have : r ≠ n := fun h => hT (h ▸ d)
          omega
      simp only [h2]

theorem perform_bwd (i M Q : Nat) (A : BitMatrix) :
    perform_elementary_row_operations MATRIX_BACKWARD_ELIMINATION i M Q A
      = xorRows (bwdT i A) i Q A := by
  funext r c
  have h : ¬ (MATRIX_BACKWARD_ELIMINATION = MATRIX_FORWARD_ELIMINATION) := by decide
  unfold perform_elementary_row_operations
  rw [if_neg h, bwd_loop_apply i Q i (le_refl i)]
  rfl

theorem perform_fwd (i M Q : Nat) (A : BitMatrix) (hb : Bits M Q A)
    (hz : ∀ c, c < i → A i c = 0) :
    perform_elementary_row_operations MATRIX_FORWARD_ELIMINATION i M Q A
      = xorRows (fwdT i M A) i Q A := by
  funext r c
  unfold perform_elementary_row_operations
  rw [if_pos rfl, fwd_loop_apply i Q (i + 1) (M - (i + 1)) (by omega)]
  unfold xorRows fwdT
  by_cases hT : i < r ∧ r < M ∧ A r i = 1
  · by_cases hc : c < Q
    · by_cases hic : i ≤ c
      · rw [if_pos ⟨⟨by omega, by omega, hT.2.2⟩, hic, hc⟩, if_pos ⟨hT, hc⟩]
      · rw [if_neg (fun h => hic h.2.1), if_pos ⟨hT, hc⟩, hz c (by omega)]
        have := hb r hT.2.1 c hc
        omega
    · rw [if_neg (fun h => hc h.2.2), if_neg (fun h => hc h.2)]
  · rw [if_neg (fun h => hT ⟨by omega, by omega, h.1.2.2⟩), if_neg (fun h => hT h.1)]

theorem scanDown_spec (A : BitMatrix) (i : Nat) :
    ∀ n s, s ≤ scanDown A i n s ∧ scanDown A i n s ≤ s + n ∧
      (∀ t, s ≤ t → t < scanDown A i n s → A t i = 0) ∧
      (scanDown A i n s < s + n → A (scanDown A i n s) i ≠ 0) := by
  intro n
  induction n with
  | zero =>
    intro s
    refine ⟨le_refl _, le_refl _, ?_, ?_⟩
    · intro t h1 h2; simp only [scanDown] at h2; omega
    · intro h; simp only [scanDown] at h; omega
  | succ n ih =>
    intro s
    by_cases h0 : A s i = 0
    · have e : scanDown A i (n + 1) s = scanDown A i n (s + 1) := by
        simp only [scanDown, if_pos h0]
      rw [e]
      obtain ⟨h1, h2, h3, h4⟩ := ih (s + 1)
      refine ⟨by omega, by omega, ?_, ?_⟩
      · intro t ht1 ht2
        by_cases hts : t = s
        · rw [hts]; exact h0
        · exact h3 t (by omega) ht2
      · intro h; exact h4 (by omega)
    · have e : scanDown A i (n + 1) s = s := by
        simp only [scanDown, if_neg h0]
      rw [e]
      refine ⟨le_refl _, by omega, ?_, ?_⟩
      · intro t h1 h2; omega
      · intro _; exact h0

theorem scanUp_none (A : BitMatrix) (i : Nat) :
    ∀ n, scanUp A i n = none → ∀ t, t < n → A t i = 0 := by
  intro n
  induction n with
  | zero => intro _ t ht; omega
  | succ n ih =>
    intro h t ht
    by_cases h0 : A n i = 0
    · simp only [scanUp, if_pos h0] at h
      by_cases htn : t = n
      · rw [htn]; exact h0
      · exact ih h t (by omega)
    · simp only [scanUp, if_neg h0] at h
      exact absurd h (by simp)

theorem scanUp_some (A : BitMatrix) (i : Nat) :
    ∀ n idx, scanUp A i n = some idx →
      idx < n ∧ A idx i ≠ 0 ∧ ∀ t, idx < t → t < n → A t i = 0 := by
  intro n
  induction n with
  | zero => intro idx h; simp [scanUp] at h
  | succ n ih =>
    intro idx h
    by_cases h0 : A n i = 0
    · simp only [scanUp, if_pos h0] at h
      obtain ⟨h1, h2, h3⟩ := ih idx h
      refine ⟨by omega, h2, ?_⟩
      intro t ht1 ht2
      by_cases htn : t = n
      · rw [htn]; exact h0
      · exact h3 t ht1 (by omega)
    · simp only [scanUp, if_neg h0, Option.some.injEq] at h
      subst h
      exact ⟨by omega, h0, fun t h1 h2 => by omega⟩

/-- The three ways a forward pivot step can go. -/
theorem pivotStep_fwd_cases (M Q i : Nat) (A : BitMatrix) (hi : i < M) :
    (A i i = 1 ∧ pivotStep MATRIX_FORWARD_ELIMINATION M Q i A
        = perform_elementary_row_operations MATRIX_FORWARD_ELIMINATION i M Q A) ∨
    (A i i ≠ 1 ∧ ∃ idx, i < idx ∧ idx < M ∧ A idx i ≠ 0 ∧ (∀ t, i < t → t < idx → A t i = 0) ∧
      pivotStep MATRIX_FORWARD_ELIMINATION M Q i A
        = perform_elementary_row_operations MATRIX_FORWARD_ELIMINATION i M Q
            (swapped i idx Q A)) ∨
    (A i i ≠ 1 ∧ (∀ t, i < t → t < M → A t i = 0) ∧
      pivotStep MATRIX_FORWARD_ELIMINATION M Q i A = A) := by
  by_cases h1 : A i i = 1
  · left
    exact ⟨h1, by simp only [pivotStep, if_pos h1]⟩
  · right
    obtain ⟨s1, s2, s3, s4⟩ := scanDown_spec A i (M - (i + 1)) (i + 1)
    have hM : i + 1 + (M - (i + 1)) = M := by omega
    rw [hM] at s2 s4
    by_cases hidx : scanDown A i (M - (i + 1)) (i + 1) < M
    · left
      refine ⟨h1, scanDown A i (M - (i + 1)) (i + 1), by omega, hidx, s4 hidx,
        fun t h2 h3 => s3 t (by omega) h3, ?_⟩
      simp only [pivotStep, if_neg h1, find_unit_element_and_swap, if_pos hidx, if_true,
        swap_rows_fst, swap_rows_snd]
    · right
      refine ⟨h1, fun t h2 h3 => s3 t (by omega) (by omega), ?_⟩
      have h01 : ¬ ((0 : Nat) = 1) := by decide
      simp only [pivotStep, if_neg h1, find_unit_element_and_swap, if_neg hidx, if_true, if_neg h01]

/-- The three ways a backward pivot step can go. -/
theorem pivotStep_bwd_cases (M Q i : Nat) (A : BitMatrix) :
    (A i i = 1 ∧ pivotStep MATRIX_BACKWARD_ELIMINATION M Q i A
        = perform_elementary_row_operations MATRIX_BACKWARD_ELIMINATION i M Q A) ∨
    (A i i ≠ 1 ∧ ∃ idx, idx < i ∧ A idx i ≠ 0 ∧ (∀ t, idx < t → t < i → A t i = 0) ∧
      pivotStep MATRIX_BACKWARD_ELIMINATION M Q i A
        = perform_elementary_row_operations MATRIX_BACKWARD_ELIMINATION i M Q
            (swapped i idx Q A)) ∨
    (A i i ≠ 1 ∧ (∀ t, t < i → A t i = 0) ∧
      pivotStep MATRIX_BACKWARD_ELIMINATION M Q i A = A) := by
  have hf : ¬ (MATRIX_BACKWARD_ELIMINATION = MATRIX_FORWARD_ELIMINATION) := by decide
  by_cases h1 : A i i = 1
  · left
    exact ⟨h1, by simp only [pivotStep, if_pos h1]⟩
  · right
    cases hs : scanUp A i i with
    | none =>
      right
      refine ⟨h1, scanUp_none A i i hs, ?_⟩
      have h01 : ¬ ((0 : Nat) = 1) := by decide
      simp only [pivotStep, if_neg h1, find_unit_element_and_swap, if_neg hf, hs, if_neg h01]
    | some idx =>
      left
      obtain ⟨s1, s2, s3⟩ := scanUp_some A i i idx hs
      refine ⟨h1, idx, s1, s2, s3, ?_⟩
      simp only [pivotStep, if_neg h1, find_unit_element_and_swap, if_neg hf, hs,
        swap_rows_fst, swap_rows_snd, if_true]

/-! ## Cell-level invariants of the two passes -/

theorem bit_cases {M Q : Nat} {A : BitMatrix} (hb : Bits M Q A) {r c : Nat} (hr : r < M)
    (hc : c < Q) : A r c = 0 ∨ A r c = 1 := by
  have := hb r hr c hc
  omega

theorem bits_swapped {M Q : Nat} {A : BitMatrix} (hb : Bits M Q A) {a b : Nat} (ha : a < M)
    (hb2 : b < M) : Bits M Q (swapped a b Q A) := by
  intro r hr c hc
  unfold swapped
  rw [if_pos hc]
  by_cases h1 : r = b
  · rw [if_pos h1]; exact hb a ha c hc
  · rw [if_neg h1]
    by_cases h2 : r = a
    · rw [if_pos h2]; exact hb b hb2 c hc
    · rw [if_neg h2]; exact hb r hr c hc

theorem bits_xorRows {M Q : Nat} {A : BitMatrix} (hb : Bits M Q A) (T : Nat → Prop)
    [DecidablePred T] (i : Nat) : Bits M Q (xorRows T i Q A) := by
  intro r hr c hc
  unfold xorRows
  by_cases h : T r ∧ c < Q
  · rw [if_pos h]; omega
  · rw [if_neg h]; exact hb r hr c hc

/-- A forward pivot step as row operations: eliminate; exchange, then eliminate; or nothing. -/
theorem fwd_step_cases {M Q i : Nat} {A : BitMatrix} (hb : Bits M Q A) (hf : FwdInv i M A)
    (hiM : i < M) (hiQ : i < Q) :
    (A i i = 1 ∧ pivotStep MATRIX_FORWARD_ELIMINATION M Q i A = xorRows (fwdT i M A) i Q A) ∨
    (A i i = 0 ∧ ∃ idx, i < idx ∧ idx < M ∧ A idx i = 1 ∧ (∀ t, i < t → t < idx → A t i = 0) ∧
      pivotStep MATRIX_FORWARD_ELIMINATION M Q i A
        = xorRows (fwdT i M (swapped i idx Q A)) i Q (swapped i idx Q A)) ∨
    (A i i = 0 ∧ (∀ t, i < t → t < M → A t i = 0) ∧
      pivotStep MATRIX_FORWARD_ELIMINATION M Q i A = A) := by
  rcases pivotStep_fwd_cases M Q i A hiM with ⟨h1, h2⟩ | ⟨h1, idx, h2, h3, h4, h5, h6⟩ | ⟨h1, h2, h3⟩
  · left
    refine ⟨h1, ?_⟩
    rw [h2, perform_fwd i M Q A hb]
    intro c hc
    exact hf c hc i hc hiM
  · right; left
    have h0 : A i i = 0 := by
      rcases bit_cases hb hiM hiQ with h | h
      · exact h
      · exact absurd h h1
    have hx : A idx i = 1 := by
      rcases bit_cases hb h3 hiQ with h | h
      · exact absurd h h4
      · exact h
    refine ⟨h0, idx, h2, h3, hx, h5, ?_⟩
    rw [h6, perform_fwd i M Q _ (bits_swapped hb hiM h3)]
    intro c hc
    unfold swapped
    rw [if_pos (by omega)]
    by_cases e : i = idx
    · omega
    · rw [if_neg e, if_pos rfl]
      exact hf c hc idx (by omega) h3
  · right; right
    have h0 : A i i = 0 := by
      rcases bit_cases hb hiM hiQ with h | h
      · exact h
      · exact absurd h h1
    exact ⟨h0, h2, h3⟩

/-- A backward pivot step as row operations: eliminate; exchange, then eliminate; or nothing. -/
theorem bwd_step_cases {M Q i : Nat} {A : BitMatrix} (hb : Bits M Q A)
    (hiM : i < M) (hiQ : i < Q) :
    (A i i = 1 ∧ pivotStep MATRIX_BACKWARD_ELIMINATION M Q i A = xorRows (bwdT i A) i Q A) ∨
    (A i i = 0 ∧ ∃ idx, idx < i ∧ A idx i = 1 ∧ (∀ t, idx < t → t < i → A t i = 0) ∧
      pivotStep MATRIX_BACKWARD_ELIMINATION M Q i A
        = xorRows (bwdT i (swapped i idx Q A)) i Q (swapped i idx Q A)) ∨
    (A i i = 0 ∧ (∀ t, t < i → A t i = 0) ∧
      pivotStep MATRIX_BACKWARD_ELIMINATION M Q i A = A) := by
  have h0 : A i i ≠ 1 → A i i = 0 := by
    intro h1
    rcases bit_cases hb hiM hiQ with h | h
    · exact h
    · exact absurd h h1
  rcases pivotStep_bwd_cases M Q i A with ⟨h1, h2⟩ | ⟨h1, idx, h2, h4, h5, h6⟩ | ⟨h1, h2, h3⟩
  · left
    exact ⟨h1, by rw [h2, perform_bwd]⟩
  · right; left
    have hx : A idx i = 1 := by
      rcases bit_cases hb (show idx < M by omega) hiQ with h | h
      · exact absurd h h4
      · exact h
    exact ⟨h0 h1, idx, h2, hx, h5, by rw [h6, perform_bwd]⟩
  · right; right
    exact ⟨h0 h1, h2, h3⟩

theorem forUp_induct {α : Type} (P : Nat → α → Prop) (body : Nat → α → α) (n : Nat) (a : α)
    (h0 : P 0 a) (hs : ∀ i b, i < n → P i b → P (i + 1) (body i b)) :
    P n (forUp 0 n body a) := by
  induction n with
  | zero => exact h0
  | succ n ih =>
    rw [forUp_succ, Nat.zero_add]
    exact hs n _ (by omega) (ih (fun i b hi hp => hs i b (by omega) hp))

theorem forDown_induct {α : Type} (P : Nat → α → Prop) (body : Nat → α → α) (n : Nat) :
    ∀ a : α, P n a → (∀ i b, i < n → P (i + 1) b → P i (body i b)) →
      P 0 (forDown n body a) := by
  induction n with
  | zero => intro a h0 _; exact h0
  | succ n ih =>
    intro a h0 hs
    rw [forDown_succ]
    exact ih _ (hs n a (by omega) h0) (fun i b hi hp => hs i b (by omega) hp)

theorem fwdInv_swapped {M Q i idx : Nat} {A : BitMatrix} (hf : FwdInv i M A)
    (h1 : i < idx) (h2 : idx < M) : FwdInv i M (swapped i idx Q A) := by
  intro c hc r hr hrM
  unfold swapped
  by_cases hcQ : c < Q
  · rw [if_pos hcQ]
    by_cases e1 : r = idx
    · rw [if_pos e1]; exact hf c hc i hc (by omega)
    · rw [if_neg e1]
      by_cases e2 : r = i
      · rw [if_pos e2]; exact hf c hc idx (by omega) h2
      · rw [if_neg e2]; exact hf c hc r hr hrM
  · rw [if_neg hcQ]; exact hf c hc r hr hrM

theorem fwdInv_xor {M Q i : Nat} {A : BitMatrix} (hb : Bits M Q A) (hf : FwdInv i M A)
    (h1 : A i i = 1) (hiM : i < M) (hiQ : i < Q) :
    FwdInv (i + 1) M (xorRows (fwdT i M A) i Q A) := by
  intro c hc r hr hrM
  unfold xorRows fwdT
  by_cases hci : c = i
  · subst hci
    by_cases hT : A r c = 1
    · rw [if_pos ⟨⟨hr, hrM, hT⟩, hiQ⟩, hT, h1]
    · rw [if_neg (fun h => hT h.1.2.2)]
      rcases bit_cases hb hrM hiQ with h | h
      · exact h
      · exact absurd h hT
  · have hc2 : c < i := by omega
    have e1 : A r c = 0 := hf c hc2 r hr hrM
    have e2 : A i c = 0 := hf c hc2 i hc2 hiM
    by_cases hT : (i < r ∧ r < M ∧ A r i = 1) ∧ c < Q
    · rw [if_pos hT, e1, e2]
    · rw [if_neg hT, e1]

/-- One forward pivot step keeps the cells bits and clears column `i` below the diagonal. -/
theorem fwd_step_inv {M Q i : Nat} {A : BitMatrix} (hb : Bits M Q A) (hf : FwdInv i M A)
    (hiM : i < M) (hiQ : i < Q) :
    Bits M Q (pivotStep MATRIX_FORWARD_ELIMINATION M Q i A) ∧
      FwdInv (i + 1) M (pivotStep MATRIX_FORWARD_ELIMINATION M Q i A) := by
  rcases fwd_step_cases hb hf hiM hiQ with ⟨h1, h2⟩ | ⟨h1, idx, h2, h3, h4, h5, h6⟩ | ⟨h1, h2, h3⟩
  · rw [h2]
    exact ⟨bits_xorRows hb _ _, fwdInv_xor hb hf h1 hiM hiQ⟩
  · rw [h6]
    have hb1 := bits_swapped (Q := Q) hb hiM h3
    have hf1 := fwdInv_swapped (Q := Q) hf h2 h3
    have hp : swapped i idx Q A i i = 1 := by
      unfold swapped
      rw [if_pos hiQ, if_neg (by omega), if_pos rfl]
      exact h4
    exact ⟨bits_xorRows hb1 _ _, fwdInv_xor hb1 hf1 hp hiM hiQ⟩
  · rw [h3]
    refine ⟨hb, ?_⟩
    intro c hc r hr hrM
    by_cases hci : c = i
    · subst hci; exact h2 r hr hrM
    · exact hf c (by omega) r hr hrM

/-- A property kept by every forward pivot step (on bit matrices already cleared
below the diagonal before column `i`) holds after the forward pass. -/
theorem forwardPass_induct (P : Nat → BitMatrix → Prop) (M Q : Nat) (A : BitMatrix)
    (hb : Bits M Q A) (h0 : P 0 A)
    (hs : ∀ i B, i + 1 < min M Q → Bits M Q B → FwdInv i M B → P i B →
      P (i + 1) (pivotStep MATRIX_FORWARD_ELIMINATION M Q i B)) :
    Bits M Q (forwardPass M Q A) ∧ FwdInv (min M Q - 1) M (forwardPass M Q A) ∧
      P (min M Q - 1) (forwardPass M Q A) := by
  unfold forwardPass
  refine forUp_induct (fun i B => Bits M Q B ∧ FwdInv i M B ∧ P i B) _ _ A
    ⟨hb, fun c hc => absurd hc (by omega), h0⟩ ?_
  rintro i B hi ⟨b1, b2, b3⟩
  have hiM : i < M := by omega
  have hiQ : i < Q := by omega
  obtain ⟨c1, c2⟩ := fwd_step_inv b1 b2 hiM hiQ
  exact ⟨c1, c2, hs i B (by omega) b1 b2 b3⟩

theorem bwd_step_bits {M Q i : Nat} {A : BitMatrix} (hb : Bits M Q A)
    (hiM : i < M) (hiQ : i < Q) :
    Bits M Q (pivotStep MATRIX_BACKWARD_ELIMINATION M Q i A) := by
  rcases bwd_step_cases hb hiM hiQ with ⟨_, h2⟩ | ⟨_, idx, h2, _, _, h6⟩ | ⟨_, _, h3⟩
  · rw [h2]; exact bits_xorRows hb _ _
  · rw [h6]; exact bits_xorRows (bits_swapped hb hiM (by omega)) _ _
  · rw [h3]; exact hb

/-- A property kept by every backward pivot step on bit matrices holds after the
backward pass. -/
theorem backwardPass_induct (P : Nat → BitMatrix → Prop) (M Q : Nat) (A : BitMatrix)
    (hb : Bits M Q A) (h0 : P (min M Q - 1) A)
    (hs : ∀ i B, i + 1 < min M Q → Bits M Q B → P (i + 1) B →
      P i (pivotStep MATRIX_BACKWARD_ELIMINATION M Q (i + 1) B)) :
    Bits M Q (backwardPass M Q A) ∧ P 0 (backwardPass M Q A) := by
  unfold backwardPass
  refine forDown_induct (fun i B => Bits M Q B ∧ P i B) _ _ A ⟨hb, h0⟩ ?_
  rintro i B hi ⟨b1, b2⟩
  exact ⟨bwd_step_bits b1 (by omega) (by omega), hs i B (by omega) b1 b2⟩

theorem bwdInv_xor {M Q m i : Nat} {A : BitMatrix} (hb : Bits M Q A) (hmM : m ≤ M)
    (hmQ : m ≤ Q) (hp : i + 1 < m) (hpp : A (i + 1) (i + 1) = 1)
    (hU : ∀ r, r < i + 1 → ∀ c, c < m → (c < r ∨ i + 1 < c) → A r c = 0)
    (hP1 : ∀ c, i + 1 < c → c < m → A (i + 1) c = 0)
    (hP2 : ∀ r, r < i + 1 → A r (i + 1) = 1 → ∀ c, c < r → A (i + 1) c = 0)
    (hL : ∀ r, i + 1 < r → r < m →
      (∀ c, r < c → c < m → A r c = 0) ∧ (A r r = 1 ∨ ∀ c, c < m → A r c = 0))
    (hlow : ∀ r, m ≤ r → r < M → ∀ c, c + 1 < m → A r c = 0) :
    BwdInv i m M (xorRows (bwdT (i + 1) A) (i + 1) Q A) := by
  have hnt : ∀ r, i + 1 ≤ r → ∀ c, xorRows (bwdT (i + 1) A) (i + 1) Q A r c = A r c := by
    intro r hr c
    unfold xorRows bwdT
    rw [if_neg (fun h => by omega)]
  refine ⟨?_, ?_, ?_⟩
  · intro r hr c hc hcc
    have hcQ : c < Q := by omega
    unfold xorRows bwdT
    by_cases hT : A r (i + 1) = 1
    · rw [if_pos ⟨⟨by omega, hT⟩, hcQ⟩]
      by_cases h1 : c < r
      · rw [hU r (by omega) c hc (Or.inl h1), hP2 r (by omega) hT c h1]
      · by_cases h2 : c = i + 1
        · rw [h2, hT, hpp]
        · rw [hU r (by omega) c hc (Or.inr (by omega)), hP1 c (by omega) hc]
    · rw [if_neg (fun h => hT h.1.2)]
      by_cases h2 : c = i + 1
      · rw [h2]
        rcases bit_cases hb (show r < M by omega) (show i + 1 < Q by omega) with h | h
        · exact h
        · exact absurd h hT
      · refine hU r (by omega) c hc ?_
        omega
  · intro r hr hrm
    by_cases hri : r = i + 1
    · subst hri
      refine ⟨fun c h1 h2 => by rw [hnt _ (le_refl _)]; exact hP1 c h1 h2, Or.inl ?_⟩
      rw [hnt _ (le_refl _)]; exact hpp
    · obtain ⟨l1, l2⟩ := hL r (by omega) hrm
      refine ⟨fun c h1 h2 => by rw [hnt r (by omega)]; exact l1 c h1 h2, ?_⟩
      rcases l2 with l2 | l2
      · left; rw [hnt r (by omega)]; exact l2
      · right; intro c hc; rw [hnt r (by omega)]; exact l2 c hc
  · intro r hr hrM c hc
    rw [hnt r (by omega)]
    exact hlow r hr hrM c hc

/-- One backward pivot step moves the invariant from pivot `i + 1` to pivot `i`. -/
theorem bwd_step_inv {M Q m i : Nat} {A : BitMatrix} (hb : Bits M Q A) (hmM : m ≤ M)
    (hmQ : m ≤ Q) (hp : i + 1 < m) (hinv : BwdInv (i + 1) m M A) :
    BwdInv i m M (pivotStep MATRIX_BACKWARD_ELIMINATION M Q (i + 1) A) := by
  obtain ⟨hU, hL, hlow⟩ := hinv
  rcases bwd_step_cases hb (show i + 1 < M by omega) (show i + 1 < Q by omega) with
    ⟨h1, h2⟩ | ⟨h1, idx, h2, h4, h5, h6⟩ | ⟨h1, h2, h3⟩
  · rw [h2]
    refine bwdInv_xor hb hmM hmQ hp h1 (fun r hr c hc hcc => hU r (by omega) c hc hcc)
      (fun c h3 h4 => hU (i + 1) (le_refl _) c h4 (Or.inr h3))
      (fun r hr _ c hc => hU (i + 1) (le_refl _) c (by omega) (Or.inl (by omega)))
      (fun r hr hrm => hL r hr hrm) hlow
  · rw [h6]
    have hsw : ∀ r c, c < Q → swapped (i + 1) idx Q A r c
        = if r = idx then A (i + 1) c else if r = i + 1 then A idx c else A r c := by
      intro r c hc
      unfold swapped
      rw [if_pos hc]
    have hrow0 : ∀ c, c < m → A (i + 1) c = 0 := by
      intro c hc
      by_cases e : c = i + 1
      · rw [e]; exact h1
      · exact hU (i + 1) (le_refl _) c hc (by omega)
    refine bwdInv_xor (bits_swapped hb (by omega) (by omega)) hmM hmQ hp ?_ ?_ ?_ ?_ ?_ ?_
    · rw [hsw _ _ (by omega), if_neg (by omega), if_pos rfl]; exact h4
    · intro r hr c hc hcc
      rw [hsw _ _ (by omega)]
      by_cases e1 : r = idx
      · rw [if_pos e1]; exact hrow0 c hc
      · rw [if_neg e1, if_neg (by omega)]
        exact hU r (by omega) c hc hcc
    · intro c hc1 hc2
      rw [hsw _ _ (by omega), if_neg (by omega), if_pos rfl]
      exact hU idx (by omega) c hc2 (Or.inr hc1)
    · intro r hr hr1 c hc
      rw [hsw _ _ (by omega), if_neg (by omega), if_pos rfl]
      rw [hsw _ _ (by omega)] at hr1
      by_cases e1 : r = idx
      · rw [if_pos e1, h1] at hr1
        exact absurd hr1 (by decide)
      · rw [if_neg e1, if_neg (by omega)] at hr1
        have hlt : r < idx := by
          by_contra hge
          have := h5 r (by omega) hr
          rw [this] at hr1
          exact absurd hr1 (by decide)
        exact hU idx (by omega) c (by omega) (Or.inl (by omega))
    · intro r hr hrm
      have e : ∀ c, c < m → swapped (i + 1) idx Q A r c = A r c := by
        intro c hc
        rw [hsw _ _ (by omega), if_neg (by omega), if_neg (by omega)]
      obtain ⟨l1, l2⟩ := hL r hr hrm
      refine ⟨fun c h1 h2 => by rw [e c h2]; exact l1 c h1 h2, ?_⟩
      rcases l2 with l2 | l2
      · left; rw [e r hrm]; exact l2
      · right; intro c hc; rw [e c hc]; exact l2 c hc
    · intro r hr hrM c hc
      rw [hsw _ _ (by omega), if_neg (by omega), if_neg (by omega)]
      exact hlow r hr hrM c hc
  · rw [h3]
    refine ⟨?_, ?_, hlow⟩
    · intro r hr c hc hcc
      by_cases e : c = i + 1
      · rw [e]; exact h2 r (by omega)
      · exact hU r (by omega) c hc (by omega)
    · intro r hr hrm
      by_cases hri : r = i + 1
      · subst hri
        refine ⟨fun c h4 h5 => hU _ (le_refl _) c h5 (Or.inr h4), Or.inr ?_⟩
        intro c hc
        by_cases e : c = i + 1
        · rw [e]; exact h1
        · exact hU _ (le_refl _) c hc (by omega)
      · exact hL r (by omega) hrm

/-- After both passes the cells are bits and the invariant holds at pivot 0. -/
theorem eliminate_inv {M Q : Nat} {A : BitMatrix} (hb : Bits M Q A) :
    Bits M Q (eliminate M Q A) ∧ BwdInv 0 (min M Q) M (eliminate M Q A) := by
  obtain ⟨f1, f2, _⟩ := forwardPass_induct (fun _ _ => True) M Q A hb trivial
    (fun _ _ _ _ _ _ => trivial)
  unfold eliminate
  refine backwardPass_induct (fun i B => BwdInv i (min M Q) M B) M Q _ f1 ?_ ?_
  · refine ⟨?_, ?_, ?_⟩
    · intro r hr c hc hcc
      rcases hcc with h | h
      · exact f2 c (by omega) r h (by omega)
      · omega
    · intro r h1 h2; omega
    · intro r hr hrM c hc
      exact f2 c (by omega) r (by omega) hrM
  · intro i B hi hB hinv
    exact bwd_step_inv hB (Nat.min_le_left M Q) (Nat.min_le_right M Q) hi hinv

theorem eliminate_lowerUnit {M Q : Nat} {A : BitMatrix} (hb : Bits M Q A) :
    LowerUnit (min M Q) (eliminate M Q A) := by
  obtain ⟨hbits, hU, hL, _⟩ := eliminate_inv hb
  intro r hr
  by_cases h0 : r = 0
  · subst h0
    refine ⟨fun c h1 h2 => hU 0 (le_refl _) c h2 (Or.inr h1), ?_⟩
    rcases bit_cases hbits (show 0 < M by omega) (show 0 < Q by omega) with h | h
    · right
      intro c hc
      by_cases e : c = 0
      · rw [e]; exact h
      · exact hU 0 (le_refl _) c hc (Or.inr (by omega))
    · left; exact h
  · exact hL r (by omega) hr

/-! ## Rows as vectors over GF(2) -/

theorem cast_add_mod (a b : Nat) : (((a + b) % 2 : Nat) : ZMod 2) = (a : ZMod 2) + (b : ZMod 2) := by
  rw [ZMod.natCast_mod, Nat.cast_add]

theorem rowVec_xor (w Q : Nat) (hw : w ≤ Q) (T : Nat → Prop) [DecidablePred T] (i : Nat)
    (A : BitMatrix) (r : Nat) :
    rowVec w (xorRows T i Q A) r = if T r then rowVec w A r + rowVec w A i else rowVec w A r := by
  funext c
  have hc : c.val < Q := lt_of_lt_of_le c.isLt hw
  unfold rowVec xorRows
  by_cases h : T r
  · rw [if_pos ⟨h, hc⟩, if_pos h, cast_add_mod]; rfl
  · rw [if_neg (fun h2 => h h2.1), if_neg h]

theorem rowVec_swapped (w Q : Nat) (hw : w ≤ Q) (a b : Nat) (A : BitMatrix) (r : Nat) :
    rowVec w (swapped a b Q A) r = rowVec w A (Equiv.swap a b r) := by
  funext c
  have hc : c.val < Q := lt_of_lt_of_le c.isLt hw
  unfold rowVec swapped
  rw [if_pos hc]
  by_cases h1 : r = b
  · rw [if_pos h1, h1, Equiv.swap_apply_right]
  · rw [if_neg h1]
    by_cases h2 : r = a
    · rw [if_pos h2, h2, Equiv.swap_apply_left]
    · rw [if_neg h2, Equiv.swap_apply_of_ne_of_ne h2 h1]

theorem rowVec_eq_zero_iff {M Q w : Nat} {A : BitMatrix} (hb : Bits M Q A) (hw : w ≤ Q)
    {r : Nat} (hr : r < M) : rowVec w A r = 0 ↔ ∀ c, c < w → A r c = 0 := by
  constructor
  · intro h c hc
    have := congrFun h ⟨c, hc⟩
    simp only [rowVec, Pi.zero_apply] at this
    rcases bit_cases hb hr (show c < Q by omega) with h0 | h1
    · exact h0
    · rw [h1] at this
      exact absurd this (by decide)
  · intro h
    funext c
    simp only [rowVec, Pi.zero_apply, h c.val c.isLt, Nat.cast_zero]

/-! ## Independence of the non-zero rows -/

section LinearAlgebra

variable {V : Type} [AddCommGroup V] [Module (ZMod 2) V]

theorem indepNZ_swap {m : Nat} {v : Nat → V} (h : IndepNZ m v) {a b : Nat} (ha : a < m)
    (hb : b < m) : IndepNZ m (fun r => v (Equiv.swap a b r)) := by
  have hmem : ∀ r, r < m → Equiv.swap a b r < m := by
    intro r hr
    by_cases h1 : r = a
    · rw [h1, Equiv.swap_apply_left]; exact hb
    · by_cases h2 : r = b
      · rw [h2, Equiv.swap_apply_right]; exact ha
      · rw [Equiv.swap_apply_of_ne_of_ne h1 h2]; exact hr
  intro g hsum r hr
  have e : (∑ r in Finset.range m, g (Equiv.swap a b r) • v r)
      = ∑ r in Finset.range m, g r • v (Equiv.swap a b r) := by
    refine Finset.sum_equiv (Equiv.swap a b) ?_ ?_
    · intro t
      simp only [Finset.mem_range]
      constructor
      · exact hmem t
      · intro ht
        have := hmem _ ht
        rwa [Equiv.swap_apply_self] at this
    · intro t _
      rw [Equiv.swap_apply_self]
  have h2 := h (fun r => g (Equiv.swap a b r)) (by rw [e]; exact hsum) _ (hmem r hr)
  simpa only [Equiv.swap_apply_self] using h2

theorem indepNZ_xor {m : Nat} {v : Nat → V} (h : IndepNZ m v) {i : Nat} (hi : i < m)
    (T : Nat → Prop) [DecidablePred T]
    (hT : ∀ r, T r → r < m ∧ r ≠ i ∧ v r ≠ 0) :
    IndepNZ m (fun r => if T r then v r + v i else v r) := by
  intro g hsum
  have e1 : (∑ r in Finset.range m, g r • (if T r then v r + v i else v r))
      = (∑ r in Finset.range m, g r • v r)
        + (∑ r in Finset.range m, if T r then g r else 0) • v i := by
    rw [Finset.sum_smul, ← Finset.sum_add_distrib]
    refine Finset.sum_congr rfl ?_
    intro r _
    by_cases hr : T r
    · rw [if_pos hr, if_pos hr, smul_add]
    · rw [if_neg hr, if_neg hr, zero_smul, add_zero]
  have e2 : (∑ r in Finset.range m,
        (if r = i then g r + ∑ r in Finset.range m, (if T r then g r else 0) else g r) • v r)
      = (∑ r in Finset.range m, g r • v r)
        + (∑ r in Finset.range m, if T r then g r else 0) • v i := by
    have : ∀ r, (if r = i then g r + ∑ r in Finset.range m, (if T r then g r else 0) else g r) • v r
        = g r • v r + (if r = i then
            (∑ r in Finset.range m, (if T r then g r else 0)) • v i else 0) := by
      intro r
      by_cases hr : r = i
      · rw [if_pos hr, if_pos hr, add_smul, hr]
      · rw [if_neg hr, if_neg hr, add_zero]
    simp only [this]
    rw [Finset.sum_add_distrib, Finset.sum_ite_eq' (Finset.range m) i, if_pos (Finset.mem_range.2 hi)]
  have key := h _ (by rw [e2, ← e1]; exact hsum)
  have hTz : ∀ r, T r → g r = 0 := by
    intro r hr
    obtain ⟨h1, h2, h3⟩ := hT r hr
    have := key r h1
    rw [if_neg h2] at this
    rcases this with h4 | h4
    · exact h4
    · exact absurd h4 h3
  have hs : (∑ r in Finset.range m, if T r then g r else 0) = 0 := by
    refine Finset.sum_eq_zero ?_
    intro r _
    by_cases hr : T r
    · rw [if_pos hr]; exact hTz r hr
    · rw [if_neg hr]
  intro r hr
  by_cases hrT : T r
  · left; exact hTz r hrT
  · have := key r hr
    rw [hs, add_zero] at this
    simp only [ite_self] at this
    rcases this with h4 | h4
    · left; exact h4
    · right; show (if T r then v r + v i else v r) = 0; rw [if_neg hrT]; exact h4

theorem indepNZ_add_ne_zero {m : Nat} {v : Nat → V} (h : IndepNZ m v) {i j : Nat} (hi : i < m)
    (hj : j < m) (hij : j ≠ i) (hvj : v j ≠ 0) : v j + v i ≠ 0 := by
  intro h0
  have e : (∑ r in Finset.range m, (if r = j then (1 : ZMod 2) else if r = i then 1 else 0) • v r)
      = v j + v i := by
    have : ∀ r, (if r = j then (1 : ZMod 2) else if r = i then 1 else 0) • v r
        = (if r = j then v j else 0) + (if r = i then v i else 0) := by
      intro r
      by_cases h1 : r = j
      · rw [if_pos h1, if_pos h1, if_neg (by rw [h1]; exact hij), one_smul, add_zero, h1]
      · by_cases h2 : r = i
        · rw [if_neg h1, if_pos h2, if_neg h1, if_pos h2, one_smul, zero_add, h2]
        · rw [if_neg h1, if_neg h2, if_neg h1, if_neg h2, zero_smul, add_zero]
    simp only [this]
    rw [Finset.sum_add_distrib, Finset.sum_ite_eq' (Finset.range m) j,
      Finset.sum_ite_eq' (Finset.range m) i, if_pos (Finset.mem_range.2 hi),
      if_pos (Finset.mem_range.2 hj)]
  have := h _ (by rw [e]; exact h0) j hj
  rw [if_pos rfl] at this
  rcases this with h1 | h1
  · exact absurd h1 (by decide)
  · exact hvj h1

end LinearAlgebra

/-- A matrix in the shape left by `computeRank` has independent non-zero rows. -/
theorem indepNZ_of_lowerUnit {m : Nat} {B : BitMatrix} (h : LowerUnit m B) :
    IndepNZ m (rowVec m B) := by
  intro g hsum
  have main : ∀ n r, r < m → m ≤ r + n → g r = 0 ∨ rowVec m B r = 0 := by
    intro n
    induction n with
    | zero => intro r h1 h2; omega
    | succ n ih =>
      intro r hr hn
      by_cases hlt : m ≤ r + n
      · exact ih r hr hlt
      · obtain ⟨hz, hd⟩ := h r hr
        rcases hd with hd | hd
        · left
          have hcol := congrFun hsum ⟨r, hr⟩
          rw [Finset.sum_apply] at hcol
          rw [Finset.sum_eq_single r] at hcol
          · simp only [Pi.smul_apply, rowVec, hd, Nat.cast_one, smul_eq_mul, mul_one,
              Pi.zero_apply] at hcol
            exact hcol
          · intro t ht htr
            rw [Finset.mem_range] at ht
            rcases Nat.lt_or_gt_of_ne htr with h1 | h1
            · have := (h t ht).1 r h1 hr
              simp only [Pi.smul_apply, rowVec, this, Nat.cast_zero, smul_eq_mul, mul_zero]
            · rcases ih t ht (by omega) with h2 | h2
              · rw [h2, zero_smul]; rfl
              · rw [h2, smul_zero]; rfl
          · intro hnm
            exact absurd (Finset.mem_range.2 hr) hnm
        · right
          funext c
          simp only [rowVec, hd c.val c.isLt, Nat.cast_zero, Pi.zero_apply]
  intro r hr
  exact main m r hr (by omega)

/-! ## Counting the all-zero rows -/

theorem determine_rank_eq (m M Q : Nat) (B : BitMatrix) :
    determine_rank m M Q B = (m : Int) - (zeroCount M Q B : Int) := by
  unfold determine_rank zeroCount
  induction M with
  | zero => simp [forUp]
  | succ M ih =>
    rw [forUp_succ, ih, Nat.zero_add, Finset.range_succ, Finset.filter_insert]
    by_cases h : allZeroes Q B M = true
    · rw [if_pos h, if_pos h, Finset.card_insert_of_not_mem (by simp)]
      push_cast
      ring
    · rw [if_neg h, if_neg h]

theorem zeroCount_congr {M Q : Nat} {B C : BitMatrix}
    (h : ∀ r, r < M → allZeroes Q B r = allZeroes Q C r) : zeroCount M Q B = zeroCount M Q C := by
  unfold zeroCount
  congr 1
  refine Finset.filter_congr ?_
  intro r hr
  rw [h r (Finset.mem_range.1 hr)]

theorem allZeroes_swapped (a b Q : Nat) (B : BitMatrix) (r : Nat) :
    allZeroes Q (swapped a b Q B) r = allZeroes Q B (Equiv.swap a b r) := by
  unfold allZeroes
  congr 1
  apply propext
  have hsw : ∀ c, c < Q → swapped a b Q B r c = B (Equiv.swap a b r) c := by
    intro c hc
    unfold swapped
    rw [if_pos hc]
    by_cases h1 : r = b
    · rw [if_pos h1, h1, Equiv.swap_apply_right]
    · rw [if_neg h1]
      by_cases h2 : r = a
      · rw [if_pos h2, h2, Equiv.swap_apply_left]
      · rw [if_neg h2, Equiv.swap_apply_of_ne_of_ne h2 h1]
  constructor
  · intro h j hj; rw [← hsw j hj]; exact h j hj
  · intro h j hj; rw [hsw j hj]; exact h j hj

theorem zeroCount_swapped {M Q a b : Nat} (ha : a < M) (hb : b < M) (B : BitMatrix) :
    zeroCount M Q (swapped a b Q B) = zeroCount M Q B := by
  have hmem : ∀ r, r < M → Equiv.swap a b r < M := by
    intro r hr
    by_cases h1 : r = a
    · rw [h1, Equiv.swap_apply_left]; exact hb
    · by_cases h2 : r = b
      · rw [h2, Equiv.swap_apply_right]; exact ha
      · rw [Equiv.swap_apply_of_ne_of_ne h1 h2]; exact hr
  unfold zeroCount
  refine Finset.card_equiv (Equiv.swap a b) ?_
  intro r
  simp only [Finset.mem_filter, Finset.mem_range, allZeroes_swapped]
  constructor
  · rintro ⟨h1, h2⟩; exact ⟨hmem r h1, h2⟩
  · rintro ⟨h1, h2⟩
    have := hmem _ h1
    rw [Equiv.swap_apply_self] at this
    exact ⟨this, h2⟩

/-! ## Row operations on a matrix whose non-zero rows are independent -/

theorem good_swapped {M Q a b : Nat} {B : BitMatrix} (h : Good M Q B) (ha : a < min M Q)
    (hb : b < min M Q) :
    Good M Q (swapped a b Q B) ∧ zeroCount M Q (swapped a b Q B) = zeroCount M Q B := by
  refine ⟨⟨bits_swapped h.bits (by omega) (by omega), ?_, ?_⟩,
    zeroCount_swapped (by omega) (by omega) B⟩
  · have e : rowVec (min M Q) (swapped a b Q B)
        = fun r => rowVec (min M Q) B (Equiv.swap a b r) :=
      funext (rowVec_swapped _ Q (Nat.min_le_right M Q) a b B)
    rw [e]
    exact indepNZ_swap h.indep ha hb
  · intro r hr hrM c hc
    unfold swapped
    by_cases hcQ : c < Q
    · rw [if_pos hcQ, if_neg (by omega), if_neg (by omega)]
      exact h.low r hr hrM c hc
    · rw [if_neg hcQ]
      exact h.low r hr hrM c hc

theorem rowVec_ne_zero_of_cell {w : Nat} {B : BitMatrix} {r i : Nat} (hi : i < w)
    (h1 : B r i = 1) : rowVec w B r ≠ 0 := by
  intro h0
  have := congrFun h0 ⟨i, hi⟩
  simp only [rowVec, h1, Nat.cast_one, Pi.zero_apply] at this
  exact absurd this (by decide)

theorem good_xor {M Q i : Nat} {B : BitMatrix} (h : Good M Q B) (hi : i < min M Q)
    (T : Nat → Prop) [DecidablePred T] (hT : ∀ r, T r → r < min M Q ∧ r ≠ i ∧ B r i = 1) :
    Good M Q (xorRows T i Q B) ∧ zeroCount M Q (xorRows T i Q B) = zeroCount M Q B := by
  have hbits := bits_xorRows h.bits T i
  have e : rowVec (min M Q) (xorRows T i Q B)
      = fun r => if T r then rowVec (min M Q) B r + rowVec (min M Q) B i
          else rowVec (min M Q) B r :=
    funext (rowVec_xor _ Q (Nat.min_le_right M Q) T i B)
  refine ⟨⟨hbits, ?_, ?_⟩, ?_⟩
  · rw [e]
    refine indepNZ_xor h.indep hi T ?_
    intro r hr
    obtain ⟨h1, h2, h3⟩ := hT r hr
    exact ⟨h1, h2, rowVec_ne_zero_of_cell hi h3⟩
  · intro r hr hrM c hc
    unfold xorRows
    rw [if_neg (fun h2 => by have := (hT r h2.1).1; omega)]
    exact h.low r hr hrM c hc
  · refine zeroCount_congr ?_
    intro r hr
    by_cases hTr : T r
    · obtain ⟨h1, h2, h3⟩ := hT r hTr
      have f1 : allZeroes Q B r = false := by
        unfold allZeroes
        rw [decide_eq_false_iff_not]
        intro hall
        exact hall i (by omega) h3
      have hne : rowVec (min M Q) (xorRows T i Q B) r ≠ 0 := by
        rw [e]
        show (if T r then rowVec (min M Q) B r + rowVec (min M Q) B i
          else rowVec (min M Q) B r) ≠ 0
        rw [if_pos hTr]
        exact indepNZ_add_ne_zero h.indep hi h1 h2 (rowVec_ne_zero_of_cell hi h3)
      have f2 : allZeroes Q (xorRows T i Q B) r = false := by
        unfold allZeroes
        rw [decide_eq_false_iff_not]
        intro hall
        apply hne
        rw [rowVec_eq_zero_iff hbits (Nat.min_le_right M Q) hr]
        intro c hc
        rcases bit_cases hbits hr (show c < Q by omega) with h0 | h1
        · exact h0
        · exact absurd h1 (hall c (by omega))
      rw [f1, f2]
    · unfold allZeroes
      congr 1
      apply propext
      have hrow : ∀ c, xorRows T i Q B r c = B r c := by
        intro c
        unfold xorRows
        rw [if_neg (fun h2 => hTr h2.1)]
      constructor
      · intro hall j hj; rw [← hrow j]; exact hall j hj
      · intro hall j hj; rw [hrow j]; exact hall j hj

theorem swapped_pivot {Q i idx : Nat} {A : BitMatrix} (hiQ : i < Q) (hne : i ≠ idx)
    (h : A idx i = 1) : swapped i idx Q A i i = 1 := by
  unfold swapped
  rw [if_pos hiQ, if_neg hne, if_pos rfl]
  exact h

theorem good_fwd_step {M Q i : Nat} {B : BitMatrix} (h : Good M Q B) (hf : FwdInv i M B)
    (hi : i + 1 < min M Q) :
    Good M Q (pivotStep MATRIX_FORWARD_ELIMINATION M Q i B) ∧
      zeroCount M Q (pivotStep MATRIX_FORWARD_ELIMINATION M Q i B) = zeroCount M Q B := by
  have hiM : i < M := by omega
  have hiQ : i < Q := by omega
  have hrow : ∀ (C : BitMatrix), Good M Q C → ∀ r, r < M → C r i = 1 → r < min M Q := by
    intro C hC r hr h1
    by_contra hge
    have := hC.low r (by omega) hr i hi
    rw [this] at h1
    exact absurd h1 (by decide)
  rcases fwd_step_cases h.bits hf hiM hiQ with
    ⟨_, h2⟩ | ⟨_, idx, h2, h3, h4, _, h6⟩ | ⟨_, _, h3⟩
  · rw [h2]
    refine good_xor h (by omega) _ ?_
    rintro r ⟨r1, r2, r3⟩
    exact ⟨hrow B h r r2 r3, by omega, r3⟩
  · rw [h6]
    obtain ⟨g1, g2⟩ := good_swapped (a := i) (b := idx) h (by omega) (hrow B h idx h3 h4)
    rw [← g2]
    refine good_xor g1 (by omega) _ ?_
    rintro r ⟨r1, r2, r3⟩
    exact ⟨hrow _ g1 r r2 r3, by omega, r3⟩
  · rw [h3]
    exact ⟨h, rfl⟩

theorem good_bwd_step {M Q i : Nat} {B : BitMatrix} (h : Good M Q B) (hi : i < min M Q) :
    Good M Q (pivotStep MATRIX_BACKWARD_ELIMINATION M Q i B) ∧
      zeroCount M Q (pivotStep MATRIX_BACKWARD_ELIMINATION M Q i B) = zeroCount M Q B := by
  rcases bwd_step_cases h.bits (show i < M by omega) (show i < Q by omega) with
    ⟨_, h2⟩ | ⟨_, idx, h2, _, _, h6⟩ | ⟨_, _, h3⟩
  · rw [h2]
    refine good_xor h hi _ ?_
    rintro r ⟨r1, r2⟩
    exact ⟨by omega, by omega, r2⟩
  · rw [h6]
    obtain ⟨g1, g2⟩ := good_swapped (a := i) (b := idx) h hi (by omega)
    rw [← g2]
    refine good_xor g1 hi _ ?_
    rintro r ⟨r1, r2⟩
    exact ⟨by omega, by omega, r2⟩
  · rw [h3]
    exact ⟨h, rfl⟩

/-- On a matrix whose non-zero rows are independent, the two passes of `computeRank`
keep the number of all-zero rows. -/
theorem good_eliminate {M Q : Nat} {B : BitMatrix} (h : Good M Q B) :
    Good M Q (eliminate M Q B) ∧ zeroCount M Q (eliminate M Q B) = zeroCount M Q B := by
  obtain ⟨f1, _, f3⟩ := forwardPass_induct
    (fun _ C => Good M Q C ∧ zeroCount M Q C = zeroCount M Q B) M Q B h.bits ⟨h, rfl⟩
    (fun i C hi _ hC2 hC3 => by
      obtain ⟨g1, g2⟩ := good_fwd_step hC3.1 hC2 hi
      exact ⟨g1, by rw [g2]; exact hC3.2⟩)
  unfold eliminate
  exact (backwardPass_induct
    (fun _ C => Good M Q C ∧ zeroCount M Q C = zeroCount M Q B) M Q _ f1 f3
    (fun i C hi _ hC3 => by
      obtain ⟨g1, g2⟩ := good_bwd_step hC3.1 hi
      exact ⟨g1, by rw [g2]; exact hC3.2⟩)).2

/-- The matrix left by `computeRank` on a bit matrix has independent non-zero rows. -/
theorem good_of_eliminate {M Q : Nat} {A : BitMatrix} (hb : Bits M Q A) :
    Good M Q (eliminate M Q A) := by
  obtain ⟨h1, h2⟩ := eliminate_inv hb
  exact ⟨h1, indepNZ_of_lowerUnit (eliminate_lowerUnit hb), h2.low⟩

theorem computeRank_eq (M Q : Nat) (A : BitMatrix) :
    computeRank M Q A = ((min M Q : Nat) : Int) - (zeroCount M Q (eliminate M Q A) : Int) := by
  unfold computeRank
  rw [determine_rank_eq]

/-! ## The row space -/

theorem rowSet_swap {V : Type} {M a b : Nat} (ha : a < M) (hb : b < M) (v : Nat → V) :
    rowSet M (fun r => v (Equiv.swap a b r)) = rowSet M v := by
  have hmem : ∀ r, r < M → Equiv.swap a b r < M := by
    intro r hr
    by_cases h1 : r = a
    · rw [h1, Equiv.swap_apply_left]; exact hb
    · by_cases h2 : r = b
      · rw [h2, Equiv.swap_apply_right]; exact ha
      · rw [Equiv.swap_apply_of_ne_of_ne h1 h2]; exact hr
  ext x
  constructor
  · rintro ⟨r, hr, hx⟩
    exact ⟨_, hmem r hr, hx⟩
  · rintro ⟨r, hr, hx⟩
    refine ⟨_, hmem r hr, ?_⟩
    show v (Equiv.swap a b (Equiv.swap a b r)) = x
    rw [Equiv.swap_apply_self]; exact hx

section RowSpace

variable {V : Type} [AddCommGroup V] [Module (ZMod 2) V]

theorem add_self_gf2 (x : V) : x + x = 0 := by
  have h2 : (2 : ZMod 2) = 0 := by decide
  rw [← two_smul (ZMod 2) x, h2, zero_smul]

theorem span_rowSet_xor {M i : Nat} (hi : i < M) (T : Nat → Prop) [DecidablePred T]
    (hT : ∀ r, T r → r ≠ i) (v : Nat → V) :
    Submodule.span (ZMod 2) (rowSet M (fun r => if T r then v r + v i else v r))
      = Submodule.span (ZMod 2) (rowSet M v) := by
  apply le_antisymm
  · refine Submodule.span_le.2 ?_
    rintro x ⟨r, hr, hx⟩
    rw [← hx]
    show (if T r then v r + v i else v r) ∈ Submodule.span (ZMod 2) (rowSet M v)
    by_cases hTr : T r
    · rw [if_pos hTr]
      exact Submodule.add_mem _ (Submodule.subset_span ⟨r, hr, rfl⟩)
        (Submodule.subset_span ⟨i, hi, rfl⟩)
    · rw [if_neg hTr]
      exact Submodule.subset_span ⟨r, hr, rfl⟩
  · refine Submodule.span_le.2 ?_
    rintro x ⟨r, hr, hx⟩
    rw [← hx]
    have hvi : v i ∈ Submodule.span (ZMod 2)
        (rowSet M (fun r => if T r then v r + v i else v r)) := by
      refine Submodule.subset_span ⟨i, hi, ?_⟩
      show (if T i then v i + v i else v i) = v i
      rw [if_neg (fun h => hT i h rfl)]
    by_cases hTr : T r
    · have h1 : v r + v i ∈ Submodule.span (ZMod 2)
          (rowSet M (fun r => if T r then v r + v i else v r)) := by
        refine Submodule.subset_span ⟨r, hr, ?_⟩
        show (if T r then v r + v i else v r) = v r + v i
        rw [if_pos hTr]
      have h2 := Submodule.add_mem _ h1 hvi
      rw [add_assoc, add_self_gf2, add_zero] at h2
      exact h2
    · refine Submodule.subset_span ⟨r, hr, ?_⟩
      show (if T r then v r + v i else v r) = v r
      rw [if_neg hTr]

end RowSpace

theorem rowSpan_swapped {M Q a b : Nat} (ha : a < M) (hb : b < M) (A : BitMatrix) :
    rowSpan M Q (swapped a b Q A) = rowSpan M Q A := by
  unfold rowSpan
  have e : rowVec Q (swapped a b Q A) = fun r => rowVec Q A (Equiv.swap a b r) :=
    funext (rowVec_swapped Q Q (le_refl Q) a b A)
  rw [e, rowSet_swap ha hb]

theorem rowSpan_xor {M Q i : Nat} (hi : i < M) (T : Nat → Prop) [DecidablePred T]
    (hT : ∀ r, T r → r ≠ i) (A : BitMatrix) :
    rowSpan M Q (xorRows T i Q A) = rowSpan M Q A := by
  unfold rowSpan
  have e : rowVec Q (xorRows T i Q A)
      = fun r => if T r then rowVec Q A r + rowVec Q A i else rowVec Q A r :=
    funext (rowVec_xor Q Q (le_refl Q) T i A)
  rw [e, span_rowSet_xor hi T hT]

theorem rowSpan_fwd_step {M Q i : Nat} {C : BitMatrix} (hC1 : Bits M Q C)
    (hC2 : FwdInv i M C) (hiM : i < M) (hiQ : i < Q) :
    rowSpan M Q (pivotStep MATRIX_FORWARD_ELIMINATION M Q i C) = rowSpan M Q C := by
  rcases fwd_step_cases hC1 hC2 hiM hiQ with
    ⟨_, h2⟩ | ⟨_, idx, _, h3, _, _, h6⟩ | ⟨_, _, h3⟩
  · rw [h2, rowSpan_xor hiM (fwdT i M C) (fun r hr => by have := hr.1; omega)]
  · rw [h6, rowSpan_xor hiM (fwdT i M (swapped i idx Q C))
      (fun r hr => by have := hr.1; omega), rowSpan_swapped hiM h3]
  · rw [h3]

theorem rowSpan_bwd_step {M Q i : Nat} {C : BitMatrix} (hC1 : Bits M Q C)
    (hiM : i < M) (hiQ : i < Q) :
    rowSpan M Q (pivotStep MATRIX_BACKWARD_ELIMINATION M Q i C) = rowSpan M Q C := by
  rcases bwd_step_cases hC1 hiM hiQ with
    ⟨_, h2⟩ | ⟨_, idx, h3, _, _, h6⟩ | ⟨_, _, h3⟩
  · rw [h2, rowSpan_xor hiM (bwdT i C) (fun r hr => by have := hr.1; omega)]
  · rw [h6, rowSpan_xor hiM (bwdT i (swapped i idx Q C))
      (fun r hr => by have := hr.1; omega), rowSpan_swapped hiM (by omega)]
  · rw [h3]

/-- The two passes of `computeRank` keep the row space. -/
theorem rowSpan_eliminate {M Q : Nat} {A : BitMatrix} (hb : Bits M Q A) :
    rowSpan M Q (eliminate M Q A) = rowSpan M Q A := by
  obtain ⟨f1, _, f3⟩ := forwardPass_induct
    (fun _ C => rowSpan M Q C = rowSpan M Q A) M Q A hb rfl
    (fun i C hi hC1 hC2 hC3 => by
      show rowSpan M Q (pivotStep MATRIX_FORWARD_ELIMINATION M Q i C) = rowSpan M Q A
      rw [rowSpan_fwd_step hC1 hC2 (by omega) (by omega)]
      exact hC3)
  unfold eliminate
  exact (backwardPass_induct
    (fun _ C => rowSpan M Q C = rowSpan M Q A) M Q _ f1 f3
    (fun i C hi hC1 hC3 => by
      show rowSpan M Q (pivotStep MATRIX_BACKWARD_ELIMINATION M Q (i + 1) C) = rowSpan M Q A
      rw [rowSpan_bwd_step hC1 (by omega) (by omega)]
      exact hC3)).2

theorem range_toMatrix (M Q : Nat) (A : BitMatrix) :
    Set.range (toMatrix M Q A) = rowSet M (rowVec Q A) := by
  ext x
  constructor
  · rintro ⟨r, hx⟩
    exact ⟨r.val, r.isLt, hx⟩
  · rintro ⟨r, hr, hx⟩
    exact ⟨⟨r, hr⟩, hx⟩

theorem rank_toMatrix (M Q : Nat) (A : BitMatrix) :
    (toMatrix M Q A).rank = Module.finrank (ZMod 2) (rowSpan M Q A) := by
  rw [Matrix.rank_eq_finrank_span_row, range_toMatrix]
  rfl

/-! ## The rank of a matrix whose non-zero rows are independent -/

theorem allZeroes_iff {M Q : Nat} {B : BitMatrix} (hb : Bits M Q B) {r : Nat} (hr : r < M) :
    allZeroes Q B r = true ↔ rowVec Q B r = 0 := by
  rw [rowVec_eq_zero_iff hb (le_refl Q) hr]
  unfold allZeroes
  rw [decide_eq_true_iff]
  constructor
  · intro h c hc
    rcases bit_cases hb hr hc with h0 | h1
    · exact h0
    · exact absurd h1 (h c hc)
  · intro h c hc
    rw [h c hc]
    decide

theorem linearIndependent_of_indepNZ {M Q : Nat} {B : BitMatrix}
    (h : IndepNZ M (rowVec Q B)) :
    LinearIndependent (ZMod 2)
      (fun x : {r : Fin M // toMatrix M Q B r ≠ 0} => toMatrix M Q B x.val) := by
  rw [Fintype.linearIndependent_iff]
  intro g hg x
  have hsum : (∑ r in Finset.range M,
      (if hr : r < M ∧ rowVec Q B r ≠ 0 then g ⟨⟨r, hr.1⟩, hr.2⟩ else 0) • rowVec Q B r) = 0 := by
    rw [← Fin.sum_univ_eq_sum_range
      (fun r => (if hr : r < M ∧ rowVec Q B r ≠ 0 then g ⟨⟨r, hr.1⟩, hr.2⟩ else 0) • rowVec Q B r) M]
    rw [← Finset.sum_filter_of_ne (p := fun i : Fin M => toMatrix M Q B i ≠ 0)]
    · rw [Finset.sum_subtype (Finset.univ.filter (fun i : Fin M => toMatrix M Q B i ≠ 0))
        (p := fun i : Fin M => toMatrix M Q B i ≠ 0) (by simp)]
      refine Eq.trans (Finset.sum_congr rfl ?_) hg
      intro y _
      have hy : (y.val.val < M ∧ rowVec Q B y.val.val ≠ 0) := ⟨y.val.isLt, y.2⟩
      rw [dif_pos hy]
      rfl
    · intro i _ hne hz
      apply hne
      have : rowVec Q B i.val = 0 := hz
      exact (congrArg (HSMul.hSMul _) this).trans (smul_zero _)
  have key := h _ hsum x.val.val x.val.isLt
  have hx : (x.val.val < M ∧ rowVec Q B x.val.val ≠ 0) := ⟨x.val.isLt, x.2⟩
  rw [dif_pos hx] at key
  rcases key with k | k
  · exact k
  · exact absurd k x.2

theorem card_nonzero_rows {M Q : Nat} {B : BitMatrix} (hb : Bits M Q B) :
    Fintype.card {r : Fin M // toMatrix M Q B r ≠ 0} + zeroCount M Q B = M := by
  have e1 : Fintype.card {r : Fin M // toMatrix M Q B r ≠ 0}
      = ((Finset.range M).filter (fun r => ¬ allZeroes Q B r = true)).card := by
    rw [Fintype.card_subtype]
    refine Finset.card_bij (fun a _ => a.val) ?_ ?_ ?_
    · intro a ha
      rw [Finset.mem_filter] at ha
      rw [Finset.mem_filter, Finset.mem_range, allZeroes_iff hb a.isLt]
      exact ⟨a.isLt, ha.2⟩
    · intro a _ b _ hab
      exact Fin.ext hab
    · intro r hr
      rw [Finset.mem_filter, Finset.mem_range] at hr
      refine ⟨⟨r, hr.1⟩, ?_, rfl⟩
      rw [Finset.mem_filter]
      refine ⟨Finset.mem_univ _, ?_⟩
      have := hr.2
      rw [allZeroes_iff hb hr.1] at this
      exact this
  rw [e1, add_comm]
  unfold zeroCount
  rw [Finset.filter_card_add_filter_neg_card_eq_card, Finset.card_range]

theorem rank_of_indepNZ {M Q : Nat} {B : BitMatrix} (hb : Bits M Q B)
    (h : IndepNZ M (rowVec Q B)) :
    (toMatrix M Q B).rank + zeroCount M Q B = M := by
  have hspan : Submodule.span (ZMod 2) (Set.range (toMatrix M Q B))
      = Submodule.span (ZMod 2)
          (Set.range (fun x : {r : Fin M // toMatrix M Q B r ≠ 0} => toMatrix M Q B x.val)) := by
    apply le_antisymm
    · refine Submodule.span_le.2 ?_
      rintro x ⟨r, hx⟩
      by_cases hz : toMatrix M Q B r = 0
      · rw [← hx, hz]; exact Submodule.zero_mem _
      · exact Submodule.subset_span ⟨⟨r, hz⟩, hx⟩
    · refine Submodule.span_mono ?_
      rintro x ⟨r, hx⟩
      exact ⟨r.val, hx⟩
  rw [Matrix.rank_eq_finrank_span_row, hspan,
    finrank_span_eq_card (linearIndependent_of_indepNZ h)]
  exact card_nonzero_rows hb

theorem indepNZ_cast {m n : Nat} {B : BitMatrix} (hm : m = n)
    (h : IndepNZ m (rowVec m B)) : IndepNZ n (rowVec n B) := by
  subst hm
  exact h

/-- For a square bit matrix the value `computeRank` returns is the rank over GF(2),
and the non-zero rows of the matrix it leaves are linearly independent. -/
theorem computeRank_square {n : Nat} {A : BitMatrix} (hb : Bits n n A) :
    LinearIndependent (ZMod 2)
      (fun x : {r : Fin n // toMatrix n n (eliminate n n A) r ≠ 0} =>
        toMatrix n n (eliminate n n A) x.val) ∧
    computeRank n n A = ((toMatrix n n A).rank : Int) := by
  have hg := good_of_eliminate hb
  have hind : IndepNZ n (rowVec n (eliminate n n A)) :=
    indepNZ_cast (Nat.min_self n) hg.indep
  refine ⟨linearIndependent_of_indepNZ hind, ?_⟩
  have h1 := rank_of_indepNZ hg.bits hind
  have h2 : (toMatrix n n (eliminate n n A)).rank = (toMatrix n n A).rank := by
    rw [rank_toMatrix, rank_toMatrix, rowSpan_eliminate hb]
  rw [computeRank_eq, Nat.min_self, ← h2]
  omega

/-! ## Bounds on the returned value and the closed form of `def_matrix` -/

theorem zeroCount_le (M Q : Nat) (B : BitMatrix) : zeroCount M Q B ≤ M := by
  unfold zeroCount
  exact le_trans (Finset.card_filter_le _ _) (le_of_eq (Finset.card_range M))

/-- The value `computeRank` returns never exceeds `min M Q`. -/
theorem computeRank_le_min (M Q : Nat) (A : BitMatrix) :
    computeRank M Q A ≤ ((min M Q : Nat) : Int) := by
  rw [computeRank_eq]
  omega

/-- With at most as many rows as columns the value `computeRank` returns is not negative. -/
theorem computeRank_nonneg {M Q : Nat} (h : M ≤ Q) (A : BitMatrix) :
    0 ≤ computeRank M Q A := by
  rw [computeRank_eq, Nat.min_eq_left h]
  have := zeroCount_le M Q (eliminate M Q A)
  omega

theorem setCell_apply (A : BitMatrix) (i j v r c : Nat) :
    setCell A i j v r c = if r = i ∧ c = j then v else A r c := rfl

theorem def_matrix_row (epsilon : Nat → Nat) (M Q k i : Nat) (n : Nat) (B : BitMatrix) :
    ∀ r c, forUp 0 n (fun j C => setCell C i j (epsilon (streamIndex M Q k i j))) B r c
      = if r = i ∧ c < n then epsilon (streamIndex M Q k i c) else B r c := by
  induction n with
  | zero =>
    intro r c
    rw [if_neg (by omega)]; rfl
  | succ n ih =>
    intro r c
    rw [forUp_succ, Nat.zero_add, setCell_apply]
    by_cases h : r = i ∧ c = n
    · rw [if_pos h, if_pos ⟨h.1, by omega⟩, h.2]
    · rw [if_neg h, ih]
      by_cases h2 : r = i ∧ c < n
      · rw [if_pos h2, if_pos ⟨h2.1, by omega⟩]
      · rw [if_neg h2, if_neg (by omega)]

theorem def_matrix_rows (epsilon : Nat → Nat) (M Q k : Nat) (n : Nat) (m : BitMatrix) :
    ∀ r c, forUp 0 n
        (fun i B => forUp 0 Q (fun j C => setCell C i j (epsilon (streamIndex M Q k i j))) B)
        m r c
      = if r < n ∧ c < Q then epsilon (streamIndex M Q k r c) else m r c := by
  induction n with
  | zero =>
    intro r c
    rw [if_neg (by omega)]; rfl
  | succ n ih =>
    intro r c
    rw [forUp_succ, Nat.zero_add, def_matrix_row]
    by_cases h : r = n ∧ c < Q
    · rw [if_pos h, if_pos ⟨by omega, h.2⟩, h.1]
    · rw [if_neg h, ih]
      by_cases h2 : r < n ∧ c < Q
      · rw [if_pos h2, if_pos ⟨by omega, h2.2⟩]
      · rw [if_neg h2, if_neg (by omega)]

/-- The closed form of `def_matrix`: inside the `M` by `Q` cells the matrix holds the
stream bits at `streamIndex`, outside it is unchanged. -/
theorem def_matrix_apply (epsilon : Nat → Nat) (M Q : Nat) (m : BitMatrix) (k : Nat) :
    ∀ r c, def_matrix epsilon M Q m k r c
      = if r < M ∧ c < Q then epsilon (streamIndex M Q k r c) else m r c := by
  unfold def_matrix
  exact def_matrix_rows epsilon M Q k M m

/-! ## The claims about the rank engine -/

/-- C1, evaluated at the 2 by 3 matrix with rows `0 0 1` and `0 0 1`: its cells are
bits, `computeRank` returns 2, and its rank over GF(2) is 1. -/
theorem C1_rectangular_rank_wrong :
    Bits 2 3 (ofRows [[0, 0, 1], [0, 0, 1]]) ∧
      computeRank 2 3 (ofRows [[0, 0, 1], [0, 0, 1]]) = 2 ∧
      (toMatrix 2 3 (ofRows [[0, 0, 1], [0, 0, 1]])).rank = 1 := by
  refine ⟨by decide, by decide, ?_⟩
  rw [rank_toMatrix]
  have hset : rowSet 2 (rowVec 3 (ofRows [[0, 0, 1], [0, 0, 1]]))
      = {rowVec 3 (ofRows [[0, 0, 1], [0, 0, 1]]) 0} := by
    ext x
    constructor
    · rintro ⟨r, hr, hx⟩
      have h01 : rowVec 3 (ofRows [[0, 0, 1], [0, 0, 1]]) 1
          = rowVec 3 (ofRows [[0, 0, 1], [0, 0, 1]]) 0 := by
        funext c; fin_cases c <;> rfl
      have : r = 0 ∨ r = 1 := by omega
      rcases this with h | h
      · rw [← hx, h]; rfl
      · rw [← hx, h, h01]; rfl
    · intro hx
      exact ⟨0, by decide, hx.symm⟩
  unfold rowSpan
  rw [hset]
  refine finrank_span_singleton ?_
  intro h0
  have := congrFun h0 ⟨2, by decide⟩
  revert this
  decide

/-- C2: for every `n` and every `n` by `n` bit matrix, the non-zero rows of the matrix
left by the forward and backward passes of `computeRank` are linearly independent over
GF(2), the value returned is `n` minus the number of all-zero rows of that matrix, and
it equals the rank over GF(2) of the input matrix. -/
theorem C2_square_rank_correct (n : Nat) (A : BitMatrix) (hb : Bits n n A) :
    LinearIndependent (ZMod 2)
      (fun x : {r : Fin n // toMatrix n n (eliminate n n A) r ≠ 0} =>
        toMatrix n n (eliminate n n A) x.val) ∧
    computeRank n n A = (n : Int) - (zeroCount n n (eliminate n n A) : Int) ∧
    computeRank n n A = ((toMatrix n n A).rank : Int) := by
  obtain ⟨h1, h2⟩ := computeRank_square hb
  refine ⟨h1, ?_, h2⟩
  rw [computeRank_eq, Nat.min_self]

/-- An instance of the square-matrix theorem: the 2 by 2 matrix with rows `0 1` and `1 1`. -/
theorem C2_square_rank_correct_witness :
    Bits 2 2 (ofRows [[0, 1], [1, 1]]) ∧
    (LinearIndependent (ZMod 2)
      (fun x : {r : Fin 2 // toMatrix 2 2 (eliminate 2 2 (ofRows [[0, 1], [1, 1]])) r ≠ 0} =>
        toMatrix 2 2 (eliminate 2 2 (ofRows [[0, 1], [1, 1]])) x.val) ∧
    computeRank 2 2 (ofRows [[0, 1], [1, 1]])
      = ((2 : Nat) : Int) - (zeroCount 2 2 (eliminate 2 2 (ofRows [[0, 1], [1, 1]])) : Int) ∧
    computeRank 2 2 (ofRows [[0, 1], [1, 1]])
      = ((toMatrix 2 2 (ofRows [[0, 1], [1, 1]])).rank : Int)) :=
  ⟨by decide, C2_square_rank_correct 2 (ofRows [[0, 1], [1, 1]]) (by decide)⟩

/-- C3, evaluated at the 3 by 1 matrix with rows `1`, `0`, `0`: its cells are bits and
`computeRank` returns -1, which is below 0. -/
theorem C3_negative_rank :
    Bits 3 1 (ofRows [[1], [0], [0]]) ∧ computeRank 3 1 (ofRows [[1], [0], [0]]) = -1 := by
  exact ⟨by decide, by decide⟩

/-- C4, evaluated at the 2 by 3 matrix with rows `0 0 0` and `0 0 1`: `computeRank`
returns 1 on it and 2 on the matrix obtained by replacing row 0 with the XOR of row 0
and row 1. -/
theorem C4_row_xor_changes_rank :
    Bits 2 3 (ofRows [[0, 0, 0], [0, 0, 1]]) ∧
      computeRank 2 3 (ofRows [[0, 0, 0], [0, 0, 1]]) = 1 ∧
      computeRank 2 3 (xorRowInto (ofRows [[0, 0, 0], [0, 0, 1]]) 0 1) = 2 := by
  exact ⟨by decide, by decide, by decide⟩

/-- C5: for every `M`, `Q` and every `M` by `Q` bit matrix, `computeRank` applied to the
matrix left in place by a first call returns the same value as the first call. -/
theorem C5_second_call_same_rank (M Q : Nat) (A : BitMatrix) (hb : Bits M Q A) :
    computeRank M Q (eliminate M Q A) = computeRank M Q A := by
  have hg := good_of_eliminate hb
  rw [computeRank_eq, computeRank_eq, (good_eliminate hg).2]

/-- An instance of the second-call theorem: the 2 by 3 matrix with rows `0 1 1` and `1 1 0`. -/
theorem C5_second_call_same_rank_witness :
    Bits 2 3 (ofRows [[0, 1, 1], [1, 1, 0]]) ∧
      computeRank 2 3 (eliminate 2 3 (ofRows [[0, 1, 1], [1, 1, 0]]))
        = computeRank 2 3 (ofRows [[0, 1, 1], [1, 1, 0]]) :=
  ⟨by decide, C5_second_call_same_rank 2 3 (ofRows [[0, 1, 1], [1, 1, 0]]) (by decide)⟩

/-- C6: for every `M` (in particular every `M ≥ 1`), `computeRank` applied to the `M` by
`M` identity matrix returns `M`. -/
theorem C6_identity_rank (M : Nat) : computeRank M M identityMatrix = (M : Int) := by
  have hb : Bits M M identityMatrix := by
    intro r _ c _
    unfold identityMatrix
    by_cases h : r = c
    · rw [if_pos h]
    · rw [if_neg h]; exact Nat.zero_le 1
  have h1 : toMatrix M M identityMatrix = (1 : Matrix (Fin M) (Fin M) (ZMod 2)) := by
    funext r c
    unfold toMatrix identityMatrix
    by_cases h : r = c
    · rw [if_pos (congrArg Fin.val h), h, Matrix.one_apply_eq, Nat.cast_one]
    · rw [if_neg (fun e => h (Fin.ext e)), Matrix.one_apply_ne h, Nat.cast_zero]
  rw [(computeRank_square hb).2, h1, Matrix.rank_one, Fintype.card_fin]

/-- C7, evaluated at the all-zero 2 by 1 matrix: `computeRank` returns -1, not 0. -/
theorem C7_zero_matrix_negative : computeRank 2 1 zeroMatrix = -1 := by
  decide

/-- C8, evaluated at `M = 2`, `Q = 3`, `k = 0`: the cells `(0, 2)` and `(1, 0)` are read
from the same stream position 2, no cell is read from position 5 of block 0, and so two
streams that differ at position 5 give the same matrix. -/
theorem C8_def_matrix_not_bijective :
    streamIndex 2 3 0 0 2 = streamIndex 2 3 0 1 0 ∧
      (∀ i, i < 2 → ∀ j, j < 3 → streamIndex 2 3 0 i j ≠ 5) ∧
      (∀ i, i < 2 → ∀ j, j < 3 →
        def_matrix (fun _ => 0) 2 3 zeroMatrix 0 i j
          = def_matrix (fun p => if p = 5 then 1 else 0) 2 3 zeroMatrix 0 i j) := by
  decide

/-! ## The claims about `Rank_iterate` -/

/-- C9: for an accepted call on a stream with matrix count 0, `Rank_iterate` returns
normally, having appended exactly one record with `test_possible = false`,
`success = false`, `F_32 = F_31 = F_30 = 0` and the unset `chi_squared`, and the sentinel
`NON_P_VALUE` as p-value; `count` goes up by one and `valid`, `valid_p_val`, `success`
and `failure` stay. -/
theorem C9_untestable_iteration {D : Type} [LinearOrderedField D] (env : Env D)
    (state : State D) (epsilon : Nat → Nat) (matrix : BitMatrix)
    (ha : Accepted state epsilon matrix) (h0 : state.matrix_count = 0) :
    ∃ state', Rank_iterate env state = Except.ok state' ∧
      UntestableRecorded env state state' := by
  obtain ⟨hv, he, hm, hc, hd⟩ := ha
  have hd2 : ¬ (state.driver_state ≠ DriverState.DRIVER_INIT
      ∧ state.driver_state ≠ DriverState.DRIVER_ITERATE) := by
    rintro ⟨h1, h2⟩
    rcases hd with h | h
    · exact h1 h
    · exact h2 h
  have hrun : Rank_iterate env state = Except.ok { state with
      rank_matrix := some (zeroize env.RANK_ROWS env.RANK_COLS matrix)
      count := state.count + 1
      stats := state.stats ++ [{ success := false
                                 test_possible := false
                                 chi_squared := env.UNSET_DOUBLE
                                 F_32 := 0
                                 F_31 := 0
                                 F_30 := 0 }]
      p_val := state.p_val ++ [env.NON_P_VALUE]
      driver_state := DriverState.DRIVER_ITERATE } := by
    unfold Rank_iterate
    rw [if_neg (by rw [hv]; exact fun h => h rfl), he, hm]
    simp only []
    rw [if_neg (by rw [hc]; exact fun h => h rfl), if_neg hd2, if_pos h0]
    simp only [Bool.false_eq_true, if_false]
  exact ⟨_, hrun, rfl, rfl, rfl, rfl, rfl, rfl, rfl⟩

/-- An instance of the untestable-iteration theorem: the example state with matrix count 0. -/
theorem C9_untestable_iteration_witness :
    Accepted (exampleState 0) (fun _ => 0) zeroMatrix ∧ (exampleState 0).matrix_count = 0 ∧
      ∃ state', Rank_iterate exampleEnv (exampleState 0) = Except.ok state' ∧
        UntestableRecorded exampleEnv (exampleState 0) state' :=
  ⟨⟨rfl, rfl, rfl, rfl, Or.inl rfl⟩, rfl,
    C9_untestable_iteration exampleEnv (exampleState 0) (fun _ => 0) zeroMatrix
      ⟨rfl, rfl, rfl, rfl, Or.inl rfl⟩ rfl⟩

/-- The four branches of the classification in `Rank_iterate`, for an accepted call on a
stream with at least one matrix. -/
theorem Rank_iterate_testable {D : Type} [LinearOrderedField D] (env : Env D)
    (state : State D) (epsilon : Nat → Nat) (matrix : BitMatrix)
    (ha : Accepted state epsilon matrix) (hN : state.matrix_count ≠ 0) :
    ∃ state', Rank_iterate env state = Except.ok state' ∧
      state'.p_val = state.p_val
        ++ [pValue env state epsilon (zeroize env.RANK_ROWS env.RANK_COLS matrix)] ∧
      state'.count = state.count + 1 ∧ state'.valid = state.valid + 1 ∧
      state'.driver_state = DriverState.DRIVER_ITERATE ∧
      state'.alpha = state.alpha ∧
      ∃ b : Bool, state'.stats = state.stats
        ++ [{ testableStat env state epsilon (zeroize env.RANK_ROWS env.RANK_COLS matrix)
              with success := b }] ∧
      ((pValue env state epsilon (zeroize env.RANK_ROWS env.RANK_COLS matrix) < 0 ∨
          1 < pValue env state epsilon (zeroize env.RANK_ROWS env.RANK_COLS matrix)) →
        b = false ∧ state'.failure = state.failure + 1 ∧
          state'.valid_p_val = state.valid_p_val ∧ state'.success = state.success) ∧
      (0 ≤ pValue env state epsilon (zeroize env.RANK_ROWS env.RANK_COLS matrix) →
        pValue env state epsilon (zeroize env.RANK_ROWS env.RANK_COLS matrix) ≤ 1 →
        pValue env state epsilon (zeroize env.RANK_ROWS env.RANK_COLS matrix) < state.alpha →
        b = false ∧ state'.failure = state.failure + 1 ∧
          state'.valid_p_val = state.valid_p_val + 1 ∧ state'.success = state.success) ∧
      (0 ≤ pValue env state epsilon (zeroize env.RANK_ROWS env.RANK_COLS matrix) →
        pValue env state epsilon (zeroize env.RANK_ROWS env.RANK_COLS matrix) ≤ 1 →
        state.alpha ≤ pValue env state epsilon (zeroize env.RANK_ROWS env.RANK_COLS matrix) →
        b = true ∧ state'.failure = state.failure ∧
          state'.valid_p_val = state.valid_p_val + 1 ∧
          state'.success = state.success + 1) := by
  obtain ⟨hv, he, hm, hc, hd⟩ := ha
  have hd2 : ¬ (state.driver_state ≠ DriverState.DRIVER_INIT
      ∧ state.driver_state ≠ DriverState.DRIVER_ITERATE) := by
    rintro ⟨h1, h2⟩
    rcases hd with h | h
    · exact h1 h
    · exact h2 h
  have hrun : Rank_iterate env state =
      (if isNegative (pValue env state epsilon (zeroize env.RANK_ROWS env.RANK_COLS matrix))
          = true then
        Except.ok { state with
          rank_matrix := some (tally env epsilon state.matrix_count
            (zeroize env.RANK_ROWS env.RANK_COLS matrix)).2.2
          count := state.count + 1
          valid := state.valid + 1
          failure := state.failure + 1
          stats := state.stats ++ [{ testableStat env state epsilon
            (zeroize env.RANK_ROWS env.RANK_COLS matrix) with success := false }]
          p_val := state.p_val
            ++ [pValue env state epsilon (zeroize env.RANK_ROWS env.RANK_COLS matrix)]
          driver_state := DriverState.DRIVER_ITERATE }
      else if isGreaterThanOne
          (pValue env state epsilon (zeroize env.RANK_ROWS env.RANK_COLS matrix)) = true then
        Except.ok { state with
          rank_matrix := some (tally env epsilon state.matrix_count
            (zeroize env.RANK_ROWS env.RANK_COLS matrix)).2.2
          count := state.count + 1
          valid := state.valid + 1
          failure := state.failure + 1
          stats := state.stats ++ [{ testableStat env state epsilon
            (zeroize env.RANK_ROWS env.RANK_COLS matrix) with success := false }]
          p_val := state.p_val
            ++ [pValue env state epsilon (zeroize env.RANK_ROWS env.RANK_COLS matrix)]
          driver_state := DriverState.DRIVER_ITERATE }
      else if pValue env state epsilon (zeroize env.RANK_ROWS env.RANK_COLS matrix)
          < state.alpha then
        Except.ok { state with
          rank_matrix := some (tally env epsilon state.matrix_count
            (zeroize env.RANK_ROWS env.RANK_COLS matrix)).2.2
          count := state.count + 1
          valid := state.valid + 1
          valid_p_val := state.valid_p_val + 1
          failure := state.failure + 1
          stats := state.stats ++ [{ testableStat env state epsilon
            (zeroize env.RANK_ROWS env.RANK_COLS matrix) with success := false }]
          p_val := state.p_val
            ++ [pValue env state epsilon (zeroize env.RANK_ROWS env.RANK_COLS matrix)]
          driver_state := DriverState.DRIVER_ITERATE }
      else
        Except.ok { state with
          rank_matrix := some (tally env epsilon state.matrix_count
            (zeroize env.RANK_ROWS env.RANK_COLS matrix)).2.2
          count := state.count + 1
          valid := state.valid + 1
          valid_p_val := state.valid_p_val + 1
          success := state.success + 1
          stats := state.stats ++ [{ testableStat env state epsilon
            (zeroize env.RANK_ROWS env.RANK_COLS matrix) with success := true }]
          p_val := state.p_val
            ++ [pValue env state epsilon (zeroize env.RANK_ROWS env.RANK_COLS matrix)]
          driver_state := DriverState.DRIVER_ITERATE }) := by
    unfold Rank_iterate
    rw [if_neg (by rw [hv]; exact fun h => h rfl), he, hm]
    simp only []
    rw [if_neg (by rw [hc]; exact fun h => h rfl), if_neg hd2, if_neg hN]
    simp only [if_true]
  rw [hrun]
  by_cases h1 : pValue env state epsilon (zeroize env.RANK_ROWS env.RANK_COLS matrix) < 0
  · have e1 : isNegative (pValue env state epsilon
        (zeroize env.RANK_ROWS env.RANK_COLS matrix)) = true := by
      unfold isNegative; exact decide_eq_true h1
    rw [if_pos e1]
    refine ⟨_, rfl, rfl, rfl, rfl, rfl, rfl, false, rfl, ?_, ?_, ?_⟩
    · intro _; exact ⟨rfl, rfl, rfl, rfl⟩
    · intro h2 _ _; exact absurd h1 (not_lt.2 h2)
    · intro h2 _ _; exact absurd h1 (not_lt.2 h2)
  · have e1 : ¬ isNegative (pValue env state epsilon
        (zeroize env.RANK_ROWS env.RANK_COLS matrix)) = true := by
      unfold isNegative; rw [decide_eq_true_iff]; exact h1
    rw [if_neg e1]
    by_cases h2 : 1 < pValue env state epsilon (zeroize env.RANK_ROWS env.RANK_COLS matrix)
    · have e2 : isGreaterThanOne (pValue env state epsilon
          (zeroize env.RANK_ROWS env.RANK_COLS matrix)) = true := by
        unfold isGreaterThanOne; exact decide_eq_true h2
      rw [if_pos e2]
      refine ⟨_, rfl, rfl, rfl, rfl, rfl, rfl, false, rfl, ?_, ?_, ?_⟩
      · intro _; exact ⟨rfl, rfl, rfl, rfl⟩
      · intro _ h3 _; exact absurd h2 (not_lt.2 h3)
      · intro _ h3 _; exact absurd h2 (not_lt.2 h3)
    · have e2 : ¬ isGreaterThanOne (pValue env state epsilon
          (zeroize env.RANK_ROWS env.RANK_COLS matrix)) = true := by
        unfold isGreaterThanOne; rw [decide_eq_true_iff]; exact h2
      rw [if_neg e2]
      by_cases h3 : pValue env state epsilon (zeroize env.RANK_ROWS env.RANK_COLS matrix)
          < state.alpha
      · rw [if_pos h3]
        refine ⟨_, rfl, rfl, rfl, rfl, rfl, rfl, false, rfl, ?_, ?_, ?_⟩
        · rintro (h | h)
          · exact absurd h h1
          · exact absurd h h2
        · intro _ _ _; exact ⟨rfl, rfl, rfl, rfl⟩
        · intro _ _ h4; exact absurd h3 (not_lt.2 h4)
      · rw [if_neg h3]
        refine ⟨_, rfl, rfl, rfl, rfl, rfl, rfl, true, rfl, ?_, ?_, ?_⟩
        · rintro (h | h)
          · exact absurd h h1
          · exact absurd h h2
        · intro _ _ h4; exact absurd h4 h3
        · intro _ _ _; exact ⟨rfl, rfl, rfl, rfl⟩

/-- C10: for an accepted call on a stream with at least one matrix, `Rank_iterate`
returns normally, appends the computed p-value `p` and one record, and records exactly
one of three outcomes: bogus (`success = false`, `failure` counted, `valid_p_val` not
incremented) if and only if `p < 0` or `p > 1`; valid but failing (`success = false`,
`valid_p_val` incremented) if and only if `0 ≤ p ≤ 1` and `p < alpha`; passing
(`success = true`, `valid_p_val` incremented) if and only if `0 ≤ p ≤ 1` and
`p ≥ alpha`.  So `p = alpha` is passing for `alpha` in `[0, 1]`, and `p = 0` and `p = 1`
are valid.  The environment, and with it `exp` and the p-value, is arbitrary. -/
theorem C10_classification {D : Type} [LinearOrderedField D] (env : Env D)
    (state : State D) (epsilon : Nat → Nat) (matrix : BitMatrix)
    (ha : Accepted state epsilon matrix) (hN : state.matrix_count ≠ 0) :
    ∃ state' stat, Rank_iterate env state = Except.ok state' ∧
      state'.stats = state.stats ++ [stat] ∧
      state'.p_val = state.p_val
        ++ [pValue env state epsilon (zeroize env.RANK_ROWS env.RANK_COLS matrix)] ∧
      Classified (pValue env state epsilon (zeroize env.RANK_ROWS env.RANK_COLS matrix))
        state state' stat := by
  obtain ⟨state', h1, h2, _, _, _, _, b, h3, hbogus, hfail, hpass⟩ :=
    Rank_iterate_testable env state epsilon matrix ha hN
  refine ⟨state', _, h1, h3, h2, ?_⟩
  generalize pValue env state epsilon (zeroize env.RANK_ROWS env.RANK_COLS matrix) = p
    at hbogus hfail hpass
  have hsucc : ∀ x : Bool, ({ testableStat env state epsilon
      (zeroize env.RANK_ROWS env.RANK_COLS matrix) with success := b }
        : Rank_private_stats D).success = x ↔ b = x := fun _ => Iff.rfl
  have tri : (p < 0 ∨ 1 < p) ∨ (0 ≤ p ∧ p ≤ 1 ∧ p < state.alpha)
      ∨ (0 ≤ p ∧ p ≤ 1 ∧ state.alpha ≤ p) := by
    by_cases a1 : p < 0
    · exact Or.inl (Or.inl a1)
    · by_cases a2 : 1 < p
      · exact Or.inl (Or.inr a2)
      · by_cases a3 : p < state.alpha
        · exact Or.inr (Or.inl ⟨not_lt.1 a1, not_lt.1 a2, a3⟩)
        · exact Or.inr (Or.inr ⟨not_lt.1 a1, not_lt.1 a2, not_lt.1 a3⟩)
  refine ⟨⟨?_, ?_⟩, ⟨?_, ?_⟩, ⟨?_, ?_⟩, ?_, ?_⟩
  · intro h
    obtain ⟨c1, c2, c3, _⟩ := hbogus h
    exact ⟨(hsucc false).2 c1, c2, c3⟩
  · rintro ⟨c1, c2, c3⟩
    rcases tri with t | ⟨t1, t2, t3⟩ | ⟨t1, t2, t3⟩
    · exact t
    · have := (hfail t1 t2 t3).2.2.1
      omega
    · have := (hpass t1 t2 t3).2.2.1
      omega
  · rintro ⟨t1, t2, t3⟩
    obtain ⟨c1, _, c3, _⟩ := hfail t1 t2 t3
    exact ⟨(hsucc false).2 c1, c3⟩
  · rintro ⟨c1, c2⟩
    rcases tri with t | t | ⟨t1, t2, t3⟩
    · have := (hbogus t).2.2.1
      omega
    · exact t
    · have := (hpass t1 t2 t3).1
      rw [(hsucc false).1 c1] at this
      exact absurd this (by decide)
  · rintro ⟨t1, t2, t3⟩
    obtain ⟨c1, _, c3, _⟩ := hpass t1 t2 t3
    exact ⟨(hsucc true).2 c1, c3⟩
  · rintro ⟨c1, c2⟩
    rcases tri with t | ⟨t1, t2, t3⟩ | t
    · have := (hbogus t).2.2.1
      omega
    · have := (hfail t1 t2 t3).1
      rw [(hsucc true).1 c1] at this
      exact absurd this (by decide)
    · exact t
  · intro e a0 a1
    obtain ⟨c1, _, c3, _⟩ := hpass (by rw [e]; exact a0) (by rw [e]; exact a1) (le_of_eq e.symm)
    exact ⟨(hsucc true).2 c1, c3⟩
  · intro e
    have hv : 0 ≤ p ∧ p ≤ 1 := by
      rcases e with e | e
      · rw [e]; exact ⟨le_refl _, zero_le_one⟩
      · rw [e]; exact ⟨zero_le_one, le_refl _⟩
    rcases lt_or_le p state.alpha with a | a
    · exact (hfail hv.1 hv.2 a).2.2.1
    · exact (hpass hv.1 hv.2 a).2.2.1

/-- An instance of the classification theorem: the example state with matrix count 1. -/
theorem C10_classification_witness :
    Accepted (exampleState 1) (fun _ => 0) zeroMatrix ∧ (exampleState 1).matrix_count ≠ 0 ∧
      ∃ state' stat, Rank_iterate exampleEnv (exampleState 1) = Except.ok state' ∧
        state'.stats = (exampleState 1).stats ++ [stat] ∧
        state'.p_val = (exampleState 1).p_val
          ++ [pValue exampleEnv (exampleState 1) (fun _ => 0)
                (zeroize exampleEnv.RANK_ROWS exampleEnv.RANK_COLS zeroMatrix)] ∧
        Classified (pValue exampleEnv (exampleState 1) (fun _ => 0)
            (zeroize exampleEnv.RANK_ROWS exampleEnv.RANK_COLS zeroMatrix))
          (exampleState 1) state' stat :=
  ⟨⟨rfl, rfl, rfl, rfl, Or.inl rfl⟩, by decide,
    C10_classification exampleEnv (exampleState 1) (fun _ => 0) zeroMatrix
      ⟨rfl, rfl, rfl, rfl, Or.inl rfl⟩ (by decide)⟩

/-! ## `computeRank` reads and writes only the `M` by `Q` cells -/

theorem forUp_rel {α : Type} (R : α → α → Prop) (f g : Nat → α → α) (n : Nat) (a b : α)
    (h0 : R a b) (hs : ∀ i x y, i < n → R x y → R (f i x) (g i y)) :
    R (forUp 0 n f a) (forUp 0 n g b) := by
  induction n with
  | zero => exact h0
  | succ n ih =>
    rw [forUp_succ, forUp_succ, Nat.zero_add]
    exact hs n _ _ (by omega) (ih (fun i x y hi hxy => hs i x y (by omega) hxy))

theorem forDown_rel {α : Type} (R : α → α → Prop) (f g : Nat → α → α) (n : Nat) :
    ∀ a b : α, R a b → (∀ i x y, i < n → R x y → R (f i x) (g i y)) →
      R (forDown n f a) (forDown n g b) := by
  induction n with
  | zero => intro a b h0 _; exact h0
  | succ n ih =>
    intro a b h0 hs
    rw [forDown_succ, forDown_succ]
    exact ih _ _ (hs n a b (by omega) h0) (fun i x y hi hxy => hs i x y (by omega) hxy)

theorem agree_swapped {M Q a b : Nat} {A B : BitMatrix} (h : AgreeOn M Q A B) (ha : a < M)
    (hb : b < M) : AgreeOn M Q (swapped a b Q A) (swapped a b Q B) := by
  intro r hr c hc
  unfold swapped
  rw [if_pos hc, if_pos hc, h a ha c hc, h b hb c hc, h r hr c hc]

theorem agree_perform_fwd {M Q i : Nat} {A B : BitMatrix} (h : AgreeOn M Q A B) (hiM : i < M)
    (hiQ : i < Q) :
    AgreeOn M Q (perform_elementary_row_operations MATRIX_FORWARD_ELIMINATION i M Q A)
      (perform_elementary_row_operations MATRIX_FORWARD_ELIMINATION i M Q B) := by
  intro r hr c hc
  unfold perform_elementary_row_operations
  rw [if_pos rfl, if_pos rfl, fwd_loop_apply i Q (i + 1) (M - (i + 1)) (by omega),
    fwd_loop_apply i Q (i + 1) (M - (i + 1)) (by omega), h r hr i hiQ, h r hr c hc,
    h i hiM c hc]

theorem agree_perform_bwd {M Q i : Nat} {A B : BitMatrix} (h : AgreeOn M Q A B) (hiM : i < M)
    (hiQ : i < Q) :
    AgreeOn M Q (perform_elementary_row_operations MATRIX_BACKWARD_ELIMINATION i M Q A)
      (perform_elementary_row_operations MATRIX_BACKWARD_ELIMINATION i M Q B) := by
  intro r hr c hc
  rw [perform_bwd, perform_bwd]
  unfold xorRows bwdT
  simp only [h r hr i hiQ, h r hr c hc, h i hiM c hc]

theorem scanDown_congr {A B : BitMatrix} (i : Nat) :
    ∀ n s, (∀ t, s ≤ t → t < s + n → A t i = B t i) → scanDown A i n s = scanDown B i n s := by
  intro n
  induction n with
  | zero => intro s _; rfl
  | succ n ih =>
    intro s h
    simp only [scanDown]
    rw [h s (le_refl s) (by omega), ih (s + 1) (fun t h1 h2 => h t (by omega) (by omega))]

theorem scanUp_congr {A B : BitMatrix} (i : Nat) :
    ∀ n, (∀ t, t < n → A t i = B t i) → scanUp A i n = scanUp B i n := by
  intro n
  induction n with
  | zero => intro _; rfl
  | succ n ih =>
    intro h
    simp only [scanUp]
    rw [h n (by omega), ih (fun t ht => h t (by omega))]

theorem agree_pivotStep_fwd {M Q i : Nat} {A B : BitMatrix} (h : AgreeOn M Q A B)
    (hiM : i < M) (hiQ : i < Q) :
    AgreeOn M Q (pivotStep MATRIX_FORWARD_ELIMINATION M Q i A)
      (pivotStep MATRIX_FORWARD_ELIMINATION M Q i B) := by
  have hscan : scanDown A i (M - (i + 1)) (i + 1) = scanDown B i (M - (i + 1)) (i + 1) :=
    scanDown_congr i _ _ (fun t h1 h2 => h t (by omega) i hiQ)
  unfold pivotStep
  rw [h i hiM i hiQ]
  by_cases h1 : B i i = 1
  · rw [if_pos h1, if_pos h1]
    exact agree_perform_fwd h hiM hiQ
  · rw [if_neg h1, if_neg h1]
    simp only [find_unit_element_and_swap, if_true, hscan]
    by_cases h2 : scanDown B i (M - (i + 1)) (i + 1) < M
    · rw [if_pos h2, if_pos h2]
      simp only [swap_rows_fst, swap_rows_snd, if_true]
      exact agree_perform_fwd (agree_swapped h hiM h2) hiM hiQ
    · rw [if_neg h2, if_neg h2]
      have h01 : ¬ ((0 : Nat) = 1) := by decide
      simp only [if_neg h01]
      exact h

theorem agree_pivotStep_bwd {M Q i : Nat} {A B : BitMatrix} (h : AgreeOn M Q A B)
    (hiM : i < M) (hiQ : i < Q) :
    AgreeOn M Q (pivotStep MATRIX_BACKWARD_ELIMINATION M Q i A)
      (pivotStep MATRIX_BACKWARD_ELIMINATION M Q i B) := by
  have hf : ¬ (MATRIX_BACKWARD_ELIMINATION = MATRIX_FORWARD_ELIMINATION) := by decide
  have hscan : scanUp A i i = scanUp B i i :=
    scanUp_congr i _ (fun t h1 => h t (by omega) i hiQ)
  unfold pivotStep
  rw [h i hiM i hiQ]
  by_cases h1 : B i i = 1
  · rw [if_pos h1, if_pos h1]
    exact agree_perform_bwd h hiM hiQ
  · rw [if_neg h1, if_neg h1]
    simp only [find_unit_element_and_swap, if_neg hf, hscan]
    cases hs : scanUp B i i with
    | none =>
      have h01 : ¬ ((0 : Nat) = 1) := by decide
      simp only [if_neg h01]
      exact h
    | some idx =>
      obtain ⟨s1, _, _⟩ := scanUp_some B i i idx hs
      simp only [swap_rows_fst, swap_rows_snd, if_true]
      exact agree_perform_bwd (agree_swapped h hiM (by omega)) hiM hiQ

/-- The matrix left by the two passes depends, on the `M` by `Q` cells, only on those
cells of the input. -/
theorem agree_eliminate {M Q : Nat} {A B : BitMatrix} (h : AgreeOn M Q A B) :
    AgreeOn M Q (eliminate M Q A) (eliminate M Q B) := by
  unfold eliminate backwardPass forwardPass
  refine forDown_rel (AgreeOn M Q) _ _ _ _ _ ?_ ?_
  · refine forUp_rel (AgreeOn M Q) _ _ _ _ _ h ?_
    intro i x y hi hxy
    exact agree_pivotStep_fwd hxy (by omega) (by omega)
  · intro i x y hi hxy
    exact agree_pivotStep_bwd hxy (by omega) (by omega)

/-- The value `computeRank` returns depends only on the `M` by `Q` cells. -/
theorem computeRank_congr {M Q : Nat} {A B : BitMatrix} (h : AgreeOn M Q A B) :
    computeRank M Q A = computeRank M Q B := by
  rw [computeRank_eq, computeRank_eq]
  have h2 := agree_eliminate h
  have : zeroCount M Q (eliminate M Q A) = zeroCount M Q (eliminate M Q B) := by
    refine zeroCount_congr ?_
    intro r hr
    unfold allZeroes
    congr 1
    apply propext
    constructor
    · intro hall j hj; rw [← h2 r hr j hj]; exact hall j hj
    · intro hall j hj; rw [h2 r hr j hj]; exact hall j hj
  rw [this]

theorem agree_def_matrix (epsilon : Nat → Nat) (M Q k : Nat) (m1 m2 : BitMatrix) :
    AgreeOn M Q (def_matrix epsilon M Q m1 k) (def_matrix epsilon M Q m2 k) := by
  intro r hr c hc
  rw [def_matrix_apply, def_matrix_apply, if_pos ⟨hr, hc⟩, if_pos ⟨hr, hc⟩]

/-! ## The tallies of `Rank_iterate` -/

theorem rankCount_succ {D : Type} (env : Env D) (epsilon : Nat → Nat) (n : Nat)
    (P : Int → Prop) [DecidablePred P] :
    rankCount env epsilon (n + 1) P = rankCount env epsilon n P
      + (if P (computeRank env.RANK_ROWS env.RANK_COLS
          (streamMatrix epsilon env.RANK_ROWS env.RANK_COLS n)) then 1 else 0) := by
  unfold rankCount
  rw [Finset.range_succ, Finset.filter_insert]
  by_cases h : P (computeRank env.RANK_ROWS env.RANK_COLS
      (streamMatrix epsilon env.RANK_ROWS env.RANK_COLS n))
  · rw [if_pos h, if_pos h, Finset.card_insert_of_not_mem (by simp)]
  · rw [if_neg h, if_neg h, Nat.add_zero]

/-- The rank computed in the tally loop for block `k` is that of matrix `k` of the
stream, whatever the scratch matrix held before. -/
theorem tally_rank {D : Type} (env : Env D) (epsilon : Nat → Nat) (k : Nat) (m : BitMatrix) :
    computeRank env.RANK_ROWS env.RANK_COLS
        (def_matrix epsilon env.RANK_ROWS env.RANK_COLS m k)
      = computeRank env.RANK_ROWS env.RANK_COLS
          (streamMatrix epsilon env.RANK_ROWS env.RANK_COLS k) :=
  computeRank_congr (agree_def_matrix epsilon _ _ k m zeroMatrix)

/-- After `n` rounds of the tally loop, `F_32` and `F_31` count the matrices of rank
`RANK_ROWS` and `RANK_ROWS - 1` among the first `n`. -/
theorem tally_counts {D : Type} (env : Env D) (epsilon : Nat → Nat) (matrix : BitMatrix) :
    ∀ n, (tally env epsilon n matrix).1
        = (rankCount env epsilon n (fun R => R = (env.RANK_ROWS : Int)) : Int) ∧
      (tally env epsilon n matrix).2.1
        = (rankCount env epsilon n (fun R => R = (env.RANK_ROWS : Int) - 1) : Int) := by
  intro n
  induction n with
  | zero => exact ⟨rfl, rfl⟩
  | succ n ih =>
    obtain ⟨ih1, ih2⟩ := ih
    unfold tally at ih1 ih2 ⊢
    rw [forUp_succ, Nat.zero_add]
    simp only [tallyStep]
    rw [tally_rank, rankCount_succ, rankCount_succ, ih1, ih2]
    constructor
    · by_cases h : computeRank env.RANK_ROWS env.RANK_COLS
          (streamMatrix epsilon env.RANK_ROWS env.RANK_COLS n) = (env.RANK_ROWS : Int)
      · rw [if_pos h, if_pos h]; push_cast; rfl
      · rw [if_neg h, if_neg h]; push_cast; ring
    · by_cases h : computeRank env.RANK_ROWS env.RANK_COLS
          (streamMatrix epsilon env.RANK_ROWS env.RANK_COLS n) = (env.RANK_ROWS : Int) - 1
      · rw [if_pos h, if_pos h]; push_cast; rfl
      · rw [if_neg h, if_neg h]; push_cast; ring

/-- Every matrix of the stream falls in exactly one of the three rank classes. -/
theorem rankCount_sum {D : Type} (env : Env D) (epsilon : Nat → Nat) :
    ∀ n, rankCount env epsilon n (fun R => R = (env.RANK_ROWS : Int))
      + rankCount env epsilon n (fun R => R = (env.RANK_ROWS : Int) - 1)
      + rankCount env epsilon n (fun R => R < (env.RANK_ROWS : Int) - 1) = n := by
  intro n
  induction n with
  | zero => rfl
  | succ n ih =>
    rw [rankCount_succ, rankCount_succ, rankCount_succ]
    have hle : computeRank env.RANK_ROWS env.RANK_COLS
        (streamMatrix epsilon env.RANK_ROWS env.RANK_COLS n) ≤ (env.RANK_ROWS : Int) := by
      have := computeRank_le_min env.RANK_ROWS env.RANK_COLS
        (streamMatrix epsilon env.RANK_ROWS env.RANK_COLS n)
      omega
    by_cases h1 : computeRank env.RANK_ROWS env.RANK_COLS
        (streamMatrix epsilon env.RANK_ROWS env.RANK_COLS n) = (env.RANK_ROWS : Int)
    · rw [if_pos h1, if_neg (by omega), if_neg (by omega)]
      omega
    · by_cases h2 : computeRank env.RANK_ROWS env.RANK_COLS
          (streamMatrix epsilon env.RANK_ROWS env.RANK_COLS n) = (env.RANK_ROWS : Int) - 1
      · rw [if_neg h1, if_pos h2, if_neg (by omega)]
        omega
      · rw [if_neg h1, if_neg h2, if_pos (by omega)]
        omega

/-- C11: for an accepted call on a stream with matrix count `N ≥ 1`, `Rank_iterate`
returns normally and the record it appends has `F_32` equal to the number of `k < N`
whose matrix `k` has computed rank `RANK_ROWS`, `F_31` the number whose rank is
`RANK_ROWS - 1`, and `F_30 = N - F_32 - F_31` the number whose rank is below
`RANK_ROWS - 1`; the three counts are non-negative and sum to `N`. -/
theorem C11_tally_counts {D : Type} [LinearOrderedField D] (env : Env D)
    (state : State D) (epsilon : Nat → Nat) (matrix : BitMatrix)
    (ha : Accepted state epsilon matrix) (hN : 1 ≤ state.matrix_count) :
    ∃ state' stat, Rank_iterate env state = Except.ok state' ∧
      state'.stats = state.stats ++ [stat] ∧
      stat.F_32 = (rankCount env epsilon state.matrix_count
        (fun R => R = (env.RANK_ROWS : Int)) : Int) ∧
      stat.F_31 = (rankCount env epsilon state.matrix_count
        (fun R => R = (env.RANK_ROWS : Int) - 1) : Int) ∧
      stat.F_30 = (state.matrix_count : Int) - stat.F_32 - stat.F_31 ∧
      stat.F_30 = (rankCount env epsilon state.matrix_count
        (fun R => R < (env.RANK_ROWS : Int) - 1) : Int) ∧
      0 ≤ stat.F_32 ∧ 0 ≤ stat.F_31 ∧ 0 ≤ stat.F_30 ∧
      stat.F_32 + stat.F_31 + stat.F_30 = (state.matrix_count : Int) := by
  obtain ⟨state', h1, _, _, _, _, _, b, h3, _⟩ :=
    Rank_iterate_testable env state epsilon matrix ha (by omega)
  obtain ⟨t1, t2⟩ := tally_counts env epsilon
    (zeroize env.RANK_ROWS env.RANK_COLS matrix) state.matrix_count
  have hsum := rankCount_sum env epsilon state.matrix_count
  have e32 : (testableStat env state epsilon
      (zeroize env.RANK_ROWS env.RANK_COLS matrix)).F_32
      = (rankCount env epsilon state.matrix_count
          (fun R => R = (env.RANK_ROWS : Int)) : Int) := t1
  have e31 : (testableStat env state epsilon
      (zeroize env.RANK_ROWS env.RANK_COLS matrix)).F_31
      = (rankCount env epsilon state.matrix_count
          (fun R => R = (env.RANK_ROWS : Int) - 1) : Int) := t2
  have e30 : (testableStat env state epsilon
      (zeroize env.RANK_ROWS env.RANK_COLS matrix)).F_30
      = (state.matrix_count : Int)
        - ((testableStat env state epsilon
            (zeroize env.RANK_ROWS env.RANK_COLS matrix)).F_32
          + (testableStat env state epsilon
            (zeroize env.RANK_ROWS env.RANK_COLS matrix)).F_31) := rfl
  refine ⟨state', _, h1, h3, e32, e31, ?_, ?_, ?_, ?_, ?_, ?_⟩
  · show (testableStat env state epsilon _).F_30 = _ - (testableStat env state epsilon _).F_32
      - (testableStat env state epsilon _).F_31
    rw [e30]; omega
  · show (testableStat env state epsilon _).F_30 = _
    rw [e30, e32, e31]; omega
  · show 0 ≤ (testableStat env state epsilon _).F_32
    rw [e32]; omega
  · show 0 ≤ (testableStat env state epsilon _).F_31
    rw [e31]; omega
  · show 0 ≤ (testableStat env state epsilon _).F_30
    rw [e30, e32, e31]; omega
  · show (testableStat env state epsilon _).F_32 + (testableStat env state epsilon _).F_31
      + (testableStat env state epsilon _).F_30 = _
    rw [e30]; omega

/-- An instance of the tally theorem: the example state with matrix count 1. -/
theorem C11_tally_counts_witness :
    Accepted (exampleState 1) (fun _ => 0) zeroMatrix ∧ 1 ≤ (exampleState 1).matrix_count ∧
    ∃ state' stat, Rank_iterate exampleEnv (exampleState 1) = Except.ok state' ∧
      state'.stats = (exampleState 1).stats ++ [stat] ∧
      stat.F_32 = (rankCount exampleEnv (fun _ => 0) (exampleState 1).matrix_count
        (fun R => R = (exampleEnv.RANK_ROWS : Int)) : Int) ∧
      stat.F_31 = (rankCount exampleEnv (fun _ => 0) (exampleState 1).matrix_count
        (fun R => R = (exampleEnv.RANK_ROWS : Int) - 1) : Int) ∧
      stat.F_30 = ((exampleState 1).matrix_count : Int) - stat.F_32 - stat.F_31 ∧
      stat.F_30 = (rankCount exampleEnv (fun _ => 0) (exampleState 1).matrix_count
        (fun R => R < (exampleEnv.RANK_ROWS : Int) - 1) : Int) ∧
      0 ≤ stat.F_32 ∧ 0 ≤ stat.F_31 ∧ 0 ≤ stat.F_30 ∧
      stat.F_32 + stat.F_31 + stat.F_30 = ((exampleState 1).matrix_count : Int) :=
  ⟨⟨rfl, rfl, rfl, rfl, Or.inl rfl⟩, by decide,
    C11_tally_counts exampleEnv (exampleState 1) (fun _ => 0) zeroMatrix
      ⟨rfl, rfl, rfl, rfl, Or.inl rfl⟩ (by decide)⟩

theorem computeRank_identity (M : Nat) : computeRank M M identityMatrix = (M : Int) := by
  have hb : Bits M M identityMatrix := by
    intro r _ c _
    unfold identityMatrix
    by_cases h : r = c
    · rw [if_pos h]
    · rw [if_neg h]; exact Nat.zero_le 1
  have h1 : toMatrix M M identityMatrix = (1 : Matrix (Fin M) (Fin M) (ZMod 2)) := by
    funext r c
    unfold toMatrix identityMatrix
    by_cases h : r = c
    · rw [if_pos (congrArg Fin.val h), h, Matrix.one_apply_eq, Nat.cast_one]
    · rw [if_neg (fun e => h (Fin.ext e)), Matrix.one_apply_ne h, Nat.cast_zero]
  rw [(computeRank_square hb).2, h1, Matrix.rank_one, Fintype.card_fin]

theorem rankCount_all {D : Type} (env : Env D) (epsilon : Nat → Nat) (n : Nat)
    (P : Int → Prop) [DecidablePred P]
    (h : ∀ k, k < n → P (computeRank env.RANK_ROWS env.RANK_COLS
      (streamMatrix epsilon env.RANK_ROWS env.RANK_COLS k))) :
    rankCount env epsilon n P = n := by
  unfold rankCount
  rw [Finset.filter_true_of_mem (fun k hk => h k (Finset.mem_range.1 hk)), Finset.card_range]

theorem rankCount_none {D : Type} (env : Env D) (epsilon : Nat → Nat) (n : Nat)
    (P : Int → Prop) [DecidablePred P]
    (h : ∀ k, k < n → ¬ P (computeRank env.RANK_ROWS env.RANK_COLS
      (streamMatrix epsilon env.RANK_ROWS env.RANK_COLS k))) :
    rankCount env epsilon n P = 0 := by
  unfold rankCount
  rw [Finset.filter_false_of_mem (fun k hk => h k (Finset.mem_range.1 hk)), Finset.card_empty]

/-- C12: with `RANK_ROWS = RANK_COLS = 32`, for every `N ≥ 1` and every stream whose
first `N` blocks are materialized by `def_matrix` as the identity pattern,
`Rank_iterate` returns normally and records `F_32 = N`, `F_31 = 0` and `F_30 = 0`. -/
theorem C12_identity_blocks {D : Type} [LinearOrderedField D] (env : Env D)
    (state : State D) (epsilon : Nat → Nat) (matrix : BitMatrix)
    (hR : env.RANK_ROWS = 32) (hC : env.RANK_COLS = 32)
    (ha : Accepted state epsilon matrix) (hN : 1 ≤ state.matrix_count)
    (hid : ∀ k, k < state.matrix_count → ∀ i, i < 32 → ∀ j, j < 32 →
      epsilon (streamIndex 32 32 k i j) = if i = j then 1 else 0) :
    ∃ state' stat, Rank_iterate env state = Except.ok state' ∧
      state'.stats = state.stats ++ [stat] ∧
      stat.F_32 = (state.matrix_count : Int) ∧ stat.F_31 = 0 ∧ stat.F_30 = 0 := by
  obtain ⟨state', h1, _, _, _, _, _, b, h3, _⟩ :=
    Rank_iterate_testable env state epsilon matrix ha (by omega)
  obtain ⟨t1, t2⟩ := tally_counts env epsilon
    (zeroize env.RANK_ROWS env.RANK_COLS matrix) state.matrix_count
  have hrank : ∀ k, k < state.matrix_count →
      computeRank env.RANK_ROWS env.RANK_COLS
        (streamMatrix epsilon env.RANK_ROWS env.RANK_COLS k) = (env.RANK_ROWS : Int) := by
    intro k hk
    rw [hR, hC]
    have hag : AgreeOn 32 32 (streamMatrix epsilon 32 32 k) identityMatrix := by
      intro r hr c hc
      unfold streamMatrix
      rw [def_matrix_apply, if_pos ⟨hr, hc⟩, hid k hk r hr c hc]
      rfl
    rw [computeRank_congr hag, computeRank_identity]
  have c32 := rankCount_all env epsilon state.matrix_count
    (fun R => R = (env.RANK_ROWS : Int)) hrank
  have c31 := rankCount_none env epsilon state.matrix_count
    (fun R => R = (env.RANK_ROWS : Int) - 1) (fun k hk => by rw [hrank k hk]; omega)
  have e32 : (testableStat env state epsilon
      (zeroize env.RANK_ROWS env.RANK_COLS matrix)).F_32 = (state.matrix_count : Int) := by
    rw [← c32]; exact t1
  have e31 : (testableStat env state epsilon
      (zeroize env.RANK_ROWS env.RANK_COLS matrix)).F_31 = 0 := by
    have : (testableStat env state epsilon
        (zeroize env.RANK_ROWS env.RANK_COLS matrix)).F_31
        = (rankCount env epsilon state.matrix_count
            (fun R => R = (env.RANK_ROWS : Int) - 1) : Int) := t2
    rw [this, c31]; rfl
  have e30 : (testableStat env state epsilon
      (zeroize env.RANK_ROWS env.RANK_COLS matrix)).F_30
      = (state.matrix_count : Int)
        - ((testableStat env state epsilon
            (zeroize env.RANK_ROWS env.RANK_COLS matrix)).F_32
          + (testableStat env state epsilon
            (zeroize env.RANK_ROWS env.RANK_COLS matrix)).F_31) := rfl
  refine ⟨state', _, h1, h3, e32, e31, ?_⟩
  show (testableStat env state epsilon _).F_30 = 0
  rw [e30, e32, e31]; omega

theorem identityStream_block (k i j : Nat) (hi : i < 32) (hj : j < 32) :
    identityStream (streamIndex 32 32 k i j) = if i = j then 1 else 0 := by
  unfold identityStream streamIndex
  have h1 : (k * (32 * 32) + j + i * 32) % 1024 / 32 = i := by omega
  have h2 : (k * (32 * 32) + j + i * 32) % 1024 % 32 = j := by omega
  rw [h1, h2]

/-- An instance of the identity-block theorem: ten identity blocks, 10240 bits. -/
theorem C12_identity_blocks_witness :
    exampleEnv.RANK_ROWS = 32 ∧ exampleEnv.RANK_COLS = 32 ∧
    Accepted (identityState 10) identityStream zeroMatrix ∧
    1 ≤ (identityState 10).matrix_count ∧
    (∀ k, k < (identityState 10).matrix_count → ∀ i, i < 32 → ∀ j, j < 32 →
      identityStream (streamIndex 32 32 k i j) = if i = j then 1 else 0) ∧
    ∃ state' stat, Rank_iterate exampleEnv (identityState 10) = Except.ok state' ∧
      state'.stats = (identityState 10).stats ++ [stat] ∧
      stat.F_32 = ((identityState 10).matrix_count : Int) ∧ stat.F_31 = 0 ∧ stat.F_30 = 0 :=
  ⟨rfl, rfl, ⟨rfl, rfl, rfl, rfl, Or.inl rfl⟩, by decide,
    fun k _ i hi j hj => identityStream_block k i j hi hj,
    C12_identity_blocks exampleEnv (identityState 10) identityStream zeroMatrix rfl rfl
      ⟨rfl, rfl, rfl, rfl, Or.inl rfl⟩ (by decide)
      (fun k _ i hi j hj => identityStream_block k i j hi hj)⟩

/-! ## The chi-squared statistic of `Rank_iterate` -/

/-- The value assigned to `stat.chi_squared` is the sum of the three bucket terms. -/
theorem chiSquared_eq_terms {D : Type} [LinearOrderedField D] (F_32 F_31 F_30 : Int)
    (N : Nat) (p_32 p_31 p_30 : D) :
    chiSquared F_32 F_31 F_30 N p_32 p_31 p_30
      = chiTerm F_32 N p_32 + chiTerm F_31 N p_31 + chiTerm F_30 N p_30 := rfl

theorem chiTerm_zero {D : Type} [LinearOrderedField D] (N : Nat) (p : D) (hN : 1 ≤ N)
    (hp : 0 < p) : chiTerm 0 N p = (N : D) * p := by
  have hN' : (0 : D) < (N : D) := by exact_mod_cast hN
  have hne : (N : D) * p ≠ 0 := ne_of_gt (mul_pos hN' hp)
  unfold chiTerm
  rw [Int.cast_zero, zero_sub, neg_mul_neg, mul_div_assoc, div_self hne, mul_one]

theorem chiTerm_full {D : Type} [LinearOrderedField D] (N : Nat) (p : D) (hN : 1 ≤ N)
    (hp : 0 < p) (hp1 : p < 1) : 0 < chiTerm (N : Int) N p := by
  have hN' : (0 : D) < (N : D) := by exact_mod_cast hN
  have hd : (0 : D) < (N : D) - (N : D) * p := by
    have : (N : D) * p < (N : D) * 1 := mul_lt_mul_of_pos_left hp1 hN'
    rw [mul_one] at this
    exact sub_pos.2 this
  unfold chiTerm
  rw [Int.cast_natCast]
  exact div_pos (mul_pos hd hd) (mul_pos hN' hp)

/-- C13 as stated fails: with one full-rank matrix (`F_32 = 1`, `F_31 = F_30 = 0`) and the
probabilities 1/4, 1/2, 1/4, all in (0,1), the chi-squared sum has three non-zero terms,
not one. -/
theorem C13_three_terms_counterexample :
    ((0 : ℚ) < 1 / 4 ∧ (1 / 4 : ℚ) < 1 ∧ (0 : ℚ) < 1 / 2 ∧ (1 / 2 : ℚ) < 1) ∧
      nonzeroTerms 1 0 0 1 (1 / 4 : ℚ) (1 / 2) (1 / 4) = 3 ∧
      nonzeroTerms 1 0 0 1 (1 / 4 : ℚ) (1 / 2) (1 / 4) ≠ 1 := by
  have h : nonzeroTerms 1 0 0 1 (1 / 4 : ℚ) (1 / 2) (1 / 4) = 3 := by
    unfold nonzeroTerms chiTerm
    norm_num
  refine ⟨by norm_num, h, ?_⟩
  rw [h]
  decide

/-- C13, amended: for `N ≥ 1` full-rank matrices (`F_32 = N`, `F_31 = F_30 = 0`) and
probabilities in (0,1), the chi-squared value is the sum of three terms that are all
non-zero: a positive term for the full-rank bucket, and `N * p_31` and `N * p_30` for
the two buckets whose observed count is zero. -/
theorem C13_all_terms_nonzero {D : Type} [LinearOrderedField D] (N : Nat) (p_32 p_31 p_30 : D)
    (hN : 1 ≤ N) (h32 : 0 < p_32 ∧ p_32 < 1) (h31 : 0 < p_31 ∧ p_31 < 1)
    (h30 : 0 < p_30 ∧ p_30 < 1) :
    chiSquared (N : Int) 0 0 N p_32 p_31 p_30
        = chiTerm (N : Int) N p_32 + (N : D) * p_31 + (N : D) * p_30 ∧
      0 < chiTerm (N : Int) N p_32 ∧ 0 < (N : D) * p_31 ∧ 0 < (N : D) * p_30 ∧
      nonzeroTerms (N : Int) 0 0 N p_32 p_31 p_30 = 3 := by
  have hN' : (0 : D) < (N : D) := by exact_mod_cast hN
  have a := chiTerm_full N p_32 hN h32.1 h32.2
  have b := chiTerm_zero N p_31 hN h31.1
  have c := chiTerm_zero N p_30 hN h30.1
  have b' : 0 < (N : D) * p_31 := mul_pos hN' h31.1
  have c' : 0 < (N : D) * p_30 := mul_pos hN' h30.1
  refine ⟨by rw [chiSquared_eq_terms, b, c], a, b', c', ?_⟩
  unfold nonzeroTerms
  rw [b, c, List.filter_cons_of_pos (by simpa using ne_of_gt a),
    List.filter_cons_of_pos (by simpa using ne_of_gt b'),
    List.filter_cons_of_pos (by simpa using ne_of_gt c')]
  rfl

/-- An instance of the amended theorem: ten matrices and the probabilities 1/4, 1/2, 1/4. -/
theorem C13_all_terms_nonzero_witness :
    1 ≤ 10 ∧ ((0 : ℚ) < 1 / 4 ∧ (1 / 4 : ℚ) < 1) ∧ ((0 : ℚ) < 1 / 2 ∧ (1 / 2 : ℚ) < 1) ∧
    (chiSquared ((10 : Nat) : Int) 0 0 10 (1 / 4 : ℚ) (1 / 2) (1 / 4)
        = chiTerm ((10 : Nat) : Int) 10 (1 / 4 : ℚ) + ((10 : Nat) : ℚ) * (1 / 2)
          + ((10 : Nat) : ℚ) * (1 / 4) ∧
      0 < chiTerm ((10 : Nat) : Int) 10 (1 / 4 : ℚ) ∧ 0 < ((10 : Nat) : ℚ) * (1 / 2) ∧
      0 < ((10 : Nat) : ℚ) * (1 / 4) ∧
      nonzeroTerms ((10 : Nat) : Int) 0 0 10 (1 / 4 : ℚ) (1 / 2) (1 / 4) = 3) :=
  ⟨by decide, by norm_num, by norm_num,
    C13_all_terms_nonzero 10 (1 / 4 : ℚ) (1 / 2) (1 / 4) (by decide) (by norm_num)
      (by norm_num) (by norm_num)⟩

/-! ## The life cycle of the driver -/

theorem Rank_iterate_out_of_order {D : Type} [LinearOrderedField D] (env : Env D)
    (state : State D) (hv : state.testVector = true)
    (hd : state.driver_state ≠ DriverState.DRIVER_INIT
      ∧ state.driver_state ≠ DriverState.DRIVER_ITERATE) :
    ∃ e, Rank_iterate env state = Except.error e ∧ e ≠ Fatal.nullDereference := by
  unfold Rank_iterate
  rw [if_neg (by rw [hv]; exact fun h => h rfl)]
  cases state.epsilon with
  | none => exact ⟨_, rfl, by decide⟩
  | some eps =>
    cases state.rank_matrix with
    | none => exact ⟨_, rfl, by decide⟩
    | some m =>
      simp only []
      by_cases hc : state.cSetup ≠ true
      · rw [if_pos hc]; exact ⟨_, rfl, by decide⟩
      · rw [if_neg hc, if_pos hd]; exact ⟨_, rfl, by decide⟩

theorem Rank_init_out_of_order {D : Type} (fresh : BitMatrix) (rs : RunState D)
    (hv : rs.testVector = true)
    (hd : rs.driver_state ≠ DriverState.DRIVER_NULL
      ∧ rs.driver_state ≠ DriverState.DRIVER_DESTROY) :
    ∃ e, Rank_init fresh rs = Except.error e ∧ e ≠ Fatal.nullDereference := by
  unfold Rank_init
  rw [if_neg (by rw [hv]; exact fun h => h rfl)]
  by_cases hc : rs.cSetup ≠ true
  · rw [if_pos hc]; exact ⟨_, rfl, by decide⟩
  · rw [if_neg hc, if_pos hd]; exact ⟨_, rfl, by decide⟩

/-- `Rank_print` with result-file output enabled, outside `DRIVER_ITERATE`: it stops, at
a fatal error of the firewall when the p-value collection is not NULL. -/
theorem Rank_print_out_of_order {D : Type} [LinearOrderedField D] (env : Env D)
    (rs : RunState D) (hv : rs.testVector = true) (hf : rs.resultstxtFlag = true)
    (hd : rs.driver_state ≠ DriverState.DRIVER_ITERATE) :
    ∃ e, Rank_print env rs = Except.error e ∧
      (rs.p_val_NULL = false → e ≠ Fatal.nullDereference) := by
  unfold Rank_print
  rw [if_neg (by rw [hv]; exact fun h => h rfl), if_neg (by rw [hf]; decide)]
  by_cases h1 : rs.partitionCount < 1
  · rw [if_pos h1]; exact ⟨_, rfl, fun _ => by decide⟩
  · rw [if_neg h1]
    by_cases hn : rs.p_val_NULL = true
    · rw [if_pos hn]
      exact ⟨_, rfl, fun h => absurd hn (by rw [h]; decide)⟩
    · rw [if_neg hn]
      by_cases h2 : (rs.p_val.length : Int) ≠ rs.numOfBitStreams * rs.partitionCount
      · rw [if_pos h2]; exact ⟨_, rfl, fun _ => by decide⟩
      · rw [if_neg h2]
        by_cases h3 : rs.datatxt_fmt = none
        · rw [if_pos h3]; exact ⟨_, rfl, fun _ => by decide⟩
        · rw [if_neg h3, if_pos hd]; exact ⟨_, rfl, fun _ => by decide⟩

/-- `Rank_metrics` outside `DRIVER_PRINT`: it stops, at a fatal error of the firewall when
the p-value collection is not NULL. -/
theorem Rank_metrics_out_of_order {D : Type} [LinearOrderedField D] [FloorRing D]
    (env : Env D) (fns : MathFns D) (rs : RunState D) (hv : rs.testVector = true)
    (hd : rs.driver_state ≠ DriverState.DRIVER_PRINT) :
    ∃ e, Rank_metrics env fns rs = Except.error e ∧
      (rs.p_val_NULL = false → e ≠ Fatal.nullDereference) := by
  unfold Rank_metrics
  rw [if_neg (by rw [hv]; exact fun h => h rfl)]
  by_cases h1 : rs.partitionCount < 1
  · rw [if_pos h1]; exact ⟨_, rfl, fun _ => by decide⟩
  · rw [if_neg h1]
    by_cases hn : rs.p_val_NULL = true
    · rw [if_pos hn]
      exact ⟨_, rfl, fun h => absurd hn (by rw [h]; decide)⟩
    · rw [if_neg hn]
      by_cases h2 : (rs.p_val.length : Int) ≠ rs.numOfBitStreams * rs.partitionCount
      · rw [if_pos h2]; exact ⟨_, rfl, fun _ => by decide⟩
      · rw [if_neg h2, if_pos hd]; exact ⟨_, rfl, fun _ => by decide⟩

/-- With the p-value collection NULL, `Rank_print` with result-file output enabled and
`Rank_metrics` stop at the access to it, whatever the driver state. -/
theorem count_check_null {D : Type} [LinearOrderedField D] [FloorRing D] (env : Env D)
    (fns : MathFns D) (rs : RunState D) (hv : rs.testVector = true)
    (hP : 1 ≤ rs.partitionCount) (hn : rs.p_val_NULL = true) :
    (rs.resultstxtFlag = true → Rank_print env rs = Except.error Fatal.nullDereference) ∧
    Rank_metrics env fns rs = Except.error Fatal.nullDereference := by
  constructor
  · intro hf
    unfold Rank_print
    rw [if_neg (by rw [hv]; exact fun h => h rfl), if_neg (by rw [hf]; decide),
      if_neg (by omega), if_pos hn]
  · unfold Rank_metrics
    rw [if_neg (by rw [hv]; exact fun h => h rfl), if_neg (by omega), if_pos hn]

/-- With result-file output disabled `Rank_print` returns before it sets the driver
state. -/
theorem Rank_print_disabled {D : Type} [LinearOrderedField D] (env : Env D)
    (rs : RunState D) (hf : rs.resultstxtFlag = false) : Rank_print env rs = Except.ok rs := by
  unfold Rank_print
  by_cases hv : rs.testVector ≠ true
  · rw [if_pos hv]
  · rw [if_neg hv, if_pos hf]

/-- C14 as stated fails: the documented order does not allow destroy right after init,
yet for an active test `Rank_init` followed by `Rank_destroy` completes normally and
ends in `DRIVER_DESTROY`; and `Rank_init` is accepted again from `DRIVER_DESTROY`. -/
theorem C14_destroy_after_init_counterexample :
    (exampleRun 1 true).testVector = true ∧
    documentedOrder Op.destroy DriverState.DRIVER_INIT = false ∧
    outcome (runOps exampleEnv exampleFns zeroMatrix [Op.init] (exampleRun 1 true))
      = Except.ok DriverState.DRIVER_INIT ∧
    outcome (runOps exampleEnv exampleFns zeroMatrix [Op.init, Op.destroy] (exampleRun 1 true))
      = Except.ok DriverState.DRIVER_DESTROY ∧
    documentedOrder Op.init DriverState.DRIVER_DESTROY = false ∧
    outcome (runOps exampleEnv exampleFns zeroMatrix [Op.init, Op.destroy, Op.init]
      (exampleRun 1 true)) = Except.ok DriverState.DRIVER_INIT :=
  ⟨rfl, rfl, rfl, rfl, rfl, rfl⟩

/-- C14, amended: for an active test, `Rank_init` outside `DRIVER_NULL` and
`DRIVER_DESTROY`, `Rank_iterate` outside `DRIVER_INIT` and `DRIVER_ITERATE`, and, while the
p-value collection exists (from `Rank_init` until `Rank_destroy`), `Rank_print` with
result-file output enabled outside `DRIVER_ITERATE` and `Rank_metrics` outside
`DRIVER_PRINT` stop at a fatal error of their firewall and never complete normally.
Every state the documented order allows is one the firewall names.  `Rank_destroy`
checks no driver state and completes normally from every state, and `Rank_init` is
accepted from `DRIVER_DESTROY` as from `DRIVER_NULL`. -/
theorem C14_firewall_order {D : Type} [LinearOrderedField D] [FloorRing D] (env : Env D)
    (fns : MathFns D) (fresh : BitMatrix) (rs : RunState D) (hv : rs.testVector = true) :
    (∀ op, (op = Op.print → rs.resultstxtFlag = true) →
      (op = Op.print ∨ op = Op.metrics → rs.p_val_NULL = false) →
      firewallOrder op rs.driver_state = false →
      ∃ e, runOp env fns fresh op rs = Except.error e ∧ e ≠ Fatal.nullDereference) ∧
    (∀ op ds, documentedOrder op ds = true → firewallOrder op ds = true) ∧
    (∃ rs', Rank_destroy rs = Except.ok rs' ∧
      rs'.driver_state = DriverState.DRIVER_DESTROY) ∧
    (rs.cSetup = true →
      (rs.driver_state = DriverState.DRIVER_NULL
        ∨ rs.driver_state = DriverState.DRIVER_DESTROY) →
      ∃ rs', Rank_init fresh rs = Except.ok rs' ∧
        rs'.driver_state = DriverState.DRIVER_INIT ∧ rs'.p_val_NULL = false) := by
  refine ⟨?_, fun op ds => by cases op <;> cases ds <;> decide, ?_, ?_⟩
  · intro op hp hnull hf
    cases op with
    | init =>
      exact Rank_init_out_of_order fresh rs hv ⟨by
        intro h; rw [h] at hf; exact absurd hf (by decide), by
        intro h; rw [h] at hf; exact absurd hf (by decide)⟩
    | iterate =>
      have hd : rs.driver_state ≠ DriverState.DRIVER_INIT
          ∧ rs.driver_state ≠ DriverState.DRIVER_ITERATE := by
        constructor
        · intro h; rw [h] at hf; exact absurd hf (by decide)
        · intro h; rw [h] at hf; exact absurd hf (by decide)
      obtain ⟨e, he, h2⟩ := Rank_iterate_out_of_order env rs.toState hv hd
      refine ⟨e, ?_, h2⟩
      show Rank_iterate_run env rs = Except.error e
      unfold Rank_iterate_run
      rw [he]
    | print =>
      obtain ⟨e, h1, h2⟩ := Rank_print_out_of_order env rs hv (hp rfl) (by
        intro h; rw [h] at hf; exact absurd hf (by decide))
      exact ⟨e, h1, h2 (hnull (Or.inl rfl))⟩
    | metrics =>
      obtain ⟨e, h1, h2⟩ := Rank_metrics_out_of_order env fns rs hv (by
        intro h; rw [h] at hf; exact absurd hf (by decide))
      exact ⟨e, h1, h2 (hnull (Or.inr rfl))⟩
    | destroy =>
      exact absurd hf (by cases rs.driver_state <;> decide)
  · have hrun : Rank_destroy rs = Except.ok { rs with
        stats := []
        stats_NULL := true
        p_val := []
        p_val_NULL := true
        datatxt_fmt := none
        subDir := none
        rank_matrix := none
        driver_state := DriverState.DRIVER_DESTROY } := by
      unfold Rank_destroy
      rw [if_neg (by rw [hv]; exact fun h => h rfl)]
    exact ⟨_, hrun, rfl⟩
  · intro hc hd
    have hd2 : ¬ (rs.driver_state ≠ DriverState.DRIVER_NULL
        ∧ rs.driver_state ≠ DriverState.DRIVER_DESTROY) := by
      rintro ⟨h1, h2⟩
      rcases hd with h | h
      · exact h1 h
      · exact h2 h
    have hrun : Rank_init fresh rs = Except.ok { rs with
        rank_matrix := some fresh
        subDir := if rs.resultstxtFlag = true then some () else rs.subDir
        stats := []
        stats_NULL := false
        p_val := []
        p_val_NULL := false
        datatxt_fmt := some ()
        driver_state := DriverState.DRIVER_INIT } := by
      unfold Rank_init
      rw [if_neg (by rw [hv]; exact fun h => h rfl), if_neg (by rw [hc]; exact fun h => h rfl),
        if_neg hd2]
    exact ⟨_, hrun, rfl, rfl⟩

/-- An instance of the amended life-cycle theorem: the example run after one iteration,
where `Rank_metrics` comes too early and `Rank_init` too late; both stop at a fatal error
of the firewall. -/
theorem C14_firewall_order_witness :
    (exampleIterated 1).testVector = true ∧ (exampleIterated 1).p_val_NULL = false ∧
    (∃ e, Rank_metrics exampleEnv exampleFns (exampleIterated 1) = Except.error e ∧
      e ≠ Fatal.nullDereference) ∧
    (∃ e, Rank_init zeroMatrix (exampleIterated 1) = Except.error e ∧
      e ≠ Fatal.nullDereference) :=
  ⟨rfl, rfl,
    (C14_firewall_order exampleEnv exampleFns zeroMatrix (exampleIterated 1) rfl).1
      Op.metrics (fun h => Op.noConfusion h) (fun _ => rfl) rfl,
    (C14_firewall_order exampleEnv exampleFns zeroMatrix (exampleIterated 1) rfl).1
      Op.init (fun h => Op.noConfusion h) (fun _ => rfl) rfl⟩

/-- With result-file output disabled, `Rank_print` on an iterated test changes nothing
and the `Rank_metrics` that follows is fatal. -/
theorem print_disabled_then_metrics_fatal {D : Type} [LinearOrderedField D] [FloorRing D]
    (env : Env D) (fns : MathFns D) (rs : RunState D) (hv : rs.testVector = true)
    (hf : rs.resultstxtFlag = false) (hd : rs.driver_state = DriverState.DRIVER_ITERATE) :
    Rank_print env rs = Except.ok rs ∧ ∃ e, Rank_metrics env fns rs = Except.error e :=
  ⟨Rank_print_disabled env rs hf,
    (Rank_metrics_out_of_order env fns rs hv (by rw [hd]; decide)).elim
      (fun e h => ⟨e, h.1⟩)⟩

/-- C15, evaluated at one stream with result-file output disabled: the run init, iterate,
print, metrics, destroy stops with the fatal driver-state error of `Rank_metrics`, the
driver state being still `DRIVER_ITERATE` after `Rank_print`; with result-file output
enabled the same run ends in `DRIVER_DESTROY`. -/
theorem C15_disabled_output_run_fatal :
    (exampleRun 1 false).testVector = true ∧ (exampleRun 1 false).resultstxtFlag = false ∧
    outcome (runOps exampleEnv exampleFns zeroMatrix [Op.init, Op.iterate, Op.print]
      (exampleRun 1 false)) = Except.ok DriverState.DRIVER_ITERATE ∧
    outcome (runOps exampleEnv exampleFns zeroMatrix (controlFlow 1) (exampleRun 1 false))
      = Except.error Fatal.driverState ∧
    outcome (runOps exampleEnv exampleFns zeroMatrix (controlFlow 1) (exampleRun 1 true))
      = Except.ok DriverState.DRIVER_DESTROY :=
  ⟨rfl, rfl, rfl, rfl, rfl⟩

/-! ## The partitions of the p-values -/

theorem strideLoop_eq_foldl {α : Type} (count step : Nat) (body : Nat → α → α) :
    ∀ fuel i a, strideLoop count step body fuel i a
      = (strideList count step fuel i).foldl (fun acc k => body k acc) a := by
  intro fuel
  induction fuel with
  | zero => intro i a; rfl
  | succ n ih =>
    intro i a
    simp only [strideLoop, strideList]
    by_cases h : i < count
    · rw [if_pos h, if_pos h, ih, List.foldl_cons]
    · rw [if_neg h, if_neg h]; rfl

theorem strideList_ge (count step : Nat) :
    ∀ fuel i x, x ∈ strideList count step fuel i → i ≤ x := by
  intro fuel
  induction fuel with
  | zero => intro i x h; simp [strideList] at h
  | succ n ih =>
    intro i x h
    simp only [strideList] at h
    by_cases hi : i < count
    · rw [if_pos hi, List.mem_cons] at h
      rcases h with h | h
      · omega
      · have := ih _ _ h; omega
    · rw [if_neg hi] at h; simp at h

theorem strideList_sorted (count step : Nat) (hs : 1 ≤ step) :
    ∀ fuel i, (strideList count step fuel i).Sorted (· < ·) := by
  intro fuel
  induction fuel with
  | zero => intro i; exact List.sorted_nil
  | succ n ih =>
    intro i
    simp only [strideList]
    by_cases hi : i < count
    · rw [if_pos hi, List.sorted_cons]
      refine ⟨fun b hb => ?_, ih _⟩
      have := strideList_ge count step n (i + step) b hb
      omega
    · rw [if_neg hi]; exact List.sorted_nil

theorem strideList_mem (count step : Nat) (hs : 1 ≤ step) :
    ∀ fuel i x, count ≤ i + fuel →
      (x ∈ strideList count step fuel i ↔ x < count ∧ ∃ t, x = i + t * step) := by
  intro fuel
  induction fuel with
  | zero =>
    intro i x hf
    simp only [strideList, List.not_mem_nil, false_iff]
    rintro ⟨h1, t, h2⟩
    have : 0 ≤ t * step := Nat.zero_le _
    omega
  | succ n ih =>
    intro i x hf
    simp only [strideList]
    by_cases hi : i < count
    · rw [if_pos hi, List.mem_cons, ih (i + step) x (by omega)]
      constructor
      · rintro (h | ⟨h1, t, h2⟩)
        · exact ⟨by omega, 0, by omega⟩
        · exact ⟨h1, t + 1, by rw [h2, Nat.add_mul]; omega⟩
      · rintro ⟨h1, t, h2⟩
        cases t with
        | zero => left; omega
        | succ t => right; exact ⟨h1, t, by rw [h2, Nat.add_mul]; omega⟩
    · rw [if_neg hi]
      simp only [List.not_mem_nil, false_iff]
      rintro ⟨h1, t, h2⟩
      have : 0 ≤ t * step := Nat.zero_le _
      omega

/-- The loop `for (i = j; i < n; i += P)` visits exactly the indices below `n` that are
`j` modulo `P`, in increasing order. -/
theorem strideList_eq_filter (n P j : Nat) (hP : 1 ≤ P) (hj : j < P) :
    strideList n P n j = (List.range n).filter (fun i => i % P = j) := by
  have s1 := strideList_sorted n P hP n j
  have s2 : ((List.range n).filter (fun i => i % P = j)).Sorted (· < ·) :=
    List.Sorted.filter _ (List.sorted_lt_range n)
  refine List.eq_of_perm_of_sorted ?_ s1 s2
  rw [List.perm_ext_iff_of_nodup s1.nodup s2.nodup]
  intro x
  rw [strideList_mem n P hP n j x (by omega), List.mem_filter, List.mem_range,
    decide_eq_true_eq]
  constructor
  · rintro ⟨h1, t, h2⟩
    refine ⟨h1, ?_⟩
    rw [h2, Nat.add_mul_mod_self_right, Nat.mod_eq_of_lt hj]
  · rintro ⟨h1, h2⟩
    refine ⟨h1, x / P, ?_⟩
    have := Nat.div_add_mod x P
    rw [h2] at this
    rw [Nat.mul_comm] at this
    omega

theorem foldl_snoc_eq_map {α β : Type} (f : α → β) (l : List α) :
    ∀ out : List β, l.foldl (fun o k => o ++ [f k]) out = out ++ l.map f := by
  induction l with
  | nil => intro out; simp
  | cons a l ih =>
    intro out
    rw [List.foldl_cons, ih, List.map_cons, List.append_assoc]
    rfl

theorem partitionValues_eq_map {D : Type} [Zero D] (ps : List D) (P j : Nat) :
    partitionValues ps P j = (strideList ps.length P ps.length j).map (fun i => ps.getD i 0) := by
  unfold partitionValues
  rw [strideLoop_eq_foldl, foldl_snoc_eq_map, List.nil_append]

/-- The tally of partition `j` in `Rank_metrics` runs over the p-values of the
partition, in order. -/
theorem partitionTally_eq_foldl {D : Type} [LinearOrderedField D] [FloorRing D] (env : Env D)
    (rs : RunState D) (j : Nat) :
    partitionTally env rs j
      = (partitionValues rs.p_val rs.partitionCount.toNat j).foldl
          (fun t p => tallyValue env rs p t) zeroTally := by
  unfold partitionTally
  rw [strideLoop_eq_foldl, partitionValues_eq_map, List.foldl_map]
  rfl

theorem map_getD_range {D : Type} [Zero D] (ps : List D) :
    (List.range ps.length).map (fun i => ps.getD i 0) = ps := by
  apply List.ext_getElem
  · simp
  · intro i h1 h2
    simp [List.getD_eq_getElem?_getD, List.getElem?_eq_getElem h2]

/-- With a single partition, the partition is the whole collection. -/
theorem partitionValues_one {D : Type} [Zero D] (ps : List D) : partitionValues ps 1 0 = ps := by
  rw [partitionValues_eq_map, strideList_eq_filter ps.length 1 0 (le_refl 1) (by decide)]
  have : (List.range ps.length).filter (fun i => i % 1 = 0) = List.range ps.length := by
    rw [List.filter_eq_self]
    intro a _
    simp [Nat.mod_one]
  rw [this, map_getD_range]

theorem printLoop_ok {D : Type} [LinearOrderedField D] (env : Env D) (rs : RunState D)
    (hp : Printable env rs) :
    ∀ n, ∃ files, forUp 0 n (printRecord env rs) (Except.ok ([], [])) = Except.ok files := by
  intro n
  induction n with
  | zero => exact ⟨_, rfl⟩
  | succ n ih =>
    obtain ⟨files, hfiles⟩ := ih
    rw [forUp_succ, Nat.zero_add, hfiles]
    unfold printRecord
    cases hs : rs.stats.get? n with
    | none => exact ⟨_, rfl⟩
    | some stat =>
      have h1 : Rank_print_stat env rs stat (rs.p_val.getD n 0)
          = Except.ok (stat, rs.p_val.getD n 0) := by
        unfold Rank_print_stat
        rw [if_neg (by rw [hp.1]; exact fun h => h rfl), if_neg (hp.2 n stat hs)]
      simp only [h1]
      exact ⟨_, rfl⟩

/-- `Rank_print` with result-file output enabled accepts an iterated test whose p-value
count passes the firewall, and moves it to `DRIVER_PRINT` with the same p-values. -/
theorem Rank_print_accept {D : Type} [LinearOrderedField D] (env : Env D) (rs : RunState D)
    (hv : rs.testVector = true) (hf : rs.resultstxtFlag = true)
    (hfmt : rs.datatxt_fmt ≠ none) (hd : rs.driver_state = DriverState.DRIVER_ITERATE)
    (hn1 : rs.p_val_NULL = false) (hn2 : rs.stats_NULL = false)
    (hpr : Printable env rs) (hP : 1 ≤ rs.partitionCount)
    (hcount : (rs.p_val.length : Int) = rs.numOfBitStreams * rs.partitionCount) :
    ∃ rs1, Rank_print env rs = Except.ok rs1 ∧ rs1.testVector = true ∧
      rs1.p_val = rs.p_val ∧ rs1.partitionCount = rs.partitionCount ∧
      rs1.numOfBitStreams = rs.numOfBitStreams ∧ rs1.p_val_NULL = false ∧
      rs1.driver_state = DriverState.DRIVER_PRINT := by
  obtain ⟨files, hfiles⟩ := printLoop_ok env rs hpr rs.stats.length
  have hrun : Rank_print env rs = Except.ok { rs with
      statsTxt := files.1
      resultsTxt := files.2
      dataTxt :=
        if rs.partitionCount > 1 then
          forUp 0 rs.partitionCount.toNat
            (fun j out => out ++ [partitionValues rs.p_val rs.partitionCount.toNat j]) []
        else rs.dataTxt
      driver_state := DriverState.DRIVER_PRINT } := by
    unfold Rank_print
    rw [if_neg (by rw [hv]; exact fun h => h rfl), if_neg (by rw [hf]; decide),
      if_neg (by omega), if_neg (by rw [hn1]; decide), if_neg (fun h => h hcount),
      if_neg hfmt, if_neg (fun h => h hd), if_neg (by rw [hn2]; decide), hfiles]
  exact ⟨_, hrun, hv, rfl, rfl, rfl, hn1, rfl⟩

/-- `Rank_metrics` accepts a printed test whose p-value count passes the firewall, and
moves it to `DRIVER_METRICS`. -/
theorem Rank_metrics_accept {D : Type} [LinearOrderedField D] [FloorRing D] (env : Env D)
    (fns : MathFns D) (rs : RunState D) (hv : rs.testVector = true)
    (hd : rs.driver_state = DriverState.DRIVER_PRINT) (hn1 : rs.p_val_NULL = false)
    (hP : 1 ≤ rs.partitionCount)
    (hcount : (rs.p_val.length : Int) = rs.numOfBitStreams * rs.partitionCount) :
    ∃ rs2, Rank_metrics env fns rs = Except.ok rs2 ∧
      rs2.driver_state = DriverState.DRIVER_METRICS := by
  have hrun : Rank_metrics env fns rs = Except.ok
      { forUp 0 rs.partitionCount.toNat (metricsPartition env fns) rs with
        driver_state := DriverState.DRIVER_METRICS } := by
    unfold Rank_metrics
    rw [if_neg (by rw [hv]; exact fun h => h rfl), if_neg (by omega),
      if_neg (by rw [hn1]; decide), if_neg (fun h => h hcount), if_neg (fun h => h hd)]
  exact ⟨_, hrun, rfl⟩

/-- With the p-value collection in place and a partition count of at least 1, a p-value
count that fails the check stops `Rank_print` (output enabled) and `Rank_metrics` with
the fatal error of that check. -/
theorem count_check_fatal {D : Type} [LinearOrderedField D] [FloorRing D] (env : Env D)
    (fns : MathFns D) (rs : RunState D) (hv : rs.testVector = true)
    (hn1 : rs.p_val_NULL = false) (hP : 1 ≤ rs.partitionCount)
    (hcount : (rs.p_val.length : Int) ≠ rs.numOfBitStreams * rs.partitionCount) :
    (rs.resultstxtFlag = true → Rank_print env rs = Except.error Fatal.pValCount) ∧
    Rank_metrics env fns rs = Except.error Fatal.pValCount := by
  constructor
  · intro hf
    unfold Rank_print
    rw [if_neg (by rw [hv]; exact fun h => h rfl), if_neg (by rw [hf]; decide),
      if_neg (by omega), if_neg (by rw [hn1]; decide), if_pos hcount]
  · unfold Rank_metrics
    rw [if_neg (by rw [hv]; exact fun h => h rfl), if_neg (by omega),
      if_neg (by rw [hn1]; decide), if_pos hcount]

/-- An accepted call of `Rank_iterate` appends one record and one p-value, which lies in
`[0, 1]` when the record has `success = true`, and leaves a state that accepts the next
call on the same stream. -/
theorem Rank_iterate_step {D : Type} [LinearOrderedField D] (env : Env D)
    (state : State D) (epsilon : Nat → Nat) (matrix : BitMatrix)
    (ha : Accepted state epsilon matrix) :
    ∃ state' stat p, Rank_iterate env state = Except.ok state' ∧
      state'.stats = state.stats ++ [stat] ∧ state'.p_val = state.p_val ++ [p] ∧
      (stat.success = true → 0 ≤ p ∧ p ≤ 1) ∧
      state'.testVector = true ∧ state'.cSetup = true ∧
      state'.epsilon = some epsilon ∧ (∃ m, state'.rank_matrix = some m) ∧
      state'.driver_state = DriverState.DRIVER_ITERATE := by
  obtain ⟨hv, he, hm, hc, hd⟩ := ha
  have hd2 : ¬ (state.driver_state ≠ DriverState.DRIVER_INIT
      ∧ state.driver_state ≠ DriverState.DRIVER_ITERATE) := by
    rintro ⟨h1, h2⟩
    rcases hd with h | h
    · exact h1 h
    · exact h2 h
  have hft : ∀ (q : D) (st : Rank_private_stats D), st.success = false →
      st.success = true → 0 ≤ q ∧ q ≤ 1 := by
    intro q st h1 h2
    rw [h1] at h2
    exact absurd h2 (by decide)
  unfold Rank_iterate
  rw [if_neg (by rw [hv]; exact fun h => h rfl), he, hm]
  simp only []
  rw [if_neg (by rw [hc]; exact fun h => h rfl), if_neg hd2]
  by_cases h0 : state.matrix_count = 0
  · rw [if_pos h0]
    simp only [Bool.false_eq_true, if_false]
    exact ⟨_, _, _, rfl, rfl, rfl, hft _ _ rfl, hv, hc, rfl, ⟨_, rfl⟩, rfl⟩
  · rw [if_neg h0]
    simp only [if_true]
    split_ifs with h1 h2 h3
    · exact ⟨_, _, _, rfl, rfl, rfl, hft _ _ rfl, hv, hc, rfl, ⟨_, rfl⟩, rfl⟩
    · exact ⟨_, _, _, rfl, rfl, rfl, hft _ _ rfl, hv, hc, rfl, ⟨_, rfl⟩, rfl⟩
    · exact ⟨_, _, _, rfl, rfl, rfl, hft _ _ rfl, hv, hc, rfl, ⟨_, rfl⟩, rfl⟩
    · refine ⟨_, _, _, rfl, rfl, rfl, fun _ => ⟨?_, ?_⟩, hv, hc, rfl, ⟨_, rfl⟩, rfl⟩
      · exact not_lt.1 (fun h => h1 (by unfold isNegative; exact decide_eq_true h))
      · exact not_lt.1 (fun h => h2 (by unfold isGreaterThanOne; exact decide_eq_true h))

theorem sentinelFree_append {D : Type} [Zero D] (env : Env D)
    (a : List (Rank_private_stats D)) (b : List D) (stat : Rank_private_stats D) (p : D)
    (hl : a.length = b.length) (h1 : SentinelFree env a b)
    (h2 : stat.success = true → p ≠ env.NON_P_VALUE) :
    SentinelFree env (a ++ [stat]) (b ++ [p]) := by
  intro i st h
  by_cases hi : i < a.length
  · have e1 : (a ++ [stat]).get? i = a.get? i := by
      simp [List.getElem?_append_left hi]
    have e2 : (b ++ [p]).getD i 0 = b.getD i 0 := by
      simp [List.getD_eq_getElem?_getD, List.getElem?_append_left (show i < b.length by omega)]
    rw [e2]
    exact h1 i st (by rw [← e1]; exact h)
  · by_cases hi2 : i = a.length
    · have e1 : (a ++ [stat]).get? i = some stat := by
        rw [hi2]; simp
      have e2 : (b ++ [p]).getD i 0 = p := by
        rw [hi2, hl]; simp [List.getD_eq_getElem?_getD]
      rw [e2]
      rw [e1] at h
      have e3 : stat = st := by simpa using h
      rintro ⟨h3, h4⟩
      rw [← e3] at h4
      exact h2 h4 h3
    · have e1 : (a ++ [stat]).get? i = none := by
        rw [List.get?_eq_none]
        simp
        omega
      rw [e1] at h
      exact absurd h (by simp)

/-- The run of `n` calls of `Rank_iterate` from a state that accepts the first: all are
accepted, each adds one p-value, and no record with `success = true` carries the
sentinel, provided the sentinel is not a number of `[0, 1]`. -/
theorem runOps_iterate {D : Type} [LinearOrderedField D] [FloorRing D] (env : Env D)
    (fns : MathFns D) (fresh : BitMatrix)
    (hsent : env.NON_P_VALUE < 0 ∨ 1 < env.NON_P_VALUE) :
    ∀ (n : Nat) (rs : RunState D), rs.testVector = true → rs.cSetup = true →
      (∃ e, rs.epsilon = some e) → (∃ m, rs.rank_matrix = some m) →
      (rs.driver_state = DriverState.DRIVER_INIT
        ∨ rs.driver_state = DriverState.DRIVER_ITERATE) →
      rs.stats.length = rs.p_val.length → SentinelFree env rs.stats rs.p_val →
      ∃ s : State D, runOps env fns fresh (List.replicate n Op.iterate) rs
          = Except.ok { rs with toState := s } ∧
        s.testVector = true ∧ s.cSetup = true ∧
        s.p_val.length = rs.p_val.length + n ∧ s.stats.length = s.p_val.length ∧
        SentinelFree env s.stats s.p_val ∧
        (1 ≤ n → s.driver_state = DriverState.DRIVER_ITERATE) ∧
        (n = 0 → s.driver_state = rs.driver_state) := by
  intro n
  induction n with
  | zero =>
    intro rs hv hc _ _ _ hl hs
    exact ⟨rs.toState, rfl, hv, hc, rfl, hl, hs, fun h => absurd h (by decide), fun _ => rfl⟩
  | succ n ih =>
    intro rs hv hc he hm hd hl hs
    obtain ⟨e, he⟩ := he
    obtain ⟨m, hm⟩ := hm
    obtain ⟨s1, stat, p, hrun, h1, h2, h3, hv1, hc1, he1, hm1, hd1⟩ :=
      Rank_iterate_step env rs.toState e m ⟨hv, he, hm, hc, hd⟩
    have hl1 : s1.stats.length = s1.p_val.length := by
      rw [h1, h2, List.length_append, List.length_append, hl]
      rfl
    have hs1 : SentinelFree env s1.stats s1.p_val := by
      rw [h1, h2]
      refine sentinelFree_append env _ _ stat p hl hs ?_
      intro hsucc hp
      obtain ⟨b1, b2⟩ := h3 hsucc
      rw [hp] at b1 b2
      rcases hsent with h | h
      · exact absurd h (not_lt.2 b1)
      · exact absurd h (not_lt.2 b2)
    obtain ⟨s2, hrun2, hv2, hc2, hp2, hl2, hs2, hd2a, hd2b⟩ :=
      ih { rs with toState := s1 } hv1 hc1 ⟨e, he1⟩ hm1 (Or.inr hd1) hl1 hs1
    have hstep : runOps env fns fresh (List.replicate (n + 1) Op.iterate) rs
        = runOps env fns fresh (List.replicate n Op.iterate) { rs with toState := s1 } := by
      show (match runOp env fns fresh Op.iterate rs with
        | Except.error x => Except.error x
        | Except.ok rs1 => runOps env fns fresh (List.replicate n Op.iterate) rs1) = _
      have : runOp env fns fresh Op.iterate rs = Except.ok { rs with toState := s1 } := by
        show Rank_iterate_run env rs = _
        unfold Rank_iterate_run
        rw [hrun]
      rw [this]
    refine ⟨s2, ?_, hv2, hc2, ?_, hl2, hs2, ?_, fun h => absurd h (by omega)⟩
    · rw [hstep, hrun2]
    · rw [hp2]
      show s1.p_val.length + n = _
      rw [h2, List.length_append]
      show rs.p_val.length + 1 + n = rs.p_val.length + (n + 1)
      omega
    · intro _
      rcases Nat.eq_zero_or_pos n with h | h
      · rw [hd2b h]
        exact hd1
      · exact hd2a h

/-- C16 as stated fails: with partition count 2 and one `Rank_iterate` call for the one
input stream, `Rank_print` and `Rank_metrics` both stop with the fatal error of the
p-value count check, since 1 is not 1 * 2. -/
theorem C16_two_partitions_counterexample :
    (exampleRun 2 true).partitionCount = 2 ∧ (exampleRun 2 true).numOfBitStreams = 1 ∧
    outcome (runOps exampleEnv exampleFns zeroMatrix [Op.init, Op.iterate] (exampleRun 2 true))
      = Except.ok DriverState.DRIVER_ITERATE ∧
    outcome (runOps exampleEnv exampleFns zeroMatrix [Op.init, Op.iterate, Op.print]
      (exampleRun 2 true)) = Except.error Fatal.pValCount ∧
    outcome (runOps exampleEnv exampleFns zeroMatrix [Op.init, Op.iterate, Op.metrics]
      (exampleRun 2 true)) = Except.error Fatal.pValCount :=
  ⟨rfl, rfl, rfl, rfl, rfl⟩

/-- C16, amended: take an active test with the constants set up, a stream in place,
result-file output enabled, a partition count `P ≥ 1` and a sentinel `NON_P_VALUE` that
is not a number of `[0, 1]`.  After `Rank_init` and `n ≥ 1` calls of `Rank_iterate`,
which are all accepted and record `n` p-values, `Rank_print` and then `Rank_metrics`
accept the run if `n = numOfBitStreams * P`, and each of them stops with the fatal error
of its p-value count check if not; with one call per stream (`n = numOfBitStreams`) the
check holds exactly for `P = 1`.  Partition `j < P` consists of exactly the p-values at
the indices `i` with `i mod P = j`, in increasing index order, and it is what the tally
of `Rank_metrics` runs over; every index lies in exactly one partition; and with `P = 1`
the single partition is the whole collection. -/
theorem C16_partitions {D : Type} [LinearOrderedField D] [FloorRing D] (env : Env D)
    (fns : MathFns D) (fresh : BitMatrix) (rs : RunState D) (n : Nat)
    (hv : rs.testVector = true) (hc : rs.cSetup = true)
    (hd : rs.driver_state = DriverState.DRIVER_NULL
      ∨ rs.driver_state = DriverState.DRIVER_DESTROY)
    (he : ∃ e, rs.epsilon = some e) (hf : rs.resultstxtFlag = true)
    (hP : 1 ≤ rs.partitionCount)
    (hsent : env.NON_P_VALUE < 0 ∨ 1 < env.NON_P_VALUE) (hn : 1 ≤ n) :
    ∃ rs1, runOps env fns fresh (Op.init :: List.replicate n Op.iterate) rs = Except.ok rs1 ∧
      rs1.p_val.length = n ∧ rs1.partitionCount = rs.partitionCount ∧
      rs1.numOfBitStreams = rs.numOfBitStreams ∧
      ((n : Int) = rs.numOfBitStreams * rs.partitionCount →
        ∃ rs2 rs3, Rank_print env rs1 = Except.ok rs2 ∧ rs2.p_val = rs1.p_val ∧
          Rank_metrics env fns rs2 = Except.ok rs3 ∧
          rs3.driver_state = DriverState.DRIVER_METRICS) ∧
      ((n : Int) ≠ rs.numOfBitStreams * rs.partitionCount →
        Rank_print env rs1 = Except.error Fatal.pValCount ∧
        Rank_metrics env fns rs1 = Except.error Fatal.pValCount) ∧
      ((n : Int) = rs.numOfBitStreams →
        ((n : Int) = rs.numOfBitStreams * rs.partitionCount ↔ rs.partitionCount = 1)) ∧
      (∀ j, j < rs.partitionCount.toNat →
        partitionValues rs1.p_val rs.partitionCount.toNat j
          = ((List.range n).filter (fun i => i % rs.partitionCount.toNat = j)).map
              (fun i => rs1.p_val.getD i 0)) ∧
      (∀ j, partitionTally env rs1 j
        = (partitionValues rs1.p_val rs.partitionCount.toNat j).foldl
            (fun t p => tallyValue env rs1 p t) zeroTally) ∧
      (∀ i, i < n → ∃! j, j < rs.partitionCount.toNat ∧
        i ∈ (List.range n).filter (fun i => i % rs.partitionCount.toNat = j)) ∧
      (rs.partitionCount = 1 →
        partitionValues rs1.p_val rs.partitionCount.toNat 0 = rs1.p_val) := by
  have hPn : 1 ≤ rs.partitionCount.toNat := by omega
  have hd2 : ¬ (rs.driver_state ≠ DriverState.DRIVER_NULL
      ∧ rs.driver_state ≠ DriverState.DRIVER_DESTROY) := by
    rintro ⟨h1, h2⟩
    rcases hd with h | h
    · exact h1 h
    · exact h2 h
  have hinit : Rank_init fresh rs = Except.ok { rs with
      rank_matrix := some fresh
      subDir := if rs.resultstxtFlag = true then some () else rs.subDir
      stats := []
      stats_NULL := false
      p_val := []
      p_val_NULL := false
      datatxt_fmt := some ()
      driver_state := DriverState.DRIVER_INIT } := by
    unfold Rank_init
    rw [if_neg (by rw [hv]; exact fun h => h rfl), if_neg (by rw [hc]; exact fun h => h rfl),
      if_neg hd2]
  obtain ⟨s, hrun, hv1, hc1, hlen, hl, hs, hds, _⟩ :=
    runOps_iterate env fns fresh hsent n _ (show ({ rs with
      rank_matrix := some fresh
      subDir := if rs.resultstxtFlag = true then some () else rs.subDir
      stats := []
      stats_NULL := false
      p_val := []
      p_val_NULL := false
      datatxt_fmt := some ()
      driver_state := DriverState.DRIVER_INIT } : RunState D).testVector = true from hv)
      hc he ⟨fresh, rfl⟩ (Or.inl rfl) rfl (fun i st h => Option.noConfusion h)
  have hlen' : s.p_val.length = n := by
    rw [hlen]
    show 0 + n = n
    omega
  set rs1 : RunState D := { ({ rs with
      rank_matrix := some fresh
      subDir := if rs.resultstxtFlag = true then some () else rs.subDir
      stats := []
      stats_NULL := false
      p_val := []
      p_val_NULL := false
      datatxt_fmt := some ()
      driver_state := DriverState.DRIVER_INIT } : RunState D) with toState := s } with hrs1
  have hfmt : rs1.datatxt_fmt ≠ none := fun h => Option.noConfusion h
  refine ⟨rs1, ?_, ?_, ?_, ?_, ?_, ?_, ?_, ?_, ?_, ?_, ?_⟩
  · show (match runOp env fns fresh Op.init rs with
      | Except.error x => Except.error x
      | Except.ok rs1 => runOps env fns fresh (List.replicate n Op.iterate) rs1) = _
    have : runOp env fns fresh Op.init rs = Rank_init fresh rs := rfl
    rw [this, hinit]
    exact hrun
  · exact hlen'
  · rfl
  · rfl
  · intro hcount
    have hcount' : (s.p_val.length : Int) = rs.numOfBitStreams * rs.partitionCount := by
      rw [hlen']; exact hcount
    obtain ⟨rs2, h1, a1, a2, a3, a4, a5, a6⟩ := Rank_print_accept env rs1 hv1 hf
      hfmt (hds hn) rfl rfl ⟨hc1, hs⟩ hP hcount'
    obtain ⟨rs3, h2, b1⟩ := Rank_metrics_accept env fns rs2 a1 a6 a5 (by rw [a3]; exact hP)
      (by rw [a2, a3, a4]; exact hcount')
    exact ⟨rs2, rs3, h1, a2, h2, b1⟩
  · intro hcount
    have hcount' : (s.p_val.length : Int) ≠ rs.numOfBitStreams * rs.partitionCount := by
      rw [hlen']; exact hcount
    obtain ⟨c1, c2⟩ := count_check_fatal env fns rs1 hv1 rfl hP hcount'
    exact ⟨c1 hf, c2⟩
  · intro h1
    have hn' : (0 : Int) < (n : Int) := by omega
    constructor
    · intro h2
      rw [← h1] at h2
      have : (n : Int) * 1 = (n : Int) * rs.partitionCount := by
        rw [mul_one]; exact h2
      exact (Int.eq_of_mul_eq_mul_left (ne_of_gt hn') this).symm
    · intro h2
      rw [h2, mul_one]
      exact h1
  · intro j hj
    rw [partitionValues_eq_map, strideList_eq_filter _ _ _ hPn hj, hlen']
  · intro j
    exact partitionTally_eq_foldl env rs1 j
  · intro i _
    refine ⟨i % rs.partitionCount.toNat, ⟨Nat.mod_lt _ (by omega), ?_⟩, ?_⟩
    · rw [List.mem_filter, List.mem_range, decide_eq_true_eq]
      exact ⟨by assumption, rfl⟩
    · rintro j ⟨_, hj⟩
      rw [List.mem_filter, List.mem_range, decide_eq_true_eq] at hj
      exact hj.2.symm
  · intro h1
    rw [h1]
    exact partitionValues_one _

/-- An instance of the amended partition theorem: one stream that holds one matrix, two
partitions, and two calls of `Rank_iterate`, so that the count check `2 = 1 * 2` holds
and `Rank_print` and `Rank_metrics` accept. -/
theorem C16_partitions_witness :
    (exampleTestable 2).testVector = true ∧ (exampleTestable 2).cSetup = true ∧
    ((exampleTestable 2).driver_state = DriverState.DRIVER_NULL
      ∨ (exampleTestable 2).driver_state = DriverState.DRIVER_DESTROY) ∧
    (∃ e, (exampleTestable 2).epsilon = some e) ∧
    (exampleTestable 2).resultstxtFlag = true ∧ 1 ≤ (exampleTestable 2).partitionCount ∧
    (exampleEnv.NON_P_VALUE < 0 ∨ 1 < exampleEnv.NON_P_VALUE) ∧ 1 ≤ 2 ∧
    ∃ rs1 rs2 rs3, runOps exampleEnv exampleFns zeroMatrix
        (Op.init :: List.replicate 2 Op.iterate) (exampleTestable 2) = Except.ok rs1 ∧
      rs1.p_val.length = 2 ∧ Rank_print exampleEnv rs1 = Except.ok rs2 ∧
      Rank_metrics exampleEnv exampleFns rs2 = Except.ok rs3 ∧
      rs3.driver_state = DriverState.DRIVER_METRICS :=
  have hs : exampleEnv.NON_P_VALUE < 0 ∨ 1 < exampleEnv.NON_P_VALUE :=
    Or.inl (by show (-99999999 : ℚ) < 0; norm_num)
  ⟨rfl, rfl, Or.inl rfl, ⟨fun _ => 0, rfl⟩, rfl, by decide, hs, by decide,
    (C16_partitions exampleEnv exampleFns zeroMatrix (exampleTestable 2) 2 rfl rfl
      (Or.inl rfl) ⟨fun _ => 0, rfl⟩ rfl (by decide) hs (by decide)).elim
      (fun rs1 h => (h.2.2.2.2.1 (by decide)).elim
        (fun rs2 h2 => h2.elim
          (fun rs3 h3 => ⟨rs1, rs2, rs3, h.1, h.2.1, h3.1, h3.2.2.1, h3.2.2.2⟩)))⟩

/-! ## The tally of `Rank_metrics` -/

theorem tallyValue_counted {D : Type} [LinearOrderedField D] [FloorRing D] (env : Env D)
    (rs : RunState D) (p : D) (t : MetricTally) (h : isCounted env rs p = true) :
    tallyValue env rs p t = countValue rs p t := by
  unfold isCounted at h
  unfold tallyValue
  split_ifs at h ⊢ <;> rfl

theorem tallyValue_skipped {D : Type} [LinearOrderedField D] [FloorRing D] (env : Env D)
    (rs : RunState D) (p : D) (t : MetricTally) (h : isCounted env rs p = false) :
    tallyValue env rs p t = t := by
  unfold isCounted at h
  unfold tallyValue
  split_ifs at h ⊢ <;> rfl

theorem isCounted_iff {D : Type} [LinearOrderedField D] (env : Env D) (rs : RunState D)
    (p : D) :
    isCounted env rs p = true ↔ p ≠ env.NON_P_VALUE ∧ (rs.is_excursion = true → 0 < p) := by
  unfold isCounted
  split_ifs with h1 h2 h3
  · simp [h1]
  · simp [h1, h2, h3]
  · simp [h1, h2, h3]
  · simp [h1, h2]

/-- The counters after the tally loop has run over a list of p-values. -/
theorem foldl_tallyValue {D : Type} [LinearOrderedField D] [FloorRing D] (env : Env D)
    (rs : RunState D) (ps : List D) :
    ∀ t : MetricTally,
      (ps.foldl (fun t p => tallyValue env rs p t) t).sampleCount
          = t.sampleCount + ((ps.countP (isCounted env rs) : Nat) : Int) ∧
      (ps.foldl (fun t p => tallyValue env rs p t) t).toolow
          = t.toolow
            + ((ps.countP (fun p => isCounted env rs p && decide (p < rs.alpha)) : Nat) : Int) ∧
      ∀ b, (ps.foldl (fun t p => tallyValue env rs p t) t).freqPerBin b
          = t.freqPerBin b
            + ((ps.countP (fun p => isCounted env rs p
                && decide (b = binIndex rs.uniformity_bins p)) : Nat) : Int) := by
  induction ps with
  | nil => intro t; simp
  | cons p ps ih =>
    intro t
    rw [List.foldl_cons]
    cases hc : isCounted env rs p with
    | false =>
      rw [tallyValue_skipped env rs p t hc]
      obtain ⟨h1, h2, h3⟩ := ih t
      refine ⟨?_, ?_, ?_⟩
      · rw [h1, List.countP_cons]; simp [hc]
      · rw [h2, List.countP_cons]; simp [hc]
      · intro b; rw [h3 b, List.countP_cons]; simp [hc]
    | true =>
      rw [tallyValue_counted env rs p t hc]
      obtain ⟨h1, h2, h3⟩ := ih (countValue rs p t)
      refine ⟨?_, ?_, ?_⟩
      · rw [h1, List.countP_cons]
        simp only [countValue, hc, if_true]
        push_cast
        ring
      · rw [h2, List.countP_cons]
        by_cases hl : p < rs.alpha
        · simp only [countValue, hc, hl, if_true, Bool.true_and, decide_True]
          push_cast
          ring
        · simp only [countValue, hc, hl, if_false, Bool.true_and, decide_False]
          simp
      · intro b
        rw [h3 b, List.countP_cons]
        by_cases hb : b = binIndex rs.uniformity_bins p
        · simp only [countValue, hc, if_pos hb, Bool.true_and, decide_True, if_true, hb]
          push_cast
          ring
        · simp only [countValue, hc, if_neg hb, Bool.true_and, decide_False, hb]
          simp

theorem rhe_floor_le {D : Type} [LinearOrderedField D] [FloorRing D] (y : D) : ⌊y⌋ ≤ roundHalfEven y := by
  unfold roundHalfEven
  split_ifs <;> omega

theorem rhe_le_floor_succ {D : Type} [LinearOrderedField D] [FloorRing D] (y : D) : roundHalfEven y ≤ ⌊y⌋ + 1 := by
  unfold roundHalfEven
  split_ifs <;> omega

theorem rhe_of_frac_lt {D : Type} [LinearOrderedField D] [FloorRing D] (y : D) (h : y - (⌊y⌋ : D) < 1 / 2) : roundHalfEven y = ⌊y⌋ := by
  unfold roundHalfEven
  rw [if_pos h]

theorem rhe_of_frac_gt {D : Type} [LinearOrderedField D] [FloorRing D] (y : D) (h : 1 / 2 < y - (⌊y⌋ : D)) : roundHalfEven y = ⌊y⌋ + 1 := by
  unfold roundHalfEven
  rw [if_neg (not_lt.2 (le_of_lt h)), if_pos h]

theorem rhe_intCast {D : Type} [LinearOrderedField D] [FloorRing D] (z : Int) : roundHalfEven (z : D) = z := by
  rw [rhe_of_frac_lt]
  · exact Int.floor_intCast z
  · rw [Int.floor_intCast, sub_self]
    norm_num

theorem rhe_ge_of_int_le {D : Type} [LinearOrderedField D] [FloorRing D] {y : D} {a : Int} (h : (a : D) ≤ y) : a ≤ roundHalfEven y :=
  le_trans (Int.le_floor.2 h) (rhe_floor_le y)

theorem rhe_le_of_le_int {D : Type} [LinearOrderedField D] [FloorRing D] {y : D} {b : Int} (h : y ≤ (b : D)) : roundHalfEven y ≤ b := by
  by_cases hf : y - (⌊y⌋ : D) < 1 / 2
  · rw [rhe_of_frac_lt y hf]
    exact Int.cast_le.1 (le_trans (Int.floor_le y) h)
  · have h1 : (⌊y⌋ : D) < y := by
      have : (0 : D) < 1 / 2 := by norm_num
      linarith [not_lt.1 hf]
    have h2 : ⌊y⌋ < b := Int.cast_lt.1 (lt_of_lt_of_le h1 h)
    have := rhe_le_floor_succ y
    omega

theorem rhe_lt_of_lt_sub_half {D : Type} [LinearOrderedField D] [FloorRing D] {y : D} {N : Int} (h : y < (N : D) - 1 / 2) :
    roundHalfEven y < N := by
  have hfl : (⌊y⌋ : D) ≤ y := Int.floor_le y
  by_cases hf : y - (⌊y⌋ : D) < 1 / 2
  · rw [rhe_of_frac_lt y hf]
    have : (⌊y⌋ : D) < (N : D) := by linarith
    exact Int.cast_lt.1 this
  · have h1 : (⌊y⌋ : D) + 1 < (N : D) := by linarith [not_lt.1 hf]
    have h2 : ⌊y⌋ + 1 < N := by exact_mod_cast h1
    have := rhe_le_floor_succ y
    omega

theorem rhe_ge_of_gt_sub_half {D : Type} [LinearOrderedField D] [FloorRing D] {y : D} {N : Int} (h : (N : D) - 1 / 2 < y) :
    N ≤ roundHalfEven y := by
  have h0 : N - 1 ≤ ⌊y⌋ := by
    apply Int.le_floor.2
    push_cast
    linarith
  by_cases hN : N ≤ ⌊y⌋
  · exact le_trans hN (rhe_floor_le y)
  · have e : ⌊y⌋ = N - 1 := by omega
    rw [rhe_of_frac_gt]
    · omega
    · rw [e]
      push_cast
      linarith

theorem rhe_le_add_half {D : Type} [LinearOrderedField D] [FloorRing D] (y : D) : (roundHalfEven y : D) ≤ y + 1 / 2 := by
  have hfl : (⌊y⌋ : D) ≤ y := Int.floor_le y
  by_cases hf : y - (⌊y⌋ : D) < 1 / 2
  · rw [rhe_of_frac_lt y hf]
    linarith
  · have h1 : ((roundHalfEven y : Int) : D) ≤ ((⌊y⌋ + 1 : Int) : D) :=
      Int.cast_le.2 (rhe_le_floor_succ y)
    push_cast at h1
    linarith [not_lt.1 hf]


theorem two_zpow_pos {D : Type} [LinearOrderedField D] (k : Int) : (0 : D) < (2 : D) ^ k := zpow_pos (by norm_num) k

theorem two_zpow_mono {D : Type} [LinearOrderedField D] {k l : Int} (h : k ≤ l) : (2 : D) ^ k ≤ (2 : D) ^ l :=
  zpow_le_zpow_right₀ (by norm_num) h

theorem two_zpow_succ {D : Type} [LinearOrderedField D] (k : Int) : (2 : D) ^ (k + 1) = 2 * (2 : D) ^ k := by
  rw [zpow_add₀ (by norm_num : (2 : D) ≠ 0), zpow_one, mul_comm]

theorem ulp_pos {D : Type} [LinearOrderedField D] [FloorRing D] (x : D) : (0 : D) < ulp x := two_zpow_pos _

theorem doubleExponent_ge {D : Type} [LinearOrderedField D] [FloorRing D] (x : D) : -1022 ≤ doubleExponent x := le_max_right _ _

theorem log_le_doubleExponent {D : Type} [LinearOrderedField D] [FloorRing D] (x : D) : Int.log 2 x ≤ doubleExponent x := le_max_left _ _

theorem lt_two_zpow_doubleExponent_succ {D : Type} [LinearOrderedField D] [FloorRing D] (x : D) : x < (2 : D) ^ (doubleExponent x + 1) := by
  have h1 : x < ((2 : Nat) : D) ^ (Int.log 2 x + 1) := Int.lt_zpow_succ_log_self (by norm_num) x
  have h2 : ((2 : Nat) : D) ^ (Int.log 2 x + 1) ≤ (2 : D) ^ (doubleExponent x + 1) := by
    have : ((2 : Nat) : D) = 2 := by norm_num
    rw [this]
    exact two_zpow_mono (by linarith [log_le_doubleExponent x])
  exact lt_of_lt_of_le h1 h2

theorem doubleExponent_le_of_lt {D : Type} [LinearOrderedField D] [FloorRing D] {x : D} {k : Int} (hk : -1022 ≤ k) (hx0 : 0 < x)
    (hx : x < (2 : D) ^ (k + 1)) : doubleExponent x ≤ k := by
  have h1 : Int.log 2 x < k + 1 := by
    apply (Int.lt_zpow_iff_log_lt (by norm_num : 1 < 2) hx0).1
    have : ((2 : Nat) : D) = 2 := by norm_num
    rw [this]
    exact hx
  unfold doubleExponent
  exact max_le (by omega) hk

theorem doubleExponent_zero {D : Type} [LinearOrderedField D] [FloorRing D] : doubleExponent (0 : D) = 0 := by
  unfold doubleExponent
  rw [Int.log_of_right_le_zero 2 (le_refl (0 : D))]
  decide

theorem doubleExponent_le_of_lt_nonneg {D : Type} [LinearOrderedField D] [FloorRing D] {x : D} {k : Int} (hk : 0 ≤ k) (hx0 : 0 ≤ x)
    (hx : x < (2 : D) ^ (k + 1)) : doubleExponent x ≤ k := by
  rcases eq_or_lt_of_le hx0 with h | h
  · rw [← h, doubleExponent_zero]
    exact hk
  · exact doubleExponent_le_of_lt (by omega) h hx

theorem le_doubleExponent_of_le {D : Type} [LinearOrderedField D] [FloorRing D] {x : D} {k : Int} (hx : (2 : D) ^ k ≤ x) :
    k ≤ doubleExponent x := by
  have hx0 : 0 < x := lt_of_lt_of_le (two_zpow_pos k) hx
  have h1 : k ≤ Int.log 2 x := by
    apply (Int.zpow_le_iff_le_log (by norm_num : 1 < 2) hx0).1
    have : ((2 : Nat) : D) = 2 := by norm_num
    rw [this]
    exact hx
  exact le_trans h1 (log_le_doubleExponent x)

theorem doubleExponent_eq {D : Type} [LinearOrderedField D] [FloorRing D] {x : D} {k : Int} (hk : -1022 ≤ k) (h1 : (2 : D) ^ k ≤ x)
    (h2 : x < (2 : D) ^ (k + 1)) : doubleExponent x = k :=
  le_antisymm (doubleExponent_le_of_lt hk (lt_of_lt_of_le (two_zpow_pos k) h1) h2)
    (le_doubleExponent_of_le h1)

theorem two_zpow_doubleExponent_le {D : Type} [LinearOrderedField D] [FloorRing D] {x : D} (hx : (2 : D) ^ (-1022 : Int) ≤ x) :
    (2 : D) ^ doubleExponent x ≤ x := by
  have hx0 : 0 < x := lt_of_lt_of_le (two_zpow_pos _) hx
  have h1 : (-1022 : Int) ≤ Int.log 2 x := by
    apply (Int.zpow_le_iff_le_log (by norm_num : 1 < 2) hx0).1
    have : ((2 : Nat) : D) = 2 := by norm_num
    rw [this]
    exact hx
  have e : doubleExponent x = Int.log 2 x := max_eq_left h1
  rw [e]
  have := Int.zpow_log_le_self (by norm_num : 1 < 2) hx0
  have h2 : ((2 : Nat) : D) = 2 := by norm_num
  rw [h2] at this
  exact this

theorem roundDouble_of_nonneg {D : Type} [LinearOrderedField D] [FloorRing D] {x : D} (hx : 0 ≤ x) :
    roundDouble x = (roundHalfEven (x / ulp x) : D) * ulp x := by
  unfold roundDouble
  rw [if_pos hx]

theorem roundDouble_of_neg {D : Type} [LinearOrderedField D] [FloorRing D] {x : D} (hx : x < 0) :
    roundDouble x = -((roundHalfEven (-x / ulp (-x)) : D) * ulp (-x)) := by
  unfold roundDouble
  rw [if_neg (not_le.2 hx)]

theorem roundDouble_nonneg {D : Type} [LinearOrderedField D] [FloorRing D] {x : D} (hx : 0 ≤ x) : 0 ≤ roundDouble x := by
  rw [roundDouble_of_nonneg hx]
  apply mul_nonneg _ (le_of_lt (ulp_pos x))
  have h : (0 : Int) ≤ roundHalfEven (x / ulp x) :=
    rhe_ge_of_int_le (by
      rw [Int.cast_zero]
      exact div_nonneg hx (le_of_lt (ulp_pos x)))
  exact_mod_cast h

theorem roundDouble_nonpos {D : Type} [LinearOrderedField D] [FloorRing D] {x : D} (hx : x < 0) : roundDouble x ≤ 0 := by
  rw [roundDouble_of_neg hx]
  have hx2 : (0 : D) ≤ -x := by linarith
  have := roundDouble_nonneg hx2
  rw [roundDouble_of_nonneg hx2] at this
  linarith

theorem roundDouble_zero {D : Type} [LinearOrderedField D] [FloorRing D] : roundDouble (0 : D) = 0 := by
  rw [roundDouble_of_nonneg (le_refl _), zero_div]
  have := rhe_intCast (D := D) 0
  rw [Int.cast_zero] at this
  rw [this, Int.cast_zero, zero_mul]

/-- A grid of spacing `2 ^ t` that is at least as coarse as the doubles around `x` consists
of multiples of the spacing of those doubles. -/
theorem grid_eq {D : Type} [LinearOrderedField D] [FloorRing D] (x : D) {t : Int} (ht : doubleExponent x - 52 ≤ t) (N : Int) :
    (N : D) * (2 : D) ^ t
      = ((N * 2 ^ (t - (doubleExponent x - 52)).toNat : Int) : D) * ulp x := by
  have hk : ((t - (doubleExponent x - 52)).toNat : Int) = t - (doubleExponent x - 52) :=
    Int.toNat_of_nonneg (by omega)
  have e : (2 : D) ^ t
      = (2 : D) ^ (((t - (doubleExponent x - 52)).toNat : Int)) * (2 : D) ^ (doubleExponent x - 52) := by
    rw [← zpow_add₀ (by norm_num : (2 : D) ≠ 0), hk]
    congr 1
    ring
  unfold ulp
  rw [e, zpow_natCast]
  push_cast
  ring

theorem roundDouble_le_grid {D : Type} [LinearOrderedField D] [FloorRing D] {x : D} (hx : 0 ≤ x) {t : Int} (ht : doubleExponent x - 52 ≤ t)
    {N : Int} (h : x ≤ (N : D) * (2 : D) ^ t) : roundDouble x ≤ (N : D) * (2 : D) ^ t := by
  rw [grid_eq x ht N] at h ⊢
  rw [roundDouble_of_nonneg hx]
  apply mul_le_mul_of_nonneg_right _ (le_of_lt (ulp_pos x))
  exact Int.cast_le.2 (rhe_le_of_le_int ((div_le_iff₀ (ulp_pos x)).2 h))

theorem grid_le_roundDouble {D : Type} [LinearOrderedField D] [FloorRing D] {x : D} (hx : 0 ≤ x) {t : Int} (ht : doubleExponent x - 52 ≤ t)
    {N : Int} (h : (N : D) * (2 : D) ^ t ≤ x) : (N : D) * (2 : D) ^ t ≤ roundDouble x := by
  rw [grid_eq x ht N] at h ⊢
  rw [roundDouble_of_nonneg hx]
  apply mul_le_mul_of_nonneg_right _ (le_of_lt (ulp_pos x))
  exact Int.cast_le.2 (rhe_ge_of_int_le ((le_div_iff₀ (ulp_pos x)).2 h))

theorem roundDouble_eq_grid {D : Type} [LinearOrderedField D] [FloorRing D] {x : D} (hx : 0 ≤ x) {t : Int} (ht : doubleExponent x - 52 ≤ t)
    {N : Int} (h : x = (N : D) * (2 : D) ^ t) : roundDouble x = x :=
  le_antisymm (by
      have := roundDouble_le_grid hx ht (le_of_eq h)
      rw [← h] at this
      exact this)
    (by
      have := grid_le_roundDouble hx ht (le_of_eq h.symm)
      rw [← h] at this
      exact this)

theorem roundDouble_le_grid_sub {D : Type} [LinearOrderedField D] [FloorRing D] {x : D} (hx : 0 ≤ x) {t : Int}
    (ht : doubleExponent x - 52 ≤ t) {N : Int}
    (h : x < (N : D) * (2 : D) ^ t - ulp x / 2) :
    roundDouble x ≤ (N : D) * (2 : D) ^ t - ulp x := by
  rw [grid_eq x ht N] at h ⊢
  rw [roundDouble_of_nonneg hx]
  have hu := ulp_pos x
  have h1 : x / ulp x < ((N * 2 ^ (t - (doubleExponent x - 52)).toNat : Int) : D) - 1 / 2 := by
    rw [div_lt_iff₀ hu]
    linarith
  have h2 := rhe_lt_of_lt_sub_half h1
  have h3 : roundHalfEven (x / ulp x) ≤ N * 2 ^ (t - (doubleExponent x - 52)).toNat - 1 := by
    omega
  have h4 : ((roundHalfEven (x / ulp x) : Int) : D)
      ≤ ((N * 2 ^ (t - (doubleExponent x - 52)).toNat - 1 : Int) : D) := Int.cast_le.2 h3
  have h5 := mul_le_mul_of_nonneg_right h4 (le_of_lt hu)
  rw [Int.cast_sub, Int.cast_one] at h5
  linarith

theorem grid_le_roundDouble_of_gt {D : Type} [LinearOrderedField D] [FloorRing D] {x : D} (hx : 0 ≤ x) {t : Int}
    (ht : doubleExponent x - 52 ≤ t) {N : Int}
    (h : (N : D) * (2 : D) ^ t - ulp x / 2 < x) :
    (N : D) * (2 : D) ^ t ≤ roundDouble x := by
  rw [grid_eq x ht N] at h ⊢
  rw [roundDouble_of_nonneg hx]
  have hu := ulp_pos x
  have h1 : ((N * 2 ^ (t - (doubleExponent x - 52)).toNat : Int) : D) - 1 / 2 < x / ulp x := by
    rw [lt_div_iff₀ hu]
    linarith
  exact mul_le_mul_of_nonneg_right (Int.cast_le.2 (rhe_ge_of_gt_sub_half h1)) (le_of_lt hu)

theorem roundDouble_le_add_half {D : Type} [LinearOrderedField D] [FloorRing D] {x : D} (hx : 0 ≤ x) : roundDouble x ≤ x + ulp x / 2 := by
  rw [roundDouble_of_nonneg hx]
  have hu := ulp_pos x
  have h1 := mul_le_mul_of_nonneg_right (rhe_le_add_half (x / ulp x)) (le_of_lt hu)
  have h2 : (x / ulp x + 1 / 2) * ulp x = x + ulp x / 2 := by
    field_simp
    ring
  linarith


theorem intPow_mul_zpow {D : Type} [LinearOrderedField D] (n : Nat) (k : Int) :
    ((2 ^ n : Int) : D) * (2 : D) ^ k = (2 : D) ^ ((n : Int) + k) := by
  rw [zpow_add₀ (by norm_num : (2 : D) ≠ 0), zpow_natCast]
  push_cast
  rfl

theorem intPow_mul_zpow_sub {D : Type} [LinearOrderedField D] (n : Nat) (k : Int) :
    ((2 ^ n : Int) : D) * (2 : D) ^ (k - (n : Int)) = (2 : D) ^ k := by
  rw [intPow_mul_zpow]
  congr 1
  omega

theorem two_zpow_neg53_le {D : Type} [LinearOrderedField D] : (2 : D) ^ (-53 : Int) ≤ 1 / 2 := by
  have : (2 : D) ^ (-53 : Int) ≤ (2 : D) ^ (-1 : Int) := two_zpow_mono (by norm_num)
  rw [zpow_neg_one] at this
  rw [one_div]
  exact this

theorem one_eq_grid {D : Type} [LinearOrderedField D] : (1 : D) = ((2 ^ 53 : Int) : D) * (2 : D) ^ (-53 : Int) := by
  have := intPow_mul_zpow_sub (D := D) 53 0
  rw [zpow_zero] at this
  exact this.symm

/-- A double below one is at most the largest double below one. -/
theorem roundDouble_lt_one {D : Type} [LinearOrderedField D] [FloorRing D] {p : D} (h : roundDouble p < 1) :
    roundDouble p ≤ 1 - (2 : D) ^ (-53 : Int) := by
  have h53 := two_zpow_neg53_le (D := D)
  have h0 := two_zpow_pos (D := D) (-53)
  rcases lt_or_le p 0 with hp | hp
  · have := roundDouble_nonpos hp
    generalize (2 : D) ^ (-53 : Int) = z at *
    linarith
  rcases lt_or_le p (1 / 2) with hp2 | hp2
  · have ht : doubleExponent p - 52 ≤ (-1 : Int) := by
      have : doubleExponent p ≤ 0 :=
        doubleExponent_le_of_lt_nonneg (le_refl 0) hp (by
          rw [zero_add, zpow_one]
          linarith)
      omega
    have hle : p ≤ ((1 : Int) : D) * (2 : D) ^ (-1 : Int) := by
      rw [Int.cast_one, one_mul, zpow_neg_one, ← one_div]
      exact le_of_lt hp2
    have := roundDouble_le_grid hp ht hle
    rw [Int.cast_one, one_mul, zpow_neg_one, ← one_div] at this
    generalize (2 : D) ^ (-53 : Int) = z at *
    linarith
  rcases lt_or_le p 1 with hp3 | hp3
  · have he : doubleExponent p = -1 :=
      doubleExponent_eq (by norm_num) (by
        rw [zpow_neg_one, ← one_div]
        exact hp2) (by
        rw [show ((-1 : Int) + 1) = 0 from rfl, zpow_zero]
        exact hp3)
    have hu : ulp p = (2 : D) ^ (-53 : Int) := by
      unfold ulp
      rw [he]
      rfl
    rw [roundDouble_of_nonneg hp, hu] at h ⊢
    have hone := one_eq_grid (D := D)
    have h1 : ((roundHalfEven (p / (2 : D) ^ (-53 : Int)) : Int) : D) < ((2 ^ 53 : Int) : D) := by
      rw [hone] at h
      exact lt_of_mul_lt_mul_right h (le_of_lt h0)
    have h2 : roundHalfEven (p / (2 : D) ^ (-53 : Int)) ≤ 2 ^ 53 - 1 := by
      have := Int.cast_lt.1 h1
      omega
    have h3 : ((roundHalfEven (p / (2 : D) ^ (-53 : Int)) : Int) : D) ≤ ((2 ^ 53 - 1 : Int) : D) :=
      Int.cast_le.2 h2
    have h4 := mul_le_mul_of_nonneg_right h3 (le_of_lt h0)
    rw [Int.cast_sub, Int.cast_one, sub_mul, one_mul, ← hone] at h4
    exact h4
  · exfalso
    have hpos : (0 : D) ≤ p := by linarith
    have hge : (2 : D) ^ (-1022 : Int) ≤ p := by
      have : (2 : D) ^ (-1022 : Int) ≤ (2 : D) ^ (0 : Int) := two_zpow_mono (by norm_num)
      rw [zpow_zero] at this
      linarith
    have he0 : (0 : Int) ≤ doubleExponent p :=
      le_doubleExponent_of_le (by
        rw [zpow_zero]
        exact hp3)
    have e := intPow_mul_zpow_sub (D := D) 52 (doubleExponent p)
    have h1 : ((2 ^ 52 : Int) : D) * (2 : D) ^ (doubleExponent p - 52) ≤ roundDouble p := by
      apply grid_le_roundDouble hpos (le_refl _)
      have e2 : ((2 ^ 52 : Int) : D) * (2 : D) ^ (doubleExponent p - 52)
          = (2 : D) ^ doubleExponent p := e
      rw [e2]
      exact two_zpow_doubleExponent_le hge
    have e2 : ((2 ^ 52 : Int) : D) * (2 : D) ^ (doubleExponent p - 52)
        = (2 : D) ^ doubleExponent p := e
    rw [e2] at h1
    have h2 : (2 : D) ^ (0 : Int) ≤ (2 : D) ^ doubleExponent p := two_zpow_mono he0
    rw [zpow_zero] at h2
    linarith


/-- The rounded product of a double in `[0, 1)` and the double nearest a whole number
`B ≥ 1` stays below `B`. -/
theorem roundDouble_mul_lt {D : Type} [LinearOrderedField D] [FloorRing D] {d : D} (hd0 : 0 ≤ d) (hd1 : d ≤ 1 - (2 : D) ^ (-53 : Int))
    {B : Int} (hB : 1 ≤ B) :
    roundDouble (d * roundDouble (B : D)) < (B : D) := by
  have hb1 : (1 : D) ≤ (B : D) := by exact_mod_cast hB
  have hb0 : (0 : D) ≤ (B : D) := by linarith
  have hbpos : (0 : D) < (B : D) := by linarith
  obtain ⟨e, hedef⟩ : ∃ e : Int, e = doubleExponent (B : D) := ⟨_, rfl⟩
  have he0 : 0 ≤ e := by
    rw [hedef]
    exact le_doubleExponent_of_le (by
      rw [zpow_zero]
      exact hb1)
  have hlo : (2 : D) ^ e ≤ (B : D) := by
    rw [hedef]
    apply two_zpow_doubleExponent_le
    have : (2 : D) ^ (-1022 : Int) ≤ (2 : D) ^ (0 : Int) := two_zpow_mono (by norm_num)
    rw [zpow_zero] at this
    linarith
  have hu : ulp (B : D) = (2 : D) ^ (e - 52) := by
    unfold ulp
    rw [hedef]
  have hu2 : (2 : D) ^ (e - 52) = 2 * (2 : D) ^ (e - 53) := by
    rw [← two_zpow_succ]
    congr 1
    omega
  have hz : (2 : D) ^ (-53 : Int) * (2 : D) ^ e = (2 : D) ^ (e - 53) := by
    rw [← zpow_add₀ (by norm_num : (2 : D) ≠ 0)]
    congr 1
    omega
  have h52 : ((2 ^ 52 : Int) : D) * (2 : D) ^ (e - 52) = (2 : D) ^ e :=
    intPow_mul_zpow_sub 52 e
  have h53 : ((2 ^ 53 : Int) : D) * (2 : D) ^ (e - 53) = (2 : D) ^ e :=
    intPow_mul_zpow_sub 53 e
  have h53b : ((2 ^ 53 : Int) : D) * (2 : D) ^ (e - 52) = (2 : D) ^ (e + 1) := by
    rw [intPow_mul_zpow]
    congr 1
    omega
  have hC1 : (2 : D) ^ e ≤ roundDouble (B : D) := by
    have := grid_le_roundDouble (x := (B : D)) hb0 (t := e - 52) (by rw [hedef])
      (N := 2 ^ 52) (by
        rw [h52]
        exact hlo)
    rw [h52] at this
    exact this
  have hC2 : roundDouble (B : D) ≤ (2 : D) ^ (e + 1) := by
    have := roundDouble_le_grid (x := (B : D)) hb0 (t := e - 52) (by rw [hedef])
      (N := 2 ^ 53) (by
        rw [h53b, hedef]
        exact le_of_lt (lt_two_zpow_doubleExponent_succ _))
    rw [h53b] at this
    exact this
  have hC3 : roundDouble (B : D) ≤ (B : D) + (2 : D) ^ (e - 53) := by
    have := roundDouble_le_add_half hb0
    rw [hu, hu2] at this
    linarith
  have hCform : roundDouble (B : D)
      = ((roundHalfEven ((B : D) / ulp (B : D)) : Int) : D) * (2 : D) ^ (e - 52) := by
    rw [roundDouble_of_nonneg hb0, hu]
  have hepos : (0 : D) < (2 : D) ^ e := two_zpow_pos e
  have hwpos : (0 : D) < (2 : D) ^ (e - 53) := two_zpow_pos _
  have hzpos : (0 : D) < (2 : D) ^ (-53 : Int) := two_zpow_pos _
  have hz1 : (2 : D) ^ (-53 : Int) ≤ 1 / 2 := two_zpow_neg53_le
  have hCpos : (0 : D) < roundDouble (B : D) := lt_of_lt_of_le hepos hC1
  have hx0 : 0 ≤ d * roundDouble (B : D) := mul_nonneg hd0 (le_of_lt hCpos)
  -- the product is at most `C - C * 2 ^ (-53)`
  have hx1 : d * roundDouble (B : D)
      ≤ roundDouble (B : D) - (2 : D) ^ (-53 : Int) * roundDouble (B : D) := by
    have := mul_le_mul_of_nonneg_right hd1 (le_of_lt hCpos)
    linarith [this, sub_mul (1 : D) ((2 : D) ^ (-53 : Int)) (roundDouble (B : D))]
  have hzC : (2 : D) ^ (e - 53) ≤ (2 : D) ^ (-53 : Int) * roundDouble (B : D) := by
    rw [← hz]
    exact mul_le_mul_of_nonneg_left hC1 (le_of_lt hzpos)
  rcases eq_or_lt_of_le hx0 with hxz | hxpos
  · rw [← hxz, roundDouble_zero]
    exact hbpos
  rcases lt_or_le (d * roundDouble (B : D)) ((2 : D) ^ e) with hA | hBc
  · -- the product lies below the binade of `B`
    have hex : doubleExponent (d * roundDouble (B : D)) ≤ e - 1 :=
      doubleExponent_le_of_lt (by omega) hxpos (by
        rw [sub_add_cancel]
        exact hA)
    rcases lt_or_le ((2 : D) ^ e) (B : D) with hlt | hge
    · have := roundDouble_le_grid hx0 (t := e - 52) (by omega) (N := 2 ^ 52) (by
        rw [h52]
        exact le_of_lt hA)
      rw [h52] at this
      exact lt_of_le_of_lt this hlt
    · have hBe : (B : D) = (2 : D) ^ e := le_antisymm hge hlo
      have hCle : roundDouble (B : D) ≤ (2 : D) ^ e := by
        have := roundDouble_le_grid (x := (B : D)) hb0 (t := e - 52) (by rw [hedef])
          (N := 2 ^ 52) (by
            rw [h52]
            exact hge)
        rw [h52] at this
        exact this
      have hgrid : ((2 ^ 53 - 1 : Int) : D) * (2 : D) ^ (e - 53)
          = (2 : D) ^ e - (2 : D) ^ (e - 53) := by
        rw [Int.cast_sub, Int.cast_one, sub_mul, one_mul, h53]
      have := roundDouble_le_grid hx0 (t := e - 53) (by omega) (N := 2 ^ 53 - 1) (by
        rw [hgrid]
        linarith)
      rw [hgrid] at this
      linarith
  · -- the product lies in the binade of `B`
    have hxC : d * roundDouble (B : D) < roundDouble (B : D) := by
      have : (0 : D) < (2 : D) ^ (-53 : Int) * roundDouble (B : D) := mul_pos hzpos hCpos
      linarith
    have hex : doubleExponent (d * roundDouble (B : D)) = e :=
      doubleExponent_eq (by omega) hBc (lt_of_lt_of_le hxC hC2)
    have hux : ulp (d * roundDouble (B : D)) = (2 : D) ^ (e - 52) := by
      unfold ulp
      rw [hex]
    have hCgt : (2 : D) ^ e < roundDouble (B : D) := lt_of_le_of_lt hBc hxC
    have hzC2 : (2 : D) ^ (e - 53) < (2 : D) ^ (-53 : Int) * roundDouble (B : D) := by
      rw [← hz]
      exact mul_lt_mul_of_pos_left hCgt hzpos
    have := roundDouble_le_grid_sub hx0 (t := e - 52) (by omega)
      (N := roundHalfEven ((B : D) / ulp (B : D))) (by
        rw [← hCform, hux, hu2]
        linarith)
    rw [← hCform, hux] at this
    rw [hu2] at this
    linarith


/-- A whole number below `2 ^ 53` is a double. -/
theorem roundDouble_intCast {D : Type} [LinearOrderedField D] [FloorRing D] {B : Int} (h0 : 0 ≤ B) (h1 : B < 2 ^ 53) :
    roundDouble (B : D) = (B : D) := by
  have hb0 : (0 : D) ≤ (B : D) := by exact_mod_cast h0
  have hlt : (B : D) < (2 : D) ^ ((52 : Int) + 1) := by
    have : (B : D) < ((2 ^ 53 : Int) : D) := Int.cast_lt.2 h1
    have e := intPow_mul_zpow_sub (D := D) 53 53
    rw [show ((53 : Int) - ((53 : Nat) : Int)) = 0 from by norm_num, zpow_zero, mul_one] at e
    rw [e] at this
    exact this
  have he : doubleExponent (B : D) ≤ 52 :=
    doubleExponent_le_of_lt_nonneg (by norm_num) hb0 hlt
  exact roundDouble_eq_grid hb0 (t := 0) (by omega) (N := B) (by rw [zpow_zero, mul_one])

/-- Rounding to a double keeps a value between the whole numbers around it, below
`2 ^ 53`. -/
theorem roundDouble_between {D : Type} [LinearOrderedField D] [FloorRing D] {x : D} (hx0 : 0 ≤ x) (hx1 : x < (2 : D) ^ ((52 : Int) + 1)) :
    ((⌊x⌋ : Int) : D) ≤ roundDouble x ∧ roundDouble x ≤ ((⌊x⌋ + 1 : Int) : D) := by
  have he : doubleExponent x ≤ 52 := doubleExponent_le_of_lt_nonneg (by norm_num) hx0 hx1
  constructor
  · have := grid_le_roundDouble hx0 (t := 0) (by omega) (N := ⌊x⌋) (by
      rw [zpow_zero, mul_one]
      exact Int.floor_le x)
    rw [zpow_zero, mul_one] at this
    exact this
  · have := roundDouble_le_grid hx0 (t := 0) (by omega) (N := ⌊x⌋ + 1) (by
      rw [zpow_zero, mul_one]
      push_cast
      exact le_of_lt (Int.lt_floor_add_one x))
    rw [zpow_zero, mul_one] at this
    exact this

theorem binIndex_bounds {D : Type} [LinearOrderedField D] [FloorRing D] (B : Int) (p : D)
    (hB : 1 ≤ B) : 0 ≤ binIndex B p ∧ binIndex B p < B := by
  unfold binIndex
  split_ifs with h1 h2
  · omega
  · have hB0 : (0 : D) ≤ (B : D) := by exact_mod_cast (by omega : (0 : Int) ≤ B)
    constructor
    · exact Int.floor_nonneg.2
        (roundDouble_nonneg (mul_nonneg h2 (roundDouble_nonneg hB0)))
    · rw [Int.floor_lt]
      exact roundDouble_mul_lt h2 (roundDouble_lt_one (lt_of_not_ge h1)) hB
  · omega


theorem roundDouble_nearestThreeTenths : roundDouble nearestThreeTenths = nearestThreeTenths := by
  have h0 : (0 : ℚ) ≤ nearestThreeTenths := by
    unfold nearestThreeTenths
    norm_num
  have he : doubleExponent nearestThreeTenths ≤ -2 :=
    doubleExponent_le_of_lt (by norm_num) (by
      unfold nearestThreeTenths
      norm_num) (by
      unfold nearestThreeTenths
      norm_num)
  exact roundDouble_eq_grid h0 (t := -54) (by omega) (N := 5404319552844595) (by
    unfold nearestThreeTenths
    norm_num)

theorem roundDouble_three : roundDouble (nearestThreeTenths * 10) = 3 := by
  have h0 : (0 : ℚ) ≤ nearestThreeTenths * 10 := by
    unfold nearestThreeTenths
    norm_num
  have he : doubleExponent (nearestThreeTenths * 10) = 1 :=
    doubleExponent_eq (by norm_num) (by
      unfold nearestThreeTenths
      norm_num) (by
      unfold nearestThreeTenths
      norm_num)
  have hu : ulp (nearestThreeTenths * 10) = (2 : ℚ) ^ (-51 : Int) := by
    unfold ulp
    rw [he]
    rfl
  apply le_antisymm
  · have := roundDouble_le_grid h0 (t := 0) (by omega) (N := 3) (by
      unfold nearestThreeTenths
      norm_num)
    rw [zpow_zero, mul_one] at this
    exact_mod_cast this
  · have := grid_le_roundDouble_of_gt h0 (t := 0) (by omega) (N := 3) (by
      rw [hu]
      unfold nearestThreeTenths
      norm_num)
    rw [zpow_zero, mul_one] at this
    exact_mod_cast this

theorem binIndex_nearestThreeTenths :
    binIndex 10 nearestThreeTenths = 3 ∧ ⌊nearestThreeTenths * 10⌋ = 2 := by
  constructor
  · unfold binIndex
    rw [roundDouble_nearestThreeTenths]
    have h10 : roundDouble (((10 : Int) : ℚ)) = ((10 : Int) : ℚ) :=
      roundDouble_intCast (by norm_num) (by norm_num)
    rw [h10, if_neg (by unfold nearestThreeTenths; norm_num),
      if_pos (by unfold nearestThreeTenths; norm_num)]
    have : (((10 : Int) : ℚ)) = 10 := by norm_num
    rw [this, roundDouble_three]
    norm_num
  · rw [Int.floor_eq_iff]
    unfold nearestThreeTenths
    norm_num

/-- C18 as stated fails: for the double nearest to three tenths and ten bins the exact
product `p * B` has floor `2`, while the product that `Rank_metrics` computes in `double`
arithmetic rounds up to `3`, so the tally increments bin `3` and leaves bin `2`. -/
theorem C18_floor_product_counterexample :
    (exampleIterated 1).uniformity_bins = 10 ∧
    isCounted exampleEnv (exampleIterated 1) nearestThreeTenths = true ∧
    roundDouble nearestThreeTenths = nearestThreeTenths ∧
    0 ≤ nearestThreeTenths ∧ nearestThreeTenths < 1 ∧
    ⌊nearestThreeTenths * ((10 : Int) : ℚ)⌋ = 2 ∧
    binIndex 10 nearestThreeTenths = 3 ∧
    (tallyValue exampleEnv (exampleIterated 1) nearestThreeTenths zeroTally).freqPerBin 3
      = zeroTally.freqPerBin 3 + 1 ∧
    (tallyValue exampleEnv (exampleIterated 1) nearestThreeTenths zeroTally).freqPerBin 2
      = zeroTally.freqPerBin 2 := by
  have hc : isCounted exampleEnv (exampleIterated 1) nearestThreeTenths = true :=
    (isCounted_iff exampleEnv (exampleIterated 1) nearestThreeTenths).2
      ⟨by show nearestThreeTenths ≠ (-99999999 : ℚ); unfold nearestThreeTenths; norm_num,
        fun h => absurd (show false = true from h) (by decide)⟩
  have hb : binIndex (exampleIterated 1).uniformity_bins nearestThreeTenths = 3 :=
    binIndex_nearestThreeTenths.1
  refine ⟨rfl, hc, roundDouble_nearestThreeTenths, ?_, ?_, ?_, binIndex_nearestThreeTenths.1,
    ?_, ?_⟩
  · unfold nearestThreeTenths
    norm_num
  · unfold nearestThreeTenths
    norm_num
  · have := binIndex_nearestThreeTenths.2
    rw [show (((10 : Int) : ℚ)) = 10 from by norm_num]
    exact this
  · rw [tallyValue_counted exampleEnv (exampleIterated 1) nearestThreeTenths zeroTally hc]
    simp only [countValue, hb, if_true]
  · rw [tallyValue_counted exampleEnv (exampleIterated 1) nearestThreeTenths zeroTally hc]
    simp only [countValue, hb]
    rw [if_neg (by decide)]

/-- C18, amended: for a counted p-value `p` that is a `double` and a bin count `B` with
`1 ≤ B ≤ 2 ^ 31`, the tally loop of `Rank_metrics` increments exactly one bin, by one, and
leaves every other bin as it was; the index of that bin is in `0..B-1` and in the range of
`int`: it is `B - 1` when `p ≥ 1`, `0` when `p < 0`, and when `0 ≤ p < 1` it is the floor of
the product `p * B` rounded to a `double`, which is `floor(p * B)` or `floor(p * B) + 1`,
the latter exactly when the product rounds up to that whole number. -/
theorem C18_one_bin {D : Type} [LinearOrderedField D] [FloorRing D] (env : Env D)
    (rs : RunState D) (p : D) (t : MetricTally) (hB : 1 ≤ rs.uniformity_bins)
    (hB2 : rs.uniformity_bins ≤ 2147483648) (hp : roundDouble p = p)
    (hc : isCounted env rs p = true) :
    (0 ≤ binIndex rs.uniformity_bins p ∧ binIndex rs.uniformity_bins p < rs.uniformity_bins ∧
      binIndex rs.uniformity_bins p ≤ 2147483647) ∧
    (1 ≤ p → binIndex rs.uniformity_bins p = rs.uniformity_bins - 1) ∧
    (p < 0 → binIndex rs.uniformity_bins p = 0) ∧
    (0 ≤ p → p < 1 →
      binIndex rs.uniformity_bins p = ⌊roundDouble (p * (rs.uniformity_bins : D))⌋ ∧
      ⌊p * (rs.uniformity_bins : D)⌋ ≤ binIndex rs.uniformity_bins p ∧
      binIndex rs.uniformity_bins p ≤ ⌊p * (rs.uniformity_bins : D)⌋ + 1 ∧
      (binIndex rs.uniformity_bins p = ⌊p * (rs.uniformity_bins : D)⌋ + 1 ↔
        roundDouble (p * (rs.uniformity_bins : D))
          = ((⌊p * (rs.uniformity_bins : D)⌋ + 1 : Int) : D))) ∧
    (tallyValue env rs p t).freqPerBin (binIndex rs.uniformity_bins p)
      = t.freqPerBin (binIndex rs.uniformity_bins p) + 1 ∧
    (∀ b, b ≠ binIndex rs.uniformity_bins p →
      (tallyValue env rs p t).freqPerBin b = t.freqPerBin b) ∧
    (∃! b, (tallyValue env rs p t).freqPerBin b ≠ t.freqPerBin b) := by
  have hsame : (tallyValue env rs p t).freqPerBin (binIndex rs.uniformity_bins p)
      = t.freqPerBin (binIndex rs.uniformity_bins p) + 1 := by
    rw [tallyValue_counted env rs p t hc]
    simp only [countValue, if_true]
  have hother : ∀ b, b ≠ binIndex rs.uniformity_bins p →
      (tallyValue env rs p t).freqPerBin b = t.freqPerBin b := by
    intro b hb
    rw [tallyValue_counted env rs p t hc]
    simp only [countValue, if_neg hb]
  have hbd := binIndex_bounds rs.uniformity_bins p hB
  have hBD : roundDouble (rs.uniformity_bins : D) = (rs.uniformity_bins : D) :=
    roundDouble_intCast (by omega) (by
      have : (2147483648 : Int) < 2 ^ 53 := by norm_num
      omega)
  refine ⟨⟨hbd.1, hbd.2, by omega⟩, ?_, ?_, ?_, hsame, hother, ?_⟩
  · intro h
    unfold binIndex
    rw [hp, if_pos h]
  · intro h
    unfold binIndex
    rw [hp, if_neg (not_le.2 (lt_trans h one_pos)), if_neg (not_le.2 h)]
  · intro h0 h1
    have hb0 : (0 : D) ≤ (rs.uniformity_bins : D) := by
      exact_mod_cast (by omega : (0 : Int) ≤ rs.uniformity_bins)
    have hbpos : (0 : D) < (rs.uniformity_bins : D) := by
      exact_mod_cast (by omega : (0 : Int) < rs.uniformity_bins)
    have he : binIndex rs.uniformity_bins p
        = ⌊roundDouble (p * (rs.uniformity_bins : D))⌋ := by
      unfold binIndex
      rw [hp, hBD, if_neg (not_le.2 h1), if_pos h0]
    have hx0 : (0 : D) ≤ p * (rs.uniformity_bins : D) := mul_nonneg h0 hb0
    have hx1 : p * (rs.uniformity_bins : D) < (2 : D) ^ ((52 : Int) + 1) := by
      have h2 : p * (rs.uniformity_bins : D) < (rs.uniformity_bins : D) := by
        calc p * (rs.uniformity_bins : D) < 1 * (rs.uniformity_bins : D) :=
              mul_lt_mul_of_pos_right h1 hbpos
          _ = (rs.uniformity_bins : D) := one_mul _
      have h3 : (rs.uniformity_bins : D) < ((2 ^ 53 : Int) : D) :=
        Int.cast_lt.2 (by
          have : (2147483648 : Int) < 2 ^ 53 := by norm_num
          omega)
      have e := intPow_mul_zpow_sub (D := D) 53 53
      rw [show ((53 : Int) - ((53 : Nat) : Int)) = 0 from by norm_num, zpow_zero, mul_one] at e
      rw [e] at h3
      exact lt_trans h2 h3
    have hbt := roundDouble_between hx0 hx1
    have hlo : ⌊p * (rs.uniformity_bins : D)⌋ ≤ ⌊roundDouble (p * (rs.uniformity_bins : D))⌋ :=
      Int.le_floor.2 hbt.1
    have hhi : ⌊roundDouble (p * (rs.uniformity_bins : D))⌋ ≤ ⌊p * (rs.uniformity_bins : D)⌋ + 1 := by
      have := Int.floor_le_floor hbt.2
      rw [Int.floor_intCast] at this
      exact this
    refine ⟨he, by rw [he]; exact hlo, by rw [he]; exact hhi, ?_⟩
    rw [he]
    constructor
    · intro h
      apply le_antisymm hbt.2
      rw [← h]
      exact Int.floor_le _
    · intro h
      rw [h, Int.floor_intCast]
  · refine ⟨binIndex rs.uniformity_bins p, ?_, ?_⟩
    · show _ ≠ _
      rw [hsame]
      omega
    · intro b hb
      by_contra hne
      exact hb (hother b hne)

/-- An instance of the bin theorem: the p-value `1 / 2`, which is a `double`, with the ten
bins of the example run. -/
theorem C18_one_bin_witness :
    1 ≤ (exampleIterated 1).uniformity_bins ∧
    (exampleIterated 1).uniformity_bins ≤ 2147483648 ∧
    roundDouble (1 / 2 : ℚ) = 1 / 2 ∧
    isCounted exampleEnv (exampleIterated 1) (1 / 2) = true ∧
    (tallyValue exampleEnv (exampleIterated 1) (1 / 2) zeroTally).freqPerBin
        (binIndex (exampleIterated 1).uniformity_bins (1 / 2 : ℚ))
      = zeroTally.freqPerBin (binIndex (exampleIterated 1).uniformity_bins (1 / 2 : ℚ)) + 1 :=
  have hB : 1 ≤ (exampleIterated 1).uniformity_bins := by decide
  have hB2 : (exampleIterated 1).uniformity_bins ≤ 2147483648 := by decide
  have hp : roundDouble (1 / 2 : ℚ) = 1 / 2 :=
    roundDouble_eq_grid (by norm_num) (t := -1)
      (by
        have : doubleExponent (1 / 2 : ℚ) ≤ 51 :=
          doubleExponent_le_of_lt_nonneg (by norm_num) (by norm_num) (by norm_num)
        omega)
      (N := 1) (by norm_num)
  have hc : isCounted exampleEnv (exampleIterated 1) (1 / 2) = true :=
    (isCounted_iff exampleEnv (exampleIterated 1) (1 / 2)).2
      ⟨by show (1 / 2 : ℚ) ≠ -99999999; norm_num,
        fun h => absurd (show false = true from h) (by decide)⟩
  ⟨hB, hB2, hp, hc,
    (C18_one_bin exampleEnv (exampleIterated 1) (1 / 2) zeroTally hB hB2 hp hc).2.2.2.2.1⟩

/-! ## The report of `Rank_metric_print` -/

theorem tdiv_nonpos_iff (s B : Int) (hB : 1 ≤ B) : s.tdiv B ≤ 0 ↔ s < B := by
  rcases le_or_lt 0 s with h | h
  · rw [Int.tdiv_eq_ediv h (by omega)]
    constructor
    · intro h1
      by_contra h2
      have : 1 ≤ s / B := Int.le_ediv_of_mul_le (by omega) (by omega)
      omega
    · intro h1
      rw [Int.ediv_eq_zero_of_lt h h1]
  · constructor
    · intro _; omega
    · intro _
      have : (-(-s)).tdiv B = -((-s).tdiv B) := Int.neg_tdiv _ _
      rw [neg_neg] at this
      rw [this]
      have := Int.tdiv_nonneg (a := -s) (b := B) (by omega) (by omega)
      omega

theorem expCount_nonpos_iff {D : Type} [LinearOrderedField D] (s B : Int) (hB : 1 ≤ B) :
    expCount (D := D) s B ≤ 0 ↔ s < B := by
  unfold expCount
  rw [Int.cast_nonpos]
  exact tdiv_nonpos_iff s B hB

/-- C19: for `B ≥ 1` bins, `Rank_metric_print` takes the insufficient-data branch exactly
when `sampleCount < B`.  In that case the report line carries no uniformity value,
`uniformity_failure` is set to false, and the whole result is the same whatever function
stands for the incomplete gamma function, so neither that function nor the chi-squared
sum it would be given is used.  Otherwise the report line carries the value of the
incomplete gamma function at `(B - 1) / 2` and half the chi-squared sum, and
`uniformity_failure` is set to true exactly when that value is below the uniformity
level. -/
theorem C19_uniformity {D : Type} [LinearOrderedField D] (fns : MathFns D) (rs : RunState D)
    (sampleCount toolow : Int) (freqPerBin : Int → Int) (hB : 1 ≤ rs.uniformity_bins) :
    (expCount (D := D) sampleCount rs.uniformity_bins ≤ 0 ↔ sampleCount < rs.uniformity_bins) ∧
    ((∃ line, (Rank_metric_print fns rs sampleCount toolow freqPerBin).finalRept
        = rs.finalRept ++ [line] ∧ line.uniformity = none)
      ↔ sampleCount < rs.uniformity_bins) ∧
    (sampleCount < rs.uniformity_bins →
      (Rank_metric_print fns rs sampleCount toolow freqPerBin).uniformity_failure = false ∧
      (∃ line, (Rank_metric_print fns rs sampleCount toolow freqPerBin).finalRept
        = rs.finalRept ++ [line] ∧ line.uniformity = none ∧ line.uniformityMark = false) ∧
      ∀ g, Rank_metric_print { fns with cephes_igamc := g } rs sampleCount toolow freqPerBin
        = Rank_metric_print fns rs sampleCount toolow freqPerBin) ∧
    (rs.uniformity_bins ≤ sampleCount →
      ((Rank_metric_print fns rs sampleCount toolow freqPerBin).uniformity_failure = true
        ↔ fns.cephes_igamc (((rs.uniformity_bins : D) - 1) / 2)
            (metricChi2 sampleCount rs.uniformity_bins freqPerBin / 2)
          < rs.uniformity_level) ∧
      ∃ line, (Rank_metric_print fns rs sampleCount toolow freqPerBin).finalRept
        = rs.finalRept ++ [line] ∧
        line.uniformity = some (fns.cephes_igamc (((rs.uniformity_bins : D) - 1) / 2)
          (metricChi2 sampleCount rs.uniformity_bins freqPerBin / 2)) ∧
        (line.uniformityMark = true
          ↔ fns.cephes_igamc (((rs.uniformity_bins : D) - 1) / 2)
              (metricChi2 sampleCount rs.uniformity_bins freqPerBin / 2)
            < rs.uniformity_level)) := by
  have hiff := expCount_nonpos_iff (D := D) sampleCount rs.uniformity_bins hB
  have hlow : sampleCount < rs.uniformity_bins →
      (Rank_metric_print fns rs sampleCount toolow freqPerBin).uniformity_failure = false ∧
      (∃ line, (Rank_metric_print fns rs sampleCount toolow freqPerBin).finalRept
        = rs.finalRept ++ [line] ∧ line.uniformity = none ∧ line.uniformityMark = false) ∧
      ∀ g, Rank_metric_print { fns with cephes_igamc := g } rs sampleCount toolow freqPerBin
        = Rank_metric_print fns rs sampleCount toolow freqPerBin := by
    intro h
    have he := hiff.2 h
    refine ⟨?_, ⟨_, rfl, ?_, ?_⟩, ?_⟩
    · simp only [Rank_metric_print, if_pos he]
    · simp only [if_pos he]
    · simp only [if_pos he]
    · intro g
      simp only [Rank_metric_print, if_pos he, proportion_threshold_min,
        proportion_threshold_max]
  have hhigh : rs.uniformity_bins ≤ sampleCount →
      ((Rank_metric_print fns rs sampleCount toolow freqPerBin).uniformity_failure = true
        ↔ fns.cephes_igamc (((rs.uniformity_bins : D) - 1) / 2)
            (metricChi2 sampleCount rs.uniformity_bins freqPerBin / 2)
          < rs.uniformity_level) ∧
      ∃ line, (Rank_metric_print fns rs sampleCount toolow freqPerBin).finalRept
        = rs.finalRept ++ [line] ∧
        line.uniformity = some (fns.cephes_igamc (((rs.uniformity_bins : D) - 1) / 2)
          (metricChi2 sampleCount rs.uniformity_bins freqPerBin / 2)) ∧
        (line.uniformityMark = true
          ↔ fns.cephes_igamc (((rs.uniformity_bins : D) - 1) / 2)
              (metricChi2 sampleCount rs.uniformity_bins freqPerBin / 2)
            < rs.uniformity_level) := by
    intro h
    have he : ¬ expCount (D := D) sampleCount rs.uniformity_bins ≤ 0 :=
      fun h1 => absurd (hiff.1 h1) (by omega)
    have hu : metricUniformity fns sampleCount rs.uniformity_bins freqPerBin
        = fns.cephes_igamc (((rs.uniformity_bins : D) - 1) / 2)
            (metricChi2 sampleCount rs.uniformity_bins freqPerBin / 2) := by
      unfold metricUniformity
      rw [if_neg he]
    by_cases hl : fns.cephes_igamc (((rs.uniformity_bins : D) - 1) / 2)
        (metricChi2 sampleCount rs.uniformity_bins freqPerBin / 2) < rs.uniformity_level
    · refine ⟨?_, _, rfl, ?_, ?_⟩
      · simp [Rank_metric_print, he, hu, hl]
      · simp only [if_neg he, hu, if_pos hl]
      · simp [he, hu, hl]
    · refine ⟨?_, _, rfl, ?_, ?_⟩
      · simp [Rank_metric_print, he, hu, hl]
      · simp only [if_neg he, hu, if_neg hl]
      · simp [he, hu, hl]
  refine ⟨hiff, ?_, hlow, hhigh⟩
  constructor
  · rintro ⟨line, h1, h2⟩
    by_contra hn
    obtain ⟨_, line2, h3, h4, _⟩ := hhigh (by omega)
    have := List.append_cancel_left (h1.symm.trans h3)
    have e : line = line2 := by
      injection this
    rw [e, h4] at h2
    exact Option.noConfusion h2
  · intro h
    obtain ⟨_, ⟨line, h1, h2, _⟩, _⟩ := hlow h
    exact ⟨line, h1, h2⟩

/-- An instance of the uniformity theorem: ten bins, as in the example run. -/
theorem C19_uniformity_witness :
    1 ≤ (exampleIterated 1).uniformity_bins ∧
    (expCount (D := ℚ) 9 (exampleIterated 1).uniformity_bins ≤ 0
      ↔ (9 : Int) < (exampleIterated 1).uniformity_bins) :=
  ⟨by decide,
    (C19_uniformity exampleFns (exampleIterated 1) 9 0 (fun _ => 0) (by decide)).1⟩

/-- C20: `Rank_metric_print` uses `passCount = max(0, sampleCount - toolow)`, and `0` when
`sampleCount ≤ 0`.  With `sampleCount = 0` it sets `proportional_failure` to false and
reports no proportion; with `sampleCount > 0` it reports `passCount` of `sampleCount` and
sets `proportional_failure` to true exactly when `passCount` is below
`(1 - alpha - 3 * sqrt((1 - alpha) * alpha / sampleCount)) * sampleCount` or above
`(1 - alpha + 3 * sqrt((1 - alpha) * alpha / sampleCount)) * sampleCount`, in the
arithmetic of the ordered field that stands for `double`. -/
theorem C20_proportion {D : Type} [LinearOrderedField D] (fns : MathFns D) (rs : RunState D)
    (sampleCount toolow : Int) (freqPerBin : Int → Int) :
    (passCount sampleCount toolow
      = if sampleCount ≤ 0 then 0 else max 0 (sampleCount - toolow)) ∧
    (sampleCount = 0 →
      (Rank_metric_print fns rs sampleCount toolow freqPerBin).proportional_failure = false ∧
      ∃ line, (Rank_metric_print fns rs sampleCount toolow freqPerBin).finalRept
        = rs.finalRept ++ [line] ∧ line.proportion = none ∧ line.proportionMark = false) ∧
    (0 < sampleCount →
      ((Rank_metric_print fns rs sampleCount toolow freqPerBin).proportional_failure = true
        ↔ ((passCount sampleCount toolow : Int) : D)
            < (1 - rs.alpha - 3 * fns.sqrt ((1 - rs.alpha) * rs.alpha / (sampleCount : D)))
              * (sampleCount : D)
          ∨ ((passCount sampleCount toolow : Int) : D)
            > (1 - rs.alpha + 3 * fns.sqrt ((1 - rs.alpha) * rs.alpha / (sampleCount : D)))
              * (sampleCount : D)) ∧
      ∃ line, (Rank_metric_print fns rs sampleCount toolow freqPerBin).finalRept
        = rs.finalRept ++ [line] ∧
        line.proportion = some (passCount sampleCount toolow, sampleCount) ∧
        line.proportionMark
          = (Rank_metric_print fns rs sampleCount toolow freqPerBin).proportional_failure) := by
  refine ⟨?_, ?_, ?_⟩
  · unfold passCount
    by_cases h1 : sampleCount ≤ 0
    · rw [if_pos (Or.inl h1), if_pos h1]
    · rw [if_neg h1]
      by_cases h2 : sampleCount < toolow
      · rw [if_pos (Or.inr h2), max_eq_left (by omega)]
      · rw [if_neg (by rintro (h | h) <;> omega), max_eq_right (by omega)]
  · intro h
    refine ⟨?_, _, rfl, ?_, ?_⟩
    · simp only [Rank_metric_print, if_pos h]
    · simp only [if_pos h]
    · simp only [if_pos h]
  · intro h
    have hne : ¬ sampleCount = 0 := by omega
    have hmin : proportion_threshold_min fns rs.alpha sampleCount
        = (1 - rs.alpha - 3 * fns.sqrt ((1 - rs.alpha) * rs.alpha / (sampleCount : D)))
          * (sampleCount : D) := rfl
    have hmax : proportion_threshold_max fns rs.alpha sampleCount
        = (1 - rs.alpha + 3 * fns.sqrt ((1 - rs.alpha) * rs.alpha / (sampleCount : D)))
          * (sampleCount : D) := rfl
    rw [← hmin, ← hmax]
    by_cases hf : ((passCount sampleCount toolow : Int) : D)
          < proportion_threshold_min fns rs.alpha sampleCount
        ∨ ((passCount sampleCount toolow : Int) : D)
          > proportion_threshold_max fns rs.alpha sampleCount
    · refine ⟨?_, _, rfl, ?_, ?_⟩
      · simp only [Rank_metric_print, if_neg hne, if_pos hf]
        exact ⟨fun _ => hf, fun _ => trivial⟩
      · simp only [if_neg hne, if_pos hf]
      · simp only [Rank_metric_print, if_neg hne, if_pos hf]
    · refine ⟨?_, _, rfl, ?_, ?_⟩
      · simp only [Rank_metric_print, if_neg hne, if_neg hf]
        exact ⟨fun h1 => absurd h1 (by decide), fun h1 => absurd h1 hf⟩
      · simp only [if_neg hne, if_neg hf]
      · simp only [Rank_metric_print, if_neg hne, if_neg hf]

/-! ## The two collections of `Rank_iterate` -/

/-- An accepted call of `Rank_iterate` appends one record and one p-value, the sentinel
when the record has `test_possible = false`, and leaves a state that accepts the next
call. -/
theorem Rank_iterate_appends {D : Type} [LinearOrderedField D] (env : Env D)
    (state : State D) (epsilon : Nat → Nat) (matrix : BitMatrix)
    (ha : Accepted state epsilon matrix) :
    ∃ state' stat p, Rank_iterate env state = Except.ok state' ∧
      state'.stats = state.stats ++ [stat] ∧ state'.p_val = state.p_val ++ [p] ∧
      (stat.test_possible = false → p = env.NON_P_VALUE) ∧
      state'.testVector = true ∧ state'.cSetup = true ∧
      (∃ m, state'.rank_matrix = some m) ∧
      state'.driver_state = DriverState.DRIVER_ITERATE := by
  obtain ⟨hv, he, hm, hc, hd⟩ := ha
  have hd2 : ¬ (state.driver_state ≠ DriverState.DRIVER_INIT
      ∧ state.driver_state ≠ DriverState.DRIVER_ITERATE) := by
    rintro ⟨h1, h2⟩
    rcases hd with h | h
    · exact h1 h
    · exact h2 h
  unfold Rank_iterate
  rw [if_neg (by rw [hv]; exact fun h => h rfl), he, hm]
  simp only []
  rw [if_neg (by rw [hc]; exact fun h => h rfl), if_neg hd2]
  by_cases h0 : state.matrix_count = 0
  · rw [if_pos h0]
    simp only [Bool.false_eq_true, if_false]
    exact ⟨_, _, _, rfl, rfl, rfl, fun _ => rfl, hv, hc, ⟨_, rfl⟩, rfl⟩
  · rw [if_neg h0]
    simp only [if_true]
    have ht : ∀ b : Bool, ({ testableStat env state epsilon
        (zeroize env.RANK_ROWS env.RANK_COLS matrix) with success := b }
          : Rank_private_stats D).test_possible = false → 
        pValue env state epsilon (zeroize env.RANK_ROWS env.RANK_COLS matrix)
          = env.NON_P_VALUE := by
      intro b h
      exact absurd (show true = false from h) (by decide)
    split_ifs
    · exact ⟨_, _, _, rfl, rfl, rfl, ht false, hv, hc, ⟨_, rfl⟩, rfl⟩
    · exact ⟨_, _, _, rfl, rfl, rfl, ht false, hv, hc, ⟨_, rfl⟩, rfl⟩
    · exact ⟨_, _, _, rfl, rfl, rfl, ht false, hv, hc, ⟨_, rfl⟩, rfl⟩
    · exact ⟨_, _, _, rfl, rfl, rfl, ht true, hv, hc, ⟨_, rfl⟩, rfl⟩

/-- The run over a list of streams, from a state that accepts the first call: what it
appends to the two collections. -/
theorem iterateStreams_appends {D : Type} [LinearOrderedField D] (env : Env D) :
    ∀ (streams : List (Nat → Nat)) (state : State D),
      state.testVector = true → state.cSetup = true → (∃ m, state.rank_matrix = some m) →
      (state.driver_state = DriverState.DRIVER_INIT
        ∨ state.driver_state = DriverState.DRIVER_ITERATE) →
      ∃ state' newStats newP, iterateStreams env streams state = Except.ok state' ∧
        state'.stats = state.stats ++ newStats ∧ state'.p_val = state.p_val ++ newP ∧
        newStats.length = streams.length ∧ newP.length = streams.length ∧
        (∀ k, k ≤ streams.length → ∃ sk, iterateStreams env (streams.take k) state
            = Except.ok sk ∧
          sk.stats = state.stats ++ newStats.take k ∧ sk.p_val = state.p_val ++ newP.take k) ∧
        SentinelAt env newStats newP := by
  intro streams
  induction streams with
  | nil =>
    intro state _ _ _ _
    refine ⟨state, [], [], rfl, by simp, by simp, rfl, rfl, ?_, ?_⟩
    · intro k _
      exact ⟨state, by simp [iterateStreams], by simp, by simp⟩
    · intro i stat h
      simp at h
  | cons e es ih =>
    intro state hv hc hm hd
    obtain ⟨m, hm⟩ := hm
    obtain ⟨s1, stat, p, hrun, hs, hp, hsent, hv1, hc1, hm1, hd1⟩ :=
      Rank_iterate_appends env { state with epsilon := some e } e m ⟨hv, rfl, hm, hc, hd⟩
    obtain ⟨s2, ns, np, hrun2, hs2, hp2, hl1, hl2, hk, hsent2⟩ :=
      ih s1 hv1 hc1 hm1 (Or.inr hd1)
    have hstep : ∀ l, iterateStreams env (e :: l) state = iterateStreams env l s1 := by
      intro l
      show (match Rank_iterate env { state with epsilon := some e } with
        | Except.error x => Except.error x
        | Except.ok state1 => iterateStreams env l state1) = _
      rw [hrun]
    refine ⟨s2, stat :: ns, p :: np, ?_, ?_, ?_, by simp [hl1], by simp [hl2], ?_, ?_⟩
    · rw [hstep, hrun2]
    · rw [hs2, hs]
      show (state.stats ++ [stat]) ++ ns = _
      simp
    · rw [hp2, hp]
      show (state.p_val ++ [p]) ++ np = _
      simp
    · intro k hk1
      cases k with
      | zero => exact ⟨state, rfl, by simp, by simp⟩
      | succ k =>
        obtain ⟨sk, h1, h2, h3⟩ := hk k (by simpa using hk1)
        refine ⟨sk, ?_, ?_, ?_⟩
        · rw [List.take_succ_cons, hstep, h1]
        · rw [h2, hs]
          show (state.stats ++ [stat]) ++ ns.take k = _
          simp
        · rw [h3, hp]
          show (state.p_val ++ [p]) ++ np.take k = _
          simp
    · intro i st h ht
      cases i with
      | zero =>
        have e1 : stat = st := by simpa using h
        rw [← e1] at ht
        simp [hsent ht]
      | succ i =>
        have h1 : ns.get? i = some st := by simpa using h
        simpa using hsent2 i st h1 ht

theorem sentinelAt_append {D : Type} (env : Env D) (a c : List (Rank_private_stats D))
    (b d : List D) (hl : a.length = b.length) (h1 : SentinelAt env a b)
    (h2 : SentinelAt env c d) : SentinelAt env (a ++ c) (b ++ d) := by
  intro i stat h ht
  by_cases hi : i < a.length
  · have e1 : (a ++ c).get? i = a.get? i := by
      simp [List.getElem?_append_left hi]
    have e2 : (b ++ d).get? i = b.get? i := by
      simp [List.getElem?_append_left (show i < b.length by omega)]
    rw [e2]
    exact h1 i stat (by rw [← e1]; exact h) ht
  · have e1 : (a ++ c).get? i = c.get? (i - a.length) := by
      simp [List.getElem?_append_right (show a.length ≤ i by omega)]
    have e2 : (b ++ d).get? i = d.get? (i - a.length) := by
      simp [List.getElem?_append_right (show b.length ≤ i by omega), hl]
    rw [e2]
    exact h2 (i - a.length) stat (by rw [← e1]; exact h) ht

/-- C21: from a state that accepts `Rank_iterate` for an active test and whose two
collections correspond by index, the calls of `Rank_iterate` for `n` streams, testable
or not, all return normally; each call appends exactly one record and one p-value and
changes no earlier entry, so the collections after `k` calls are those after all `n`
calls cut to `k` new entries; in the end both have grown by `n` (from empty: both have
length `n`), they have the same length, and the p-value at an index is the sentinel
`NON_P_VALUE` whenever the record at that index has `test_possible = false`. -/
theorem C21_parallel_collections {D : Type} [LinearOrderedField D] (env : Env D)
    (streams : List (Nat → Nat)) (state : State D)
    (hv : state.testVector = true) (hc : state.cSetup = true)
    (hm : ∃ m, state.rank_matrix = some m)
    (hd : state.driver_state = DriverState.DRIVER_INIT
      ∨ state.driver_state = DriverState.DRIVER_ITERATE)
    (hl : state.stats.length = state.p_val.length)
    (hs : SentinelAt env state.stats state.p_val) :
    ∃ state' newStats newP, iterateStreams env streams state = Except.ok state' ∧
      state'.stats = state.stats ++ newStats ∧ state'.p_val = state.p_val ++ newP ∧
      newStats.length = streams.length ∧ newP.length = streams.length ∧
      (∀ k, k ≤ streams.length → ∃ sk, iterateStreams env (streams.take k) state
          = Except.ok sk ∧
        sk.stats = state.stats ++ newStats.take k ∧ sk.p_val = state.p_val ++ newP.take k) ∧
      state'.stats.length = state'.p_val.length ∧
      SentinelAt env state'.stats state'.p_val ∧
      (state.stats = [] → state.p_val = [] →
        state'.stats.length = streams.length ∧ state'.p_val.length = streams.length) := by
  obtain ⟨state', ns, np, hrun, h1, h2, h3, h4, h5, h6⟩ :=
    iterateStreams_appends env streams state hv hc hm hd
  refine ⟨state', ns, np, hrun, h1, h2, h3, h4, h5, ?_, ?_, ?_⟩
  · rw [h1, h2, List.length_append, List.length_append, h3, h4, hl]
  · rw [h1, h2]
    exact sentinelAt_append env _ _ _ _ hl hs h6
  · intro e1 e2
    rw [h1, h2, e1, e2]
    exact ⟨by simpa using h3, by simpa using h4⟩

/-- An instance of the theorem on the two collections: the example state with matrix
count 0, just after `Rank_init`, and two streams. -/
theorem C21_parallel_collections_witness :
    (exampleState 0).testVector = true ∧ (exampleState 0).cSetup = true ∧
    (∃ m, (exampleState 0).rank_matrix = some m) ∧
    ((exampleState 0).driver_state = DriverState.DRIVER_INIT
      ∨ (exampleState 0).driver_state = DriverState.DRIVER_ITERATE) ∧
    (exampleState 0).stats.length = (exampleState 0).p_val.length ∧
    SentinelAt exampleEnv (exampleState 0).stats (exampleState 0).p_val ∧
    ∃ state', iterateStreams exampleEnv [fun _ => 0, fun _ => 1] (exampleState 0)
        = Except.ok state' ∧
      state'.stats.length = state'.p_val.length :=
  have hs : SentinelAt exampleEnv (exampleState 0).stats (exampleState 0).p_val :=
    fun _ _ h => Option.noConfusion h
  ⟨rfl, rfl, ⟨zeroMatrix, rfl⟩, Or.inl rfl, rfl, hs,
    (C21_parallel_collections exampleEnv [fun _ => 0, fun _ => 1] (exampleState 0) rfl rfl
      ⟨zeroMatrix, rfl⟩ (Or.inl rfl) rfl hs).elim
      (fun state' h => h.elim (fun _ h => h.elim (fun _ h => ⟨state', h.1, h.2.2.2.2.2.2.1⟩)))⟩

/-! ## The matrix left in place by `computeRank` -/

/-- C22 as stated fails: for the 2 by 2 bit matrix with rows `0 1` and `0 0`,
`computeRank` leaves the rows `0 0` and `0 1` in place, an all-zero row above a non-zero
row, which is not row-echelon form. -/
theorem C22_zero_row_on_top_counterexample :
    Bits 2 2 (ofRows [[0, 1], [0, 0]]) ∧
    (∀ r, r < 2 → ∀ c, c < 2 →
      eliminate 2 2 (ofRows [[0, 1], [0, 0]]) r c = ofRows [[0, 0], [0, 1]] r c) ∧
    leading 2 (eliminate 2 2 (ofRows [[0, 1], [0, 0]])) 0 = none ∧
    leading 2 (eliminate 2 2 (ofRows [[0, 1], [0, 0]])) 1 = some 1 ∧
    isRowEchelon 2 2 (eliminate 2 2 (ofRows [[0, 1], [0, 0]])) = false := by
  refine ⟨by decide, by decide, by decide, by decide, by decide⟩

/-- C22, amended: for every `M` by `Q` bit matrix, the matrix left in place by
`computeRank` is a bit matrix that, over its first `m = min M Q` rows and columns, is
lower triangular with a unit or vanishing diagonal: row `r` has no non-zero cell to the
right of column `r`, and it either has a 1 in column `r` or is zero in all `m` columns.
An all-zero row may lie above a non-zero row. -/
theorem C22_lower_unit_form (M Q : Nat) (A : BitMatrix) (hb : Bits M Q A) :
    Bits M Q (eliminate M Q A) ∧
    (∀ r, r < min M Q →
      (∀ c, r < c → c < min M Q → eliminate M Q A r c = 0) ∧
      (eliminate M Q A r r = 1 ∨ ∀ c, c < min M Q → eliminate M Q A r c = 0)) :=
  ⟨(eliminate_inv hb).1, eliminate_lowerUnit hb⟩

/-- An instance of the amended theorem: the 2 by 2 matrix with rows `0 1` and `0 0`. -/
theorem C22_lower_unit_form_witness :
    Bits 2 2 (ofRows [[0, 1], [0, 0]]) ∧ Bits 2 2 (eliminate 2 2 (ofRows [[0, 1], [0, 0]])) :=
  ⟨by decide, (C22_lower_unit_form 2 2 (ofRows [[0, 1], [0, 0]]) (by decide)).1⟩

/-- C23 as stated fails for the backward pass: at pivot `i = 2` of the 3 by 3 matrix with
rows `1 0 1`, `0 1 1`, `0 0 0`, which the forward pass leaves as it is, both row 0 and
row 1 have a 1 in column 2; `find_unit_element_and_swap` exchanges row 2 with row 1, the
highest-index candidate, and leaves row 0, the lowest-index candidate, where it was. -/
theorem C23_backward_picks_highest_counterexample :
    (∀ r, r < 3 → ∀ c, c < 3 →
      forwardPass 3 3 (ofRows [[1, 0, 1], [0, 1, 1], [0, 0, 0]]) r c
        = ofRows [[1, 0, 1], [0, 1, 1], [0, 0, 0]] r c) ∧
    ofRows [[1, 0, 1], [0, 1, 1], [0, 0, 0]] 0 2 = 1 ∧
    ofRows [[1, 0, 1], [0, 1, 1], [0, 0, 0]] 1 2 = 1 ∧
    (find_unit_element_and_swap MATRIX_BACKWARD_ELIMINATION 2 3 3
      (ofRows [[1, 0, 1], [0, 1, 1], [0, 0, 0]])).1 = 1 ∧
    (∀ r, r < 3 → ∀ c, c < 3 →
      (find_unit_element_and_swap MATRIX_BACKWARD_ELIMINATION 2 3 3
        (ofRows [[1, 0, 1], [0, 1, 1], [0, 0, 0]])).2 r c
        = ofRows [[1, 0, 1], [0, 0, 0], [0, 1, 1]] r c) := by
  refine ⟨by decide, by decide, by decide, by decide, by decide⟩

/-- C23, amended: `find_unit_element_and_swap` picks the candidate nearest to row `i`.
In the forward pass it exchanges row `i` with the lowest-index row among `i+1 .. M-1`
that has a non-zero cell (for a bit matrix: a 1) in column `i`; in the backward pass it
exchanges row `i` with the highest-index row among `0 .. i-1` that has one.  In both
passes, when no candidate has a non-zero cell in column `i`, it returns 0 and leaves the
matrix unchanged. -/
theorem C23_search_order (i M Q : Nat) (A : BitMatrix) :
    ((∃ idx, i < idx ∧ idx < M ∧ A idx i ≠ 0 ∧ (∀ t, i < t → t < idx → A t i = 0) ∧
        find_unit_element_and_swap MATRIX_FORWARD_ELIMINATION i M Q A
          = (1, swapped i idx Q A)) ∨
      ((∀ t, i < t → t < M → A t i = 0) ∧
        find_unit_element_and_swap MATRIX_FORWARD_ELIMINATION i M Q A = (0, A))) ∧
    ((∃ idx, idx < i ∧ A idx i ≠ 0 ∧ (∀ t, idx < t → t < i → A t i = 0) ∧
        find_unit_element_and_swap MATRIX_BACKWARD_ELIMINATION i M Q A
          = (1, swapped i idx Q A)) ∨
      ((∀ t, t < i → A t i = 0) ∧
        find_unit_element_and_swap MATRIX_BACKWARD_ELIMINATION i M Q A = (0, A))) ∧
    (∀ idx, Bits M Q A → idx < M → i < Q → (A idx i ≠ 0 ↔ A idx i = 1)) := by
  have hf : ¬ (MATRIX_BACKWARD_ELIMINATION = MATRIX_FORWARD_ELIMINATION) := by decide
  refine ⟨?_, ?_, ?_⟩
  · obtain ⟨s1, s2, s3, s4⟩ := scanDown_spec A i (M - (i + 1)) (i + 1)
    by_cases hidx : scanDown A i (M - (i + 1)) (i + 1) < M
    · left
      have hM : i + 1 + (M - (i + 1)) = M := by omega
      rw [hM] at s4
      refine ⟨scanDown A i (M - (i + 1)) (i + 1), by omega, hidx, s4 hidx,
        fun t h2 h3 => s3 t (by omega) h3, ?_⟩
      simp only [find_unit_element_and_swap, if_pos hidx, if_true]
      exact Prod.ext (swap_rows_fst _ _ _ _) (swap_rows_snd _ _ _ _)
    · right
      refine ⟨fun t h2 h3 => s3 t (by omega) (by omega), ?_⟩
      simp only [find_unit_element_and_swap, if_neg hidx, if_true]
  · cases hs : scanUp A i i with
    | none =>
      right
      refine ⟨scanUp_none A i i hs, ?_⟩
      simp only [find_unit_element_and_swap, if_neg hf, hs]
    | some idx =>
      left
      obtain ⟨h1, h2, h3⟩ := scanUp_some A i i idx hs
      refine ⟨idx, h1, h2, h3, ?_⟩
      simp only [find_unit_element_and_swap, if_neg hf, hs]
      exact Prod.ext (swap_rows_fst _ _ _ _) (swap_rows_snd _ _ _ _)
  · intro idx hb h1 h2
    rcases bit_cases hb h1 h2 with h | h
    · simp [h]
    · simp [h]

/-- C24 as stated fails: for the 3 by 3 bit matrix with rows `0 0 1`, `0 1 1`, `0 0 0`,
`computeRank` leaves the rows `0 0 0`, `0 1 0`, `0 1 1` in place, and a second
`computeRank` on that matrix leaves `0 0 0`, `0 1 0`, `0 0 1`: cell `(2, 1)` goes from
1 to 0. -/
theorem C24_cells_change_counterexample :
    Bits 3 3 (ofRows [[0, 0, 1], [0, 1, 1], [0, 0, 0]]) ∧
    (∀ r, r < 3 → ∀ c, c < 3 →
      eliminate 3 3 (ofRows [[0, 0, 1], [0, 1, 1], [0, 0, 0]]) r c
        = ofRows [[0, 0, 0], [0, 1, 0], [0, 1, 1]] r c) ∧
    (∀ r, r < 3 → ∀ c, c < 3 →
      eliminate 3 3 (eliminate 3 3 (ofRows [[0, 0, 1], [0, 1, 1], [0, 0, 0]])) r c
        = ofRows [[0, 0, 0], [0, 1, 0], [0, 0, 1]] r c) ∧
    eliminate 3 3 (ofRows [[0, 0, 1], [0, 1, 1], [0, 0, 0]]) 2 1 = 1 ∧
    eliminate 3 3 (eliminate 3 3 (ofRows [[0, 0, 1], [0, 1, 1], [0, 0, 0]])) 2 1 = 0 := by
  have h1 : AgreeOn 3 3 (eliminate 3 3 (ofRows [[0, 0, 1], [0, 1, 1], [0, 0, 0]]))
      (ofRows [[0, 0, 0], [0, 1, 0], [0, 1, 1]]) := by
    unfold AgreeOn
    decide
  have h2 : AgreeOn 3 3 (eliminate 3 3 (ofRows [[0, 0, 0], [0, 1, 0], [0, 1, 1]]))
      (ofRows [[0, 0, 0], [0, 1, 0], [0, 0, 1]]) := by
    unfold AgreeOn
    decide
  have h3 : ∀ r, r < 3 → ∀ c, c < 3 →
      eliminate 3 3 (eliminate 3 3 (ofRows [[0, 0, 1], [0, 1, 1], [0, 0, 0]])) r c
        = ofRows [[0, 0, 0], [0, 1, 0], [0, 0, 1]] r c :=
    fun r hr c hc => (agree_eliminate h1 r hr c hc).trans (h2 r hr c hc)
  exact ⟨by decide, h1, h3, h1 2 (by decide) 1 (by decide), h3 2 (by decide) 1 (by decide)⟩

/-- C24, amended: for every `M` by `Q` bit matrix `A`, running `computeRank` on the
matrix left in place by `computeRank(A)` returns the same rank, and the matrix the second
run leaves has the same number of all-zero rows, the same row space over GF(2) and the
same lower triangular form over its first `min M Q` rows and columns; single cells may
change. -/
theorem C24_second_run_keeps_rank (M Q : Nat) (A : BitMatrix) (hb : Bits M Q A) :
    computeRank M Q (eliminate M Q A) = computeRank M Q A ∧
    zeroCount M Q (eliminate M Q (eliminate M Q A)) = zeroCount M Q (eliminate M Q A) ∧
    rowSpan M Q (eliminate M Q (eliminate M Q A)) = rowSpan M Q (eliminate M Q A) ∧
    Bits M Q (eliminate M Q (eliminate M Q A)) ∧
    LowerUnit (min M Q) (eliminate M Q (eliminate M Q A)) := by
  have hb1 := (eliminate_inv hb).1
  have hg := good_of_eliminate hb
  refine ⟨?_, (good_eliminate hg).2, rowSpan_eliminate hb1, (eliminate_inv hb1).1,
    eliminate_lowerUnit hb1⟩
  rw [computeRank_eq, computeRank_eq, (good_eliminate hg).2]

/-- An instance of the amended theorem: the 3 by 3 matrix of the counterexample. -/
theorem C24_second_run_keeps_rank_witness :
    Bits 3 3 (ofRows [[0, 0, 1], [0, 1, 1], [0, 0, 0]]) ∧
    computeRank 3 3 (eliminate 3 3 (ofRows [[0, 0, 1], [0, 1, 1], [0, 0, 0]]))
      = computeRank 3 3 (ofRows [[0, 0, 1], [0, 1, 1], [0, 0, 0]]) :=
  ⟨by decide,
    (C24_second_run_keeps_rank 3 3 (ofRows [[0, 0, 1], [0, 1, 1], [0, 0, 0]]) (by decide)).1⟩

/-! ## `computeRank` and its full-row variant -/

theorem full_loop_apply (i Q lo n : Nat) (hlo : i < lo) (A : BitMatrix) :
    ∀ r c, forUp lo n (fun j B => if B j i = 1 then forUp 0 Q (addCell i j) B else B) A r c
      = if (lo ≤ r ∧ r < lo + n ∧ A r i = 1) ∧ c < Q
          then (A r c + A i c) % 2 else A r c := by
  induction n with
  | zero =>
    intro r c
    have h : ¬ ((lo ≤ r ∧ r < lo + 0 ∧ A r i = 1) ∧ c < Q) := by omega
    rw [if_neg h]; rfl
  | succ n ih =>
    intro r c
    rw [forUp_succ]
    have hB1 : ∀ c, forUp lo n (fun j B => if B j i = 1 then forUp 0 Q (addCell i j) B else B)
        A (lo + n) c = A (lo + n) c := by
      intro c; rw [ih]
      have h : ¬ ((lo ≤ lo + n ∧ lo + n < lo + n ∧ A (lo + n) i = 1) ∧ c < Q) := by omega
      rw [if_neg h]
    have hBi : ∀ c, forUp lo n (fun j B => if B j i = 1 then forUp 0 Q (addCell i j) B else B)
        A i c = A i c := by
      intro c; rw [ih]
      have h : ¬ ((lo ≤ i ∧ i < lo + n ∧ A i i = 1) ∧ c < Q) := by omega
      rw [if_neg h]
    simp only [hB1]
    by_cases hT : A (lo + n) i = 1
    · rw [if_pos hT, add_loop_apply i (lo + n) 0 Q (by omega)]
      by_cases hr : r = lo + n
      · subst hr
        simp only [hB1, hBi]
        by_cases hc : c < Q
        · have h1 : True ∧ 0 ≤ c ∧ c < 0 + Q := ⟨trivial, by omega, by omega⟩
          have h2 : (lo ≤ lo + n ∧ lo + n < lo + (n + 1) ∧ A (lo + n) i = 1) ∧ c < Q :=
            ⟨⟨by omega, by omega, hT⟩, hc⟩
          rw [if_pos h1, if_pos h2]
        · have h1 : ¬ (True ∧ 0 ≤ c ∧ c < 0 + Q) := by omega
          have h2 : ¬ ((lo ≤ lo + n ∧ lo + n < lo + (n + 1) ∧ A (lo + n) i = 1) ∧ c < Q) :=
            fun h => hc h.2
          rw [if_neg h1, if_neg h2]
      · have h1 : ¬ (r = lo + n ∧ 0 ≤ c ∧ c < 0 + Q) := fun h => hr h.1
        rw [if_neg h1, ih]
        have h2 : ((lo ≤ r ∧ r < lo + n ∧ A r i = 1) ∧ c < Q) ↔
            ((lo ≤ r ∧ r < lo + (n + 1) ∧ A r i = 1) ∧ c < Q) := by
          constructor
          · rintro ⟨⟨a, b, d⟩, e⟩; exact ⟨⟨a, by omega, d⟩, e⟩
          · rintro ⟨⟨a, b, d⟩, e⟩; exact ⟨⟨a, by omega, d⟩, e⟩
        simp only [h2]
    · rw [if_neg hT, ih]
      have h2 : ((lo ≤ r ∧ r < lo + n ∧ A r i = 1) ∧ c < Q) ↔
          ((lo ≤ r ∧ r < lo + (n + 1) ∧ A r i = 1) ∧ c < Q) := by
        constructor
        · rintro ⟨⟨a, b, d⟩, e⟩; exact ⟨⟨a, by omega, d⟩, e⟩
        · rintro ⟨⟨a, b, d⟩, e⟩
          refine ⟨⟨a, ?_, d⟩, e⟩
          have : r ≠ lo + n := fun h => hT (h ▸ d)
          omega
      simp only [h2]

/-- The forward elimination on full rows adds row `i` into the rows of `fwdT`. -/
theorem fullRow_fwd (i M Q : Nat) (A : BitMatrix) :
    fullRowOperations MATRIX_FORWARD_ELIMINATION i M Q A = xorRows (fwdT i M A) i Q A := by
  funext r c
  unfold fullRowOperations
  rw [if_pos rfl, full_loop_apply i Q (i + 1) (M - (i + 1)) (by omega)]
  unfold xorRows fwdT
  by_cases hT : (i < r ∧ r < M ∧ A r i = 1) ∧ c < Q
  · rw [if_pos ⟨⟨by omega, by omega, hT.1.2.2⟩, hT.2⟩, if_pos hT]
  · rw [if_neg (fun h => hT ⟨⟨by omega, by omega, h.1.2.2⟩, h.2⟩), if_neg hT]

/-- The two ways the forward search can go. -/
theorem find_fwd_cases (i M Q : Nat) (A : BitMatrix) :
    (∃ idx, i < idx ∧ idx < M ∧
      find_unit_element_and_swap MATRIX_FORWARD_ELIMINATION i M Q A = (1, swapped i idx Q A)) ∨
    find_unit_element_and_swap MATRIX_FORWARD_ELIMINATION i M Q A = (0, A) := by
  obtain ⟨s1, _, _, _⟩ := scanDown_spec A i (M - (i + 1)) (i + 1)
  by_cases hidx : scanDown A i (M - (i + 1)) (i + 1) < M
  · left
    refine ⟨scanDown A i (M - (i + 1)) (i + 1), by omega, hidx, ?_⟩
    simp only [find_unit_element_and_swap, if_pos hidx, if_true]
    exact Prod.ext (swap_rows_fst _ _ _ _) (swap_rows_snd _ _ _ _)
  · right
    simp only [find_unit_element_and_swap, if_neg hidx, if_true]

/-- On a bit matrix cleared below the diagonal before column `i`, the forward pivot step
on partial rows is the forward pivot step on full rows. -/
theorem pivotStepFull_fwd {M Q i : Nat} {B : BitMatrix} (hb : Bits M Q B)
    (hf : FwdInv i M B) (hiM : i < M) :
    pivotStepFull MATRIX_FORWARD_ELIMINATION M Q i B
      = pivotStep MATRIX_FORWARD_ELIMINATION M Q i B := by
  have h01 : ¬ ((0 : Nat) = 1) := by decide
  unfold pivotStepFull pivotStep
  by_cases h1 : B i i = 1
  · rw [if_pos h1, if_pos h1, fullRow_fwd, perform_fwd i M Q B hb (fun c hc => hf c hc i hc hiM)]
  · rw [if_neg h1, if_neg h1]
    rcases find_fwd_cases i M Q B with ⟨idx, h2, h3, h4⟩ | h4
    · simp only [h4, if_true]
      rw [fullRow_fwd, perform_fwd i M Q _ (bits_swapped hb hiM h3)
        (fun c hc => fwdInv_swapped hf h2 h3 c hc i hc hiM)]
    · simp only [h4, if_neg h01]

theorem pivotStepFull_bwd (M Q i : Nat) (B : BitMatrix) :
    pivotStepFull MATRIX_BACKWARD_ELIMINATION M Q i B
      = pivotStep MATRIX_BACKWARD_ELIMINATION M Q i B := by
  have hf : ¬ (MATRIX_BACKWARD_ELIMINATION = MATRIX_FORWARD_ELIMINATION) := by decide
  simp only [pivotStepFull, pivotStep, fullRowOperations, perform_elementary_row_operations,
    if_neg hf]

/-- The matrix before forward step `i` is a bit matrix cleared below the diagonal before
column `i`. -/
theorem forward_steps_inv {M Q : Nat} {A : BitMatrix} (hb : Bits M Q A) (i : Nat)
    (hi : i < min M Q) :
    Bits M Q (forUp 0 i (pivotStep MATRIX_FORWARD_ELIMINATION M Q) A) ∧
      FwdInv i M (forUp 0 i (pivotStep MATRIX_FORWARD_ELIMINATION M Q) A) := by
  refine forUp_induct (fun k B => Bits M Q B ∧ FwdInv k M B) _ i A
    ⟨hb, fun c hc => absurd hc (by omega)⟩ ?_
  rintro k B hk ⟨b1, b2⟩
  exact fwd_step_inv b1 b2 (by omega) (by omega)

theorem eliminateFull_eq {M Q : Nat} {A : BitMatrix} (hb : Bits M Q A) :
    eliminateFull M Q A = eliminate M Q A := by
  have hfw : forUp 0 (min M Q - 1) (pivotStepFull MATRIX_FORWARD_ELIMINATION M Q) A
      = forwardPass M Q A :=
    (forwardPass_induct
      (fun i B => forUp 0 i (pivotStepFull MATRIX_FORWARD_ELIMINATION M Q) A = B) M Q A hb rfl
      (fun i B hi b1 b2 b3 => by
        show forUp 0 (i + 1) (pivotStepFull MATRIX_FORWARD_ELIMINATION M Q) A = _
        rw [forUp_succ, Nat.zero_add, b3, pivotStepFull_fwd b1 b2 (by omega)])).2.2
  have hbw : (fun t B => pivotStepFull MATRIX_BACKWARD_ELIMINATION M Q (t + 1) B)
      = (fun t B => pivotStep MATRIX_BACKWARD_ELIMINATION M Q (t + 1) B) := by
    funext t B
    exact pivotStepFull_bwd M Q (t + 1) B
  unfold eliminateFull eliminate backwardPass
  rw [hfw, hbw]

/-- C25: for every `M` by `Q` bit matrix, at each forward pivot step `i` of `computeRank`
row `i` of the matrix at hand is zero in every column before `i`, and the step, swap
included, gives exactly the same matrix as the step that adds row `i` over all the
columns `0 .. Q-1`; `swap_rows` exchanges the two rows over all the columns; hence the
matrix left in place and the rank returned by `computeRank` are those of the variant
that XORs full rows. -/
theorem C25_full_row_refinement (M Q : Nat) (A : BitMatrix) (hb : Bits M Q A) :
    (∀ i, i + 1 < min M Q →
      (∀ c, c < i → forUp 0 i (pivotStep MATRIX_FORWARD_ELIMINATION M Q) A i c = 0) ∧
      pivotStep MATRIX_FORWARD_ELIMINATION M Q i
          (forUp 0 i (pivotStep MATRIX_FORWARD_ELIMINATION M Q) A)
        = pivotStepFull MATRIX_FORWARD_ELIMINATION M Q i
            (forUp 0 i (pivotStep MATRIX_FORWARD_ELIMINATION M Q) A)) ∧
    (∀ i B, Bits M Q B → (∀ c, c < i → B i c = 0) →
      perform_elementary_row_operations MATRIX_FORWARD_ELIMINATION i M Q B
        = fullRowOperations MATRIX_FORWARD_ELIMINATION i M Q B) ∧
    (∀ i B, perform_elementary_row_operations MATRIX_BACKWARD_ELIMINATION i M Q B
        = fullRowOperations MATRIX_BACKWARD_ELIMINATION i M Q B) ∧
    (∀ a b B, (swap_rows a b Q B).2 = swapped a b Q B) ∧
    eliminateFull M Q A = eliminate M Q A ∧
    computeRankFull M Q A = computeRank M Q A := by
  have hf : ¬ (MATRIX_BACKWARD_ELIMINATION = MATRIX_FORWARD_ELIMINATION) := by decide
  refine ⟨?_, ?_, ?_, fun a b B => swap_rows_snd a b Q B, eliminateFull_eq hb, ?_⟩
  · intro i hi
    obtain ⟨b1, b2⟩ := forward_steps_inv hb i (by omega)
    exact ⟨fun c hc => b2 c hc i hc (by omega), (pivotStepFull_fwd b1 b2 (by omega)).symm⟩
  · intro i B h1 h2
    rw [fullRow_fwd, perform_fwd i M Q B h1 h2]
  · intro i B
    simp only [fullRowOperations, perform_elementary_row_operations, if_neg hf]
  · unfold computeRankFull computeRank
    rw [eliminateFull_eq hb]

/-- An instance of the full-row theorem: the 2 by 3 matrix with rows `1 1 0` and `1 0 1`. -/
theorem C25_full_row_refinement_witness :
    Bits 2 3 (ofRows [[1, 1, 0], [1, 0, 1]]) ∧
    computeRankFull 2 3 (ofRows [[1, 1, 0], [1, 0, 1]])
      = computeRank 2 3 (ofRows [[1, 1, 0], [1, 0, 1]]) :=
  ⟨by decide,
    (C25_full_row_refinement 2 3 (ofRows [[1, 1, 0], [1, 0, 1]]) (by decide)).2.2.2.2.2⟩

/-- C26: for every `M` by `Q` bit matrix, the rows of the matrix left in place by
`computeRank` span the same subspace over GF(2) as the rows of the input matrix, so the
two matrices have the same rank over GF(2), and every cell is still 0 or 1.  Each pivot
step, on the matrices that arise, either leaves the matrix as it is, or adds row `i`
modulo 2 into rows other than `i`, after exchanging row `i` with another row or
without. -/
theorem C26_row_space_kept (M Q : Nat) (A : BitMatrix) (hb : Bits M Q A) :
    rowSpan M Q (eliminate M Q A) = rowSpan M Q A ∧
    (toMatrix M Q (eliminate M Q A)).rank = (toMatrix M Q A).rank ∧
    Bits M Q (eliminate M Q A) ∧
    (∀ i B, Bits M Q B → FwdInv i M B → i < M → i < Q →
      pivotStep MATRIX_FORWARD_ELIMINATION M Q i B = B ∨
      pivotStep MATRIX_FORWARD_ELIMINATION M Q i B = xorRows (fwdT i M B) i Q B ∨
      ∃ idx, i < idx ∧ idx < M ∧ pivotStep MATRIX_FORWARD_ELIMINATION M Q i B
        = xorRows (fwdT i M (swapped i idx Q B)) i Q (swapped i idx Q B)) ∧
    (∀ i B, Bits M Q B → i < M → i < Q →
      pivotStep MATRIX_BACKWARD_ELIMINATION M Q i B = B ∨
      pivotStep MATRIX_BACKWARD_ELIMINATION M Q i B = xorRows (bwdT i B) i Q B ∨
      ∃ idx, idx < i ∧ pivotStep MATRIX_BACKWARD_ELIMINATION M Q i B
        = xorRows (bwdT i (swapped i idx Q B)) i Q (swapped i idx Q B)) ∧
    (∀ i B r, (fwdT i M B r → r ≠ i) ∧ (bwdT i B r → r ≠ i)) := by
  refine ⟨rowSpan_eliminate hb, ?_, (eliminate_inv hb).1, ?_, ?_, ?_⟩
  · rw [rank_toMatrix, rank_toMatrix, rowSpan_eliminate hb]
  · intro i B h1 h2 h3 h4
    rcases fwd_step_cases h1 h2 h3 h4 with ⟨_, h⟩ | ⟨_, idx, a, b, _, _, h⟩ | ⟨_, _, h⟩
    · exact Or.inr (Or.inl h)
    · exact Or.inr (Or.inr ⟨idx, a, b, h⟩)
    · exact Or.inl h
  · intro i B h1 h3 h4
    rcases bwd_step_cases h1 h3 h4 with ⟨_, h⟩ | ⟨_, idx, a, _, _, h⟩ | ⟨_, _, h⟩
    · exact Or.inr (Or.inl h)
    · exact Or.inr (Or.inr ⟨idx, a, h⟩)
    · exact Or.inl h
  · intro i B r
    constructor
    · intro h
      have := h.1
      omega
    · intro h
      have := h.1
      omega

/-- An instance of the row-space theorem: the 2 by 3 matrix with rows `0 1 1` and `1 1 0`. -/
theorem C26_row_space_kept_witness :
    Bits 2 3 (ofRows [[0, 1, 1], [1, 1, 0]]) ∧
    rowSpan 2 3 (eliminate 2 3 (ofRows [[0, 1, 1], [1, 1, 0]]))
      = rowSpan 2 3 (ofRows [[0, 1, 1], [1, 1, 0]]) :=
  ⟨by decide, (C26_row_space_kept 2 3 (ofRows [[0, 1, 1], [1, 1, 0]]) (by decide)).1⟩

/-! ## Materialization in the square configuration -/

theorem streamIndex_square_lt (s n k i j : Nat) (hk : k < n / (s * s)) (hi : i < s)
    (hj : j < s) : streamIndex s s k i j < n := by
  have hs : 0 < s * s := Nat.mul_pos (by omega) (by omega)
  have h1 : (k + 1) * (s * s) ≤ n := (Nat.le_div_iff_mul_le hs).1 hk
  have h2 : (i + 1) * s ≤ s * s := Nat.mul_le_mul_right s hi
  unfold streamIndex
  have e1 : (k + 1) * (s * s) = k * (s * s) + s * s := by ring
  have e2 : (i + 1) * s = i * s + s := by ring
  omega

/-- Streams that agree below `n` materialize matrix `k < n / (s * s)` to the same cells,
whatever the scratch matrices held. -/
theorem agree_def_matrix_square (s n k : Nat) (hk : k < n / (s * s)) (eps1 eps2 : Nat → Nat)
    (he : ∀ p, p < n → eps1 p = eps2 p) (m1 m2 : BitMatrix) :
    AgreeOn s s (def_matrix eps1 s s m1 k) (def_matrix eps2 s s m2 k) := by
  intro r hr c hc
  rw [def_matrix_apply, def_matrix_apply, if_pos ⟨hr, hc⟩, if_pos ⟨hr, hc⟩]
  exact he _ (streamIndex_square_lt s n k r c hk hr hc)

theorem wrapInt_eq (z : Int) (h0 : -2147483648 ≤ z) (h1 : z ≤ 2147483647) :
    wrapInt z = z := by
  unfold wrapInt
  omega

theorem wrapInt_natCast (a : Nat) (h : a ≤ 2147483647) : wrapInt (a : Int) = (a : Int) :=
  wrapInt_eq _ (by omega) (by omega)

/-- While the stream has at most `2 ^ 31` bits, the index that `def_matrix` computes in
`int` is the exact position. -/
theorem streamIndexInt_square (s n k i j : Nat) (hk : k < n / (s * s)) (hi : i < s)
    (hj : j < s) (hn : n ≤ 2147483648) :
    streamIndexInt s s k i j = (streamIndex s s k i j : Int) := by
  have hlt := streamIndex_square_lt s n k i j hk hi hj
  have hkn : k < n := lt_of_lt_of_le hk (Nat.div_le_self _ _)
  unfold streamIndex at hlt ⊢
  unfold streamIndexInt
  have hk1 : wrapInt (k : Int) = (k : Int) := wrapInt_natCast k (by omega)
  have hprod : wrapInt (k : Int) * wrapInt ((s : Int) * (s : Int))
      = ((k * (s * s) : Nat) : Int) := by
    rw [hk1]
    rcases Nat.eq_zero_or_pos k with h0 | hpos
    · rw [h0, Nat.zero_mul, Nat.cast_zero, zero_mul]
    · have hle : s * s ≤ k * (s * s) := Nat.le_mul_of_pos_left _ hpos
      have h2 : s * s ≤ 2147483647 := by
        generalize k * (s * s) = a at hlt hle
        generalize s * s = c at hle
        generalize i * s = b at hlt
        omega
      rw [← Nat.cast_mul s s, wrapInt_natCast _ h2, ← Nat.cast_mul]
  have his : wrapInt ((i : Int) * (s : Int)) = ((i * s : Nat) : Int) := by
    have h2 : i * s ≤ 2147483647 := by
      generalize k * (s * s) = a at hlt
      generalize i * s = b at hlt
      omega
    rw [← Nat.cast_mul i s, wrapInt_natCast _ h2]
  rw [hprod, his]
  generalize k * (s * s) = a at hlt ⊢
  generalize i * s = b at hlt ⊢
  rw [wrapInt_natCast a (by omega), ← Nat.cast_add, wrapInt_natCast (a + j) (by omega),
    ← Nat.cast_add, wrapInt_natCast (a + j + b) (by omega)]

theorem fill_row (f : Nat → Nat) (i : Nat) (n : Nat) (B : BitMatrix) :
    ∀ r c, forUp 0 n (fun j C => setCell C i j (f j)) B r c
      = if r = i ∧ c < n then f c else B r c := by
  induction n with
  | zero =>
    intro r c
    rw [if_neg (by omega)]; rfl
  | succ n ih =>
    intro r c
    rw [forUp_succ, Nat.zero_add, setCell_apply]
    by_cases h : r = i ∧ c = n
    · rw [if_pos h, if_pos ⟨h.1, by omega⟩, h.2]
    · rw [if_neg h, ih]
      by_cases h2 : r = i ∧ c < n
      · rw [if_pos h2, if_pos ⟨h2.1, by omega⟩]
      · rw [if_neg h2, if_neg (by omega)]

theorem fill_rows (f : Nat → Nat → Nat) (Q : Nat) (n : Nat) (m : BitMatrix) :
    ∀ r c, forUp 0 n (fun i B => forUp 0 Q (fun j C => setCell C i j (f i j)) B) m r c
      = if r < n ∧ c < Q then f r c else m r c := by
  induction n with
  | zero =>
    intro r c
    rw [if_neg (by omega)]; rfl
  | succ n ih =>
    intro r c
    rw [forUp_succ, Nat.zero_add, fill_row (f n) n Q]
    by_cases h : r = n ∧ c < Q
    · rw [if_pos h, if_pos ⟨by omega, h.2⟩, h.1]
    · rw [if_neg h, ih]
      by_cases h2 : r < n ∧ c < Q
      · rw [if_pos h2, if_pos ⟨by omega, h2.2⟩]
      · rw [if_neg h2, if_neg (by omega)]

/-- The closed form of `def_matrixInt`: inside the `M` by `Q` cells the matrix holds what
is read at `streamIndexInt`, outside it is unchanged. -/
theorem def_matrixInt_apply (memory : Int → Nat) (M Q : Nat) (m : BitMatrix) (k : Nat) :
    ∀ r c, def_matrixInt memory M Q m k r c
      = if r < M ∧ c < Q then memory (streamIndexInt M Q k r c) else m r c := by
  unfold def_matrixInt
  exact fill_rows (fun i j => memory (streamIndexInt M Q k i j)) Q M m

/-- In the square configuration (`M = Q = s`) with matrix count `n / (s * s)` for a stream
of `n ≤ 2 ^ 31` bits, the index that `def_matrix` computes in `int` for a matrix `k` below
the matrix count is the exact position, which is below `n`; the function with the `int`
index materializes the cells that `def_matrix` holds in this development; `def_matrix`
overwrites all `s * s` cells with stream bits; so the matrix it materializes, the rank
computed for it and the tallies of the driver depend neither on the stream from position
`n` on nor on what the scratch matrix held before. -/
theorem square_reads_within_stream (s n k : Nat) (hk : k < n / (s * s))
    (hn : n ≤ 2147483648) :
    (∀ i j, i < s → j < s →
      streamIndexInt s s k i j = (streamIndex s s k i j : Int) ∧ streamIndex s s k i j < n) ∧
    (∀ (memory : Int → Nat) (epsilon : Nat → Nat) m1 m2,
      (∀ p : Nat, p < n → memory (p : Int) = epsilon p) →
      AgreeOn s s (def_matrixInt memory s s m1 k) (def_matrix epsilon s s m2 k)) ∧
    (∀ epsilon m r c, r < s → c < s →
      def_matrix epsilon s s m k r c = epsilon (streamIndex s s k r c)) ∧
    (∀ eps1 eps2 m1 m2, (∀ p, p < n → eps1 p = eps2 p) →
      computeRank s s (def_matrix eps1 s s m1 k) = computeRank s s (def_matrix eps2 s s m2 k)) ∧
    (∀ (D : Type) (env : Env D) eps1 eps2 m1 m2 (F_32 F_31 : Int),
      env.RANK_ROWS = s → env.RANK_COLS = s →
      (∀ p, p < n → eps1 p = eps2 p) →
      (tallyStep env eps1 k (F_32, F_31, m1)).1 = (tallyStep env eps2 k (F_32, F_31, m2)).1 ∧
      (tallyStep env eps1 k (F_32, F_31, m1)).2.1
        = (tallyStep env eps2 k (F_32, F_31, m2)).2.1) := by
  refine ⟨fun i j hi hj => ⟨streamIndexInt_square s n k i j hk hi hj hn,
    streamIndex_square_lt s n k i j hk hi hj⟩, ?_, ?_, ?_, ?_⟩
  · intro memory epsilon m1 m2 hmem r hr c hc
    rw [def_matrixInt_apply, def_matrix_apply, if_pos ⟨hr, hc⟩, if_pos ⟨hr, hc⟩,
      streamIndexInt_square s n k r c hk hr hc hn]
    exact hmem _ (streamIndex_square_lt s n k r c hk hr hc)
  · intro epsilon m r c hr hc
    rw [def_matrix_apply, if_pos ⟨hr, hc⟩]
  · intro eps1 eps2 m1 m2 he
    exact computeRank_congr (agree_def_matrix_square s n k hk eps1 eps2 he m1 m2)
  · intro D env eps1 eps2 m1 m2 F_32 F_31 hR hC he
    have h := computeRank_congr (agree_def_matrix_square s n k hk eps1 eps2 he m1 m2)
    simp only [tallyStep, hR, hC, h]
    exact ⟨trivial, trivial⟩

/-- C27, evaluated at a stream of `n = 2 ^ 31 + 1024` bits in the square configuration
(`M = Q = 32`): the matrix count is `2097153`, so matrix `k = 2097152` is materialized; the
exact position of its cell `(0, 0)` is `2 ^ 31`, below `n` but above the largest `int`;
the index that `def_matrix` computes in `int` is `-2 ^ 31`, and for every cell `(i, j)` of
this matrix it is negative; so the cells are read from before the start of the stream, and
two memories that hold the same stream give two different matrices. -/
theorem C27_index_overflow :
    (2097152 : Nat) < 2147484672 / (32 * 32) ∧
    streamIndex 32 32 2097152 0 0 = 2147483648 ∧
    streamIndex 32 32 2097152 0 0 < 2147484672 ∧
    (2147483647 : Int) < (streamIndex 32 32 2097152 0 0 : Int) ∧
    streamIndexInt 32 32 2097152 0 0 = -2147483648 ∧
    (∀ i j : Int, 0 ≤ i → i < 32 → 0 ≤ j → j < 32 →
      streamIndexInt 32 32 2097152 i j = -2147483648 + j + i * 32 ∧
      streamIndexInt 32 32 2097152 i j < 0) ∧
    (∀ (memory : Int → Nat) m,
      def_matrixInt memory 32 32 m 2097152 0 0 = memory (-2147483648)) ∧
    (∀ m, ∃ mem1 mem2 : Int → Nat,
      (∀ p : Int, 0 ≤ p → p < 2147484672 → mem1 p = mem2 p) ∧
      def_matrixInt mem1 32 32 m 2097152 0 0 ≠ def_matrixInt mem2 32 32 m 2097152 0 0) := by
  have h1 : wrapInt (wrapInt 2097152 * wrapInt (32 * 32)) = -2147483648 := by
    norm_num [wrapInt]
  have h0 : streamIndexInt 32 32 2097152 0 0 = -2147483648 := by
    unfold streamIndexInt
    rw [h1]
    norm_num [wrapInt]
  have hcell : ∀ (memory : Int → Nat) m,
      def_matrixInt memory 32 32 m 2097152 0 0 = memory (-2147483648) := by
    intro memory m
    rw [def_matrixInt_apply, if_pos ⟨by decide, by decide⟩]
    have e : streamIndexInt ((32 : Nat) : Int) ((32 : Nat) : Int) ((2097152 : Nat) : Int)
        ((0 : Nat) : Int) ((0 : Nat) : Int) = streamIndexInt 32 32 2097152 0 0 := rfl
    rw [e, h0]
  refine ⟨by norm_num, by norm_num [streamIndex], by norm_num [streamIndex],
    by norm_num [streamIndex], h0, ?_, hcell, ?_⟩
  · intro i j hi0 hi1 hj0 hj1
    have h2 : wrapInt (i * 32) = i * 32 := wrapInt_eq _ (by omega) (by omega)
    unfold streamIndexInt
    rw [h1, h2, wrapInt_eq (-2147483648 + j) (by omega) (by omega),
      wrapInt_eq (-2147483648 + j + i * 32) (by omega) (by omega)]
    exact ⟨rfl, by omega⟩
  · intro m
    refine ⟨fun _ => 0, fun p => if p < 0 then 1 else 0, ?_, ?_⟩
    · intro p hp0 _
      show (0 : Nat) = if p < 0 then 1 else 0
      rw [if_neg (by omega)]
    · rw [hcell, hcell]
      show (0 : Nat) ≠ if (-2147483648 : Int) < 0 then 1 else 0
      rw [if_pos (by decide)]
      decide

/-! ## Consistency of the tallies of `Rank_metrics` -/

/-- Counting the selected entries bin by bin, over bins that hold every selected entry,
counts each selected entry once. -/
theorem sum_countP_bins {D : Type} (sel : D → Bool) (f : D → Int) (n : Nat) :
    ∀ ps : List D, (∀ p, sel p = true → 0 ≤ f p ∧ f p < (n : Int)) →
      (∑ b in Finset.range n,
        ((ps.countP (fun p => sel p && decide ((b : Int) = f p)) : Nat) : Int))
        = ((ps.countP sel : Nat) : Int) := by
  intro ps h
  induction ps with
  | nil => simp
  | cons a l ih =>
    simp only [List.countP_cons, Nat.cast_add, Finset.sum_add_distrib, ih]
    congr 1
    cases hs : sel a with
    | false => simp
    | true =>
      obtain ⟨h1, h2⟩ := h a hs
      rw [Finset.sum_eq_single (f a).toNat]
      · have : ((f a).toNat : Int) = f a := Int.toNat_of_nonneg h1
        simp [this]
      · intro b _ hb
        have : ¬ ((b : Int) = f a) := by
          intro e
          apply hb
          rw [← e]
          simp
        simp [this]
      · intro hn
        exfalso
        apply hn
        rw [Finset.mem_range]
        omega

/-- C28: for every partition and `B ≥ 1` bins, the tallies that `Rank_metrics` hands to
`Rank_metric_print` are consistent: the bins `0 .. B-1` sum to `sampleCount`, and
`0 ≤ toolow ≤ sampleCount`; so `passCount` is `sampleCount - toolow`, and the case
`sampleCount < toolow`, in which `passCount` is set to 0, does not arise. -/
theorem C28_tallies_consistent {D : Type} [LinearOrderedField D] [FloorRing D] (env : Env D)
    (rs : RunState D) (j : Nat) (hB : 1 ≤ rs.uniformity_bins) :
    (∑ b in Finset.range rs.uniformity_bins.toNat,
      (partitionTally env rs j).freqPerBin (b : Int)) = (partitionTally env rs j).sampleCount ∧
    0 ≤ (partitionTally env rs j).sampleCount ∧
    0 ≤ (partitionTally env rs j).toolow ∧
    (partitionTally env rs j).toolow ≤ (partitionTally env rs j).sampleCount ∧
    ¬ ((partitionTally env rs j).sampleCount < (partitionTally env rs j).toolow) ∧
    passCount (partitionTally env rs j).sampleCount (partitionTally env rs j).toolow
      = (partitionTally env rs j).sampleCount - (partitionTally env rs j).toolow := by
  obtain ⟨h1, h2, h3⟩ := foldl_tallyValue env rs
    (partitionValues rs.p_val rs.partitionCount.toNat j) zeroTally
  rw [← partitionTally_eq_foldl] at h1 h2 h3
  have z1 : zeroTally.sampleCount = 0 := rfl
  have z2 : zeroTally.toolow = 0 := rfl
  have z3 : ∀ b, zeroTally.freqPerBin b = 0 := fun _ => rfl
  rw [z1, zero_add] at h1
  rw [z2, zero_add] at h2
  have hle : (partitionValues rs.p_val rs.partitionCount.toNat j).countP
        (fun p => isCounted env rs p && decide (p < rs.alpha))
      ≤ (partitionValues rs.p_val rs.partitionCount.toNat j).countP (isCounted env rs) := by
    apply List.countP_mono_left
    intro p _ hp
    simp only [Bool.and_eq_true] at hp
    exact hp.1
  have hsum : (∑ b in Finset.range rs.uniformity_bins.toNat,
      (partitionTally env rs j).freqPerBin (b : Int)) = (partitionTally env rs j).sampleCount := by
    rw [h1, ← sum_countP_bins (isCounted env rs) (binIndex rs.uniformity_bins)
      rs.uniformity_bins.toNat _ (fun p _ => by
        have := binIndex_bounds rs.uniformity_bins p hB
        have e : ((rs.uniformity_bins.toNat : Nat) : Int) = rs.uniformity_bins :=
          Int.toNat_of_nonneg (by omega)
        rw [e]
        exact this)]
    refine Finset.sum_congr rfl ?_
    intro b _
    rw [h3 (b : Int), z3, zero_add]
  have hs0 : 0 ≤ (partitionTally env rs j).sampleCount := by rw [h1]; exact Int.natCast_nonneg _
  have ht0 : 0 ≤ (partitionTally env rs j).toolow := by rw [h2]; exact Int.natCast_nonneg _
  have hts : (partitionTally env rs j).toolow ≤ (partitionTally env rs j).sampleCount := by
    rw [h1, h2]
    exact_mod_cast hle
  refine ⟨hsum, hs0, ht0, hts, not_lt.2 hts, ?_⟩
  unfold passCount
  by_cases hz : (partitionTally env rs j).sampleCount ≤ 0
  · rw [if_pos (Or.inl hz)]
    omega
  · rw [if_neg (by rintro (h | h) <;> omega)]

/-- An instance of the consistency theorem: the example run after one iteration. -/
theorem C28_tallies_consistent_witness :
    1 ≤ (exampleIterated 1).uniformity_bins ∧
    (partitionTally exampleEnv (exampleIterated 1) 0).toolow
      ≤ (partitionTally exampleEnv (exampleIterated 1) 0).sampleCount :=
  ⟨by decide, (C28_tallies_consistent exampleEnv (exampleIterated 1) 0 (by decide)).2.2.2.1⟩

/-! ## The range of the p-value -/

theorem chiTerm_nonneg {D : Type} [LinearOrderedField D] (F : Int) (N : Nat) (p : D)
    (hN : 1 ≤ N) (hp : 0 < p) : 0 ≤ chiTerm F N p := by
  have hN' : (0 : D) < (N : D) := by exact_mod_cast hN
  unfold chiTerm
  exact div_nonneg (mul_self_nonneg _) (le_of_lt (mul_pos hN' hp))

theorem chiSquared_nonneg {D : Type} [LinearOrderedField D] (F_32 F_31 F_30 : Int) (N : Nat)
    (p_32 p_31 p_30 : D) (hN : 1 ≤ N) (h32 : 0 < p_32) (h31 : 0 < p_31) (h30 : 0 < p_30) :
    0 ≤ chiSquared F_32 F_31 F_30 N p_32 p_31 p_30 := by
  rw [chiSquared_eq_terms]
  exact add_nonneg (add_nonneg (chiTerm_nonneg _ _ _ hN h32) (chiTerm_nonneg _ _ _ hN h31))
    (chiTerm_nonneg _ _ _ hN h30)

/-- C29: let `exp` have the two properties of the real exponential that matter here,
`exp x > 0` and `exp x ≤ 1` for `x ≤ 0` (the witness below takes the real numbers and
`Real.exp`).  Then for every matrix count `N ≥ 1`, all tallies and all probabilities
`p_32, p_31, p_30 > 0`, the chi-squared value is `≥ 0` and `exp(-chi_squared / 2)` lies
in `(0, 1]`; and an accepted call of `Rank_iterate` on a testable stream computes a
p-value in `(0, 1]`, takes neither of the two bogus branches and increments
`valid_p_val`. -/
theorem C29_p_value_in_range {D : Type} [LinearOrderedField D] (env : Env D)
    (state : State D) (epsilon : Nat → Nat) (matrix : BitMatrix)
    (ha : Accepted state epsilon matrix) (hN : 1 ≤ state.matrix_count)
    (h32 : 0 < state.p_32) (h31 : 0 < state.p_31) (h30 : 0 < state.p_30)
    (hexp0 : ∀ x, 0 < env.exp x) (hexp1 : ∀ x, x ≤ 0 → env.exp x ≤ 1) :
    (∀ F_32 F_31 F_30 : Int,
      0 ≤ chiSquared F_32 F_31 F_30 state.matrix_count state.p_32 state.p_31 state.p_30 ∧
      0 < env.exp (-(chiSquared F_32 F_31 F_30 state.matrix_count state.p_32 state.p_31
        state.p_30) / 2) ∧
      env.exp (-(chiSquared F_32 F_31 F_30 state.matrix_count state.p_32 state.p_31
        state.p_30) / 2) ≤ 1) ∧
    ∃ state' p, Rank_iterate env state = Except.ok state' ∧
      state'.p_val = state.p_val ++ [p] ∧
      p = pValue env state epsilon (zeroize env.RANK_ROWS env.RANK_COLS matrix) ∧
      0 < p ∧ p ≤ 1 ∧ isNegative p = false ∧ isGreaterThanOne p = false ∧
      state'.valid_p_val = state.valid_p_val + 1 ∧ state'.valid = state.valid + 1 := by
  have hchi : ∀ F_32 F_31 F_30 : Int,
      0 ≤ chiSquared F_32 F_31 F_30 state.matrix_count state.p_32 state.p_31 state.p_30 ∧
      0 < env.exp (-(chiSquared F_32 F_31 F_30 state.matrix_count state.p_32 state.p_31
        state.p_30) / 2) ∧
      env.exp (-(chiSquared F_32 F_31 F_30 state.matrix_count state.p_32 state.p_31
        state.p_30) / 2) ≤ 1 := by
    intro F_32 F_31 F_30
    have h := chiSquared_nonneg F_32 F_31 F_30 state.matrix_count state.p_32 state.p_31
      state.p_30 hN h32 h31 h30
    refine ⟨h, hexp0 _, hexp1 _ ?_⟩
    exact div_nonpos_of_nonpos_of_nonneg (neg_nonpos.2 h) (by norm_num)
  refine ⟨hchi, ?_⟩
  have hp : 0 < pValue env state epsilon (zeroize env.RANK_ROWS env.RANK_COLS matrix) ∧
      pValue env state epsilon (zeroize env.RANK_ROWS env.RANK_COLS matrix) ≤ 1 := by
    unfold pValue testableStat
    exact (hchi _ _ _).2
  obtain ⟨state', hrun, hpv, _, hvalid, _, _, b, _, _, hlow, hhigh⟩ :=
    Rank_iterate_testable env state epsilon matrix ha (by omega)
  refine ⟨state', _, hrun, hpv, rfl, hp.1, hp.2, ?_, ?_, ?_, hvalid⟩
  · unfold isNegative
    exact decide_eq_false (not_lt.2 (le_of_lt hp.1))
  · unfold isGreaterThanOne
    exact decide_eq_false (not_lt.2 hp.2)
  · rcases lt_or_le (pValue env state epsilon (zeroize env.RANK_ROWS env.RANK_COLS matrix))
      state.alpha with h | h
    · exact (hlow (le_of_lt hp.1) hp.2 h).2.2.1
    · exact (hhigh (le_of_lt hp.1) hp.2 h).2.2.1

/-- An instance of the p-value theorem over the real numbers, with the real exponential:
the sample state with one matrix. -/
theorem C29_p_value_in_range_witness :
    Accepted (sampleState (D := ℝ) 1) (fun _ => 0) zeroMatrix ∧
    1 ≤ (sampleState (D := ℝ) 1).matrix_count ∧
    (0 : ℝ) < (sampleState (D := ℝ) 1).p_32 ∧ (0 : ℝ) < (sampleState (D := ℝ) 1).p_31 ∧
    (0 : ℝ) < (sampleState (D := ℝ) 1).p_30 ∧
    (∀ x, 0 < (sampleEnv Real.exp).exp x) ∧ (∀ x, x ≤ 0 → (sampleEnv Real.exp).exp x ≤ 1) ∧
    ∃ state' p, Rank_iterate (sampleEnv Real.exp) (sampleState 1) = Except.ok state' ∧
      state'.p_val = (sampleState (D := ℝ) 1).p_val ++ [p] ∧ 0 < p ∧ p ≤ 1 ∧
      state'.valid_p_val = (sampleState (D := ℝ) 1).valid_p_val + 1 :=
  have ha : Accepted (sampleState (D := ℝ) 1) (fun _ => 0) zeroMatrix :=
    ⟨rfl, rfl, rfl, rfl, Or.inl rfl⟩
  have h32 : (0 : ℝ) < (sampleState (D := ℝ) 1).p_32 := by
    show (0 : ℝ) < 1 / 4
    norm_num
  have h31 : (0 : ℝ) < (sampleState (D := ℝ) 1).p_31 := by
    show (0 : ℝ) < 1 / 2
    norm_num
  have h0 : ∀ x, 0 < (sampleEnv Real.exp).exp x := fun x => Real.exp_pos x
  have h1 : ∀ x, x ≤ 0 → (sampleEnv Real.exp).exp x ≤ 1 :=
    fun x hx => Real.exp_le_one_iff.2 hx
  ⟨ha, le_refl 1, h32, h31, h32, h0, h1,
    (C29_p_value_in_range (sampleEnv Real.exp) (sampleState 1) (fun _ => 0) zeroMatrix ha
      (le_refl 1) h32 h31 h32 h0 h1).2.elim
      (fun state' h => h.elim
        (fun p h => ⟨state', p, h.1, h.2.1, h.2.2.2.1, h.2.2.2.2.1, h.2.2.2.2.2.2.2.1⟩))⟩

end STS
